import Mathlib

/-!
Verification of the `http-saver` HTTP record/replay engine against its
natural-language specification.

The development shallowly embeds the TypeScript sources:

* `src/serdes.ts`    — codec between live messages and JSON-safe records,
  the deterministic canonicalizer, and key/file-name derivation
  (namespace `Serdes`; the older historical variant of the key scheme from
  the unnamed source `part_001` lives in namespace `SerdesV1`);
* `src/sanitizer.ts` — the `Sanitizer` class (namespace `Sanitize`);
* `src/fs.ts`        — `getJsonDataFromFile` and its memoization
  (namespace `FsModel`);
* `src/httpSaver.ts` / the unnamed `part_000` — the `HttpSaver` interceptor
  state machine (namespace `Saver`);
* `src/mockResponse.ts` — the `MockResponse` value type.

Modelling conventions, used throughout:

* Machine numbers are `Nat`/`Int` with explicit `% 2 ^ 32` where 32-bit
  wrap-around matters (SHA-256).  Byte arrays are `List Nat` of values
  below 256.
* JavaScript strings are Lean `String`s (sequences of Unicode scalar
  values).  JavaScript string comparison (`a < b`) is modelled by
  lexicographic comparison of UTF-16 code units (`jsLt`), exactly as the
  engine compares; strings containing lone surrogates are outside the
  model, since a Lean `Char` is always a scalar value.
* JSON numbers are modelled as arbitrary-precision integers.  Fractional
  and exponent numerals (IEEE-754 semantics) are outside the model: the
  embedded `JSON.parse` rejects them, and no claim depends on them.
* JavaScript objects are association lists in property-insertion order.
  The engine only ever builds objects whose keys are header names, record
  field names, or body keys; the JS rule that integer-like keys enumerate
  first is not modelled (it is a deterministic reordering that applies
  identically to both sides of every comparison the claims make).
* Asynchronous code is modelled by explicit state passing in the order in
  which the source awaits; single-call claims need no interleaving.
-/

set_option maxHeartbeats 1000000

namespace HttpSaverProof

/-! ## JavaScript string order

JavaScript compares strings by their UTF-16 code units.  `utf16Units`
encodes one scalar value, `jsLt` is the resulting strict order, used by
`Array.prototype.sort` comparators and `URLSearchParams.sort`. -/

/-- UTF-16 code units of one Unicode scalar value (one unit below
`0x10000`, otherwise a surrogate pair). -/
def utf16Units (c : Char) : List Nat :=
  if c.toNat < 0x10000 then [c.toNat]
  else [0xD800 + (c.toNat - 0x10000) / 0x400, 0xDC00 + (c.toNat - 0x10000) % 0x400]

/-- UTF-16 code units of a list of scalar values. -/
def utf16L (cs : List Char) : List Nat := cs.flatMap utf16Units

/-- UTF-16 code units of a string. -/
def utf16Of (s : String) : List Nat := utf16L s.data

/-- Strict lexicographic order on lists of naturals. -/
def natListLt : List Nat → List Nat → Bool
  | [], [] => false
  | [], _ :: _ => true
  | _ :: _, [] => false
  | a :: as, b :: bs => if a < b then true else if b < a then false else natListLt as bs

/-- The JavaScript `<` on strings: lexicographic on UTF-16 code units. -/
def jsLt (a b : String) : Bool := natListLt (utf16Of a) (utf16Of b)

theorem natListLt_asymm : ∀ {a b : List Nat}, natListLt a b = true → natListLt b a = false
  | [], [], h => by simp [natListLt] at h
  | [], _ :: _, _ => by simp [natListLt]
  | _ :: _, [], h => by simp [natListLt] at h
  | a :: as, b :: bs, h => by
      simp only [natListLt] at h ⊢
      by_cases hab : a < b
      · simp [hab, Nat.lt_asymm hab]
      · by_cases hba : b < a
        · simp [hab, hba] at h
        · have heq : a = b := by omega
          subst heq
          simp only [if_neg hab, if_neg hba] at h ⊢
          simpa using natListLt_asymm h

theorem natListLt_eq_of_not : ∀ {a b : List Nat},
    natListLt a b = false → natListLt b a = false → a = b
  | [], [], _, _ => rfl
  | [], _ :: _, h, _ => by simp [natListLt] at h
  | _ :: _, [], _, h => by simp [natListLt] at h
  | a :: as, b :: bs, h, h' => by
      by_cases hab : a < b
      · simp [natListLt, hab] at h
      · by_cases hba : b < a
        · simp [natListLt, hba, hab] at h'
        · have heq : a = b := by omega
          subst heq
          simp only [natListLt, if_neg hab] at h h'
          rw [natListLt_eq_of_not h h']

theorem natListLt_trans : ∀ {a b c : List Nat},
    natListLt a b = true → natListLt b c = true → natListLt a c = true
  | [], _, _ :: _, _, _ => by simp [natListLt]
  | [], _ :: _, [], _, h => by simp [natListLt] at h
  | [], [], _, h, _ => by simp [natListLt] at h
  | _ :: _, [], _, h, _ => by simp [natListLt] at h
  | _ :: _, _ :: _, [], _, h => by simp [natListLt] at h
  | a :: as, b :: bs, c :: cs, h, h' => by
      simp only [natListLt] at h h' ⊢
      rcases Nat.lt_trichotomy a b with hab | hab | hab
      · rcases Nat.lt_trichotomy b c with hbc | hbc | hbc
        · simp [show a < c by omega]
        · subst hbc
          simp [hab]
        · simp [show ¬b < c by omega, hbc] at h'
      · subst hab
        simp only [lt_irrefl, if_neg (lt_irrefl a)] at h
        rcases Nat.lt_trichotomy a c with hac | hac | hac
        · simp [hac]
        · subst hac
          simp only [lt_irrefl, if_neg (lt_irrefl a)] at h' ⊢
          exact natListLt_trans h h'
        · simp [show ¬a < c by omega, hac] at h'
      · simp [show ¬a < b by omega, hab] at h

/-- Unicode scalar values avoid the surrogate range. -/
theorem char_valid_nat (c : Char) :
    c.toNat < 0xD800 ∨ (0xDFFF < c.toNat ∧ c.toNat < 0x110000) := by
  have h := c.valid
  simp only [UInt32.isValidChar, Nat.isValidChar] at h
  exact h

theorem char_toNat_inj {c d : Char} (h : c.toNat = d.toNat) : c = d :=
  Char.ext (UInt32.toNat.inj h)

theorem utf16Units_ne_nil (c : Char) : utf16Units c ≠ [] := by
  unfold utf16Units
  split <;> simp

/-- Decoding from the front is unambiguous: equal unit streams force the
leading scalar value and the tails to agree. -/
theorem utf16Units_head_inj {c d : Char} {r r' : List Nat}
    (h : utf16Units c ++ r = utf16Units d ++ r') : c = d ∧ r = r' := by
  have hc := char_valid_nat c
  have hd := char_valid_nat d
  unfold utf16Units at h
  by_cases h1 : c.toNat < 0x10000 <;> by_cases h2 : d.toNat < 0x10000 <;>
      simp only [h1, h2, if_pos, if_neg, List.cons_append, List.nil_append,
        List.cons.injEq, not_false_iff] at h
  · exact ⟨char_toNat_inj h.1, h.2⟩
  · exact absurd h.1 (by omega)
  · exact absurd h.1 (by omega)
  · obtain ⟨e1, e2, e3⟩ := h
    refine ⟨char_toNat_inj ?_, e3⟩
    omega

theorem utf16L_inj : ∀ {a b : List Char}, utf16L a = utf16L b → a = b
  | [], [], _ => rfl
  | [], c :: cs, h => by
      exfalso
      apply utf16Units_ne_nil c
      have h2 : utf16Units c ++ utf16L cs = [] := by simpa [utf16L] using h.symm
      exact (List.append_eq_nil.mp h2).1
  | c :: cs, [], h => by
      exfalso
      apply utf16Units_ne_nil c
      have h2 : utf16Units c ++ utf16L cs = [] := by simpa [utf16L] using h
      exact (List.append_eq_nil.mp h2).1
  | _ :: as, _ :: bs, h => by
      simp only [utf16L, List.flatMap_cons] at h
      obtain ⟨rfl, ht⟩ := utf16Units_head_inj h
      rw [utf16L_inj (a := as) (b := bs) ht]

theorem utf16Of_inj {a b : String} (h : utf16Of a = utf16Of b) : a = b :=
  String.ext (utf16L_inj h)

theorem jsLt_asymm {a b : String} (h : jsLt a b = true) : jsLt b a = false :=
  natListLt_asymm h

theorem jsLt_eq_of_not {a b : String} (h : jsLt a b = false) (h' : jsLt b a = false) :
    a = b :=
  utf16Of_inj (natListLt_eq_of_not h h')

theorem jsLt_trans {a b c : String} (h : jsLt a b = true) (h' : jsLt b c = true) :
    jsLt a c = true :=
  natListLt_trans h h'

/-! ## Stable sorting

`Array.prototype.sort` and `URLSearchParams.sort` are required to be
stable; `sortByJs` is a stable insertion sort (each element is placed
after every element it does not strictly precede), so it computes the
result any conforming engine produces. -/

/-- Insert after every element `y` with `le y x`. -/
def insertSorted {α : Type} (le : α → α → Bool) (x : α) : List α → List α
  | [] => [x]
  | y :: ys => if le y x then y :: insertSorted le x ys else x :: y :: ys

/-- Stable sort by a boolean total preorder. -/
def sortByJs {α : Type} (le : α → α → Bool) (l : List α) : List α :=
  l.foldl (fun acc x => insertSorted le x acc) []

theorem insertSorted_perm {α : Type} (le : α → α → Bool) (x : α) :
    ∀ l : List α, (insertSorted le x l).Perm (x :: l)
  | [] => List.Perm.refl _
  | y :: ys => by
      unfold insertSorted
      split
      · exact ((insertSorted_perm le x ys).cons y).trans (List.Perm.swap x y ys)
      · exact List.Perm.refl _

theorem sortByJs_perm {α : Type} (le : α → α → Bool) (l : List α) :
    (sortByJs le l).Perm l := by
  suffices h : ∀ (l acc : List α), (l.foldl (fun acc x => insertSorted le x acc) acc).Perm
      (acc ++ l) by
    simpa using h l []
  intro l
  induction l with
  | nil => simp
  | cons x xs ih =>
      intro acc
      refine (ih (insertSorted le x acc)).trans ?_
      refine (((insertSorted_perm le x acc).append_right xs).trans ?_)
      simpa using (@List.perm_middle _ x acc xs).symm

theorem insertSorted_sorted {α : Type} {le : α → α → Bool}
    (htot : ∀ a b, le a b || le b a)
    (htr : ∀ a b c, le a b = true → le b c = true → le a c = true) {x : α} :
    ∀ {l : List α}, l.Pairwise (fun a b => le a b = true) →
      (insertSorted le x l).Pairwise (fun a b => le a b = true)
  | [], _ => by simp [insertSorted]
  | y :: ys, h => by
      unfold insertSorted
      rcases List.pairwise_cons.mp h with ⟨hy, hys⟩
      split
      · rename_i hle
        refine List.pairwise_cons.mpr ⟨?_, insertSorted_sorted htot htr hys⟩
        intro z hz
        rcases List.mem_cons.mp ((insertSorted_perm le x ys).mem_iff.mp hz) with rfl | hz
        · exact hle
        · exact hy z hz
      · rename_i hle
        have hxy : le x y = true := by
          have := htot y x
          simp only [Bool.or_eq_true] at this
          rcases this with h1 | h1
          · exact absurd h1 hle
          · exact h1
        refine List.pairwise_cons.mpr ⟨?_, h⟩
        intro z hz
        rcases List.mem_cons.mp hz with rfl | hz
        · exact hxy
        · exact htr x y z hxy (hy z hz)

theorem sortByJs_sorted {α : Type} {le : α → α → Bool}
    (htot : ∀ a b, le a b || le b a)
    (htr : ∀ a b c, le a b = true → le b c = true → le a c = true)
    (l : List α) : (sortByJs le l).Pairwise (fun a b => le a b = true) := by
  suffices h : ∀ (l acc : List α), acc.Pairwise (fun a b => le a b = true) →
      (l.foldl (fun acc x => insertSorted le x acc) acc).Pairwise
        (fun a b => le a b = true) by
    exact h l [] (by simp)
  intro l
  induction l with
  | nil => intro acc hacc; simpa using hacc
  | cons x xs ih =>
      intro acc hacc
      exact ih _ (insertSorted_sorted htot htr hacc)

/-! ## JSON values

`Json` models a JavaScript value reachable from `JSON.parse` or built by
the engine.  Objects are association lists in property-insertion order
(JavaScript objects never hold two properties of the same name, which is
the `NodupKeys` well-formedness predicate below). -/

inductive Json where
  | null
  | bool (b : Bool)
  | num (n : Int)
  | str (s : String)
  | arr (items : List Json)
  | obj (entries : List (String × Json))

namespace Json

/-- Property-set on a JavaScript object: an existing name is overwritten in
place, a new name is appended.  This is how `JSON.parse` resolves duplicate
member names (last value wins, first position kept). -/
def objSet (xs : List (String × Json)) (k : String) (v : Json) : List (String × Json) :=
  if (xs.map Prod.fst).contains k then
    xs.map fun p => if p.1 = k then (k, v) else p
  else xs ++ [(k, v)]

/-- Property lookup by name (first match). -/
def lookup (k : String) : List (String × Json) → Option Json
  | [] => none
  | (k', v) :: xs => if k' = k then some v else lookup k xs

/-! ### Printing: `JSON.stringify` without replacer or space

The compact form used by `deserializeBody` (`JSON.stringify(body.data)`)
and, composed with sorting, by `jsonStringifyDeterministically`. -/

/-- Decimal digits, least significant first, fuelled so that the
definition is structurally recursive (and hence kernel-evaluable). -/
def natDigitsRevGo : Nat → Nat → List Char
  | 0, _ => []
  | f + 1, n =>
      if n < 10 then [Char.ofNat (48 + n)]
      else Char.ofNat (48 + n % 10) :: natDigitsRevGo f (n / 10)

/-- Decimal digits of a natural number, least significant first. -/
def natDigitsRev (n : Nat) : List Char := natDigitsRevGo (n + 1) n

theorem natDigitsRevGo_congr : ∀ {n f f' : Nat}, n < f → n < f' →
    natDigitsRevGo f n = natDigitsRevGo f' n := by
  intro n
  induction n using Nat.strong_induction_on with
  | _ n ih =>
    intro f f' hf hf'
    match f, f' with
    | f + 1, f' + 1 =>
      simp only [natDigitsRevGo]
      by_cases h : n < 10
      · simp [h]
      · simp only [if_neg h]
        exact congrArg _ (ih (n / 10) (by omega) (show n / 10 < f by omega) (show n / 10 < f' by omega))

/-- The defining recurrence of `natDigitsRev`. -/
theorem natDigitsRev_unfold (n : Nat) :
    natDigitsRev n
      = if n < 10 then [Char.ofNat (48 + n)]
        else Char.ofNat (48 + n % 10) :: natDigitsRev (n / 10) := by
  by_cases h : n < 10
  · simp only [natDigitsRev, natDigitsRevGo, if_pos h]
  · simp only [natDigitsRev, natDigitsRevGo, if_neg h]
    exact congrArg _ (natDigitsRevGo_congr (show n / 10 < n by omega) (show n / 10 < n / 10 + 1 by omega))

/-- Decimal numeral of a natural number, most significant first. -/
def printNat (n : Nat) : List Char := (natDigitsRev n).reverse

/-- Decimal numeral of an integer as `JSON.stringify` emits it (no `-0`,
no exponent form; integers are the modelled fragment of JS numbers). -/
def printInt (i : Int) : List Char :=
  if i < 0 then '-' :: printNat i.natAbs else printNat i.natAbs

/-- Lower-case hex digit. -/
def hexDigitChar (n : Nat) : Char :=
  if n < 10 then Char.ofNat (48 + n) else Char.ofNat (87 + n)

/-- One string character as `QuoteJSONString` escapes it: quote and
backslash escaped, the five short control escapes, `\u00xy` for the other
control characters, everything else verbatim. -/
def escChar (c : Char) : List Char :=
  if c = '"' then ['\\', '"']
  else if c = '\\' then ['\\', '\\']
  else if c.toNat = 8 then ['\\', 'b']
  else if c.toNat = 9 then ['\\', 't']
  else if c.toNat = 10 then ['\\', 'n']
  else if c.toNat = 12 then ['\\', 'f']
  else if c.toNat = 13 then ['\\', 'r']
  else if c.toNat < 32 then
    ['\\', 'u', '0', '0', hexDigitChar (c.toNat / 16), hexDigitChar (c.toNat % 16)]
  else [c]

/-- A JSON string literal, quotes included. -/
def printStr (s : String) : List Char := '"' :: (s.data.flatMap escChar ++ ['"'])

mutual

/-- Compact rendering of a value, exactly `JSON.stringify(v)`. -/
def printL : Json → List Char
  | .null => "null".data
  | .bool true => "true".data
  | .bool false => "false".data
  | .num i => printInt i
  | .str s => printStr s
  | .arr items => '[' :: (printItems items ++ [']'])
  | .obj entries => '{' :: (printEntries entries ++ ['}'])

/-- Comma-separated renderings of array items. -/
def printItems : List Json → List Char
  | [] => []
  | [v] => printL v
  | v :: vs => printL v ++ ',' :: printItems vs

/-- Comma-separated `"key":value` renderings of object entries. -/
def printEntries : List (String × Json) → List Char
  | [] => []
  | [(k, v)] => printStr k ++ ':' :: printL v
  | (k, v) :: es => printStr k ++ ':' :: printL v ++ ',' :: printEntries es

end

/-- Rendering as a string, the form the engine hashes and stores. -/
def stringify (v : Json) : String := String.mk (printL v)

/-! ### The deterministic canonicalizer

`jsonStringifyDeterministically(obj)` is `JSON.stringify` with a replacer
that rebuilds every plain object from its entries sorted by key with the
comparator `([a], [b]) => a > b ? 1 : a < b ? -1 : 0`, which is `jsLt` on
the names.  Its net effect is the recursive `deepSort` below followed by
compact printing. -/

/-- The sort predicate the comparator induces on entries: not strictly
greater by key. -/
def entryLe (p q : String × Json) : Bool := !jsLt q.1 p.1

mutual

/-- Recursively sort every object's entries by name.  Sorting commutes
with the recursion into values because the comparator reads only names. -/
def deepSort : Json → Json
  | .obj entries => .obj (sortByJs entryLe (deepSortEntries entries))
  | .arr items => .arr (deepSortItems items)
  | v => v

def deepSortItems : List Json → List Json
  | [] => []
  | v :: vs => deepSort v :: deepSortItems vs

def deepSortEntries : List (String × Json) → List (String × Json)
  | [] => []
  | (k, v) :: es => (k, deepSort v) :: deepSortEntries es

end

end Json

/-! ### Parsing: `JSON.parse` without reviver

A strict recursive-descent parser over the character list, with the exact
JSON grammar on the modelled fragment: `null`/`true`/`false`, integer
numerals (no leading zeros; fraction and exponent forms are outside the
integer model and rejected), strings with the seven short escapes and
`\uXXXX` (surrogate pairs combined, lone surrogates outside the model),
arrays and objects with `ws` between tokens.  Duplicate member names are
resolved via `objSet` (last wins, first position kept), as evaluation of
`JSON.parse` defines members one by one.

Recursion is on a fuel bounded by the input length plus one, which always
suffices: at least one character is consumed before every recursive call
that burns fuel. -/

/-- JSON whitespace: space, tab, line feed, carriage return. -/
def isJsonWs (c : Char) : Bool := c = ' ' || c = '\t' || c = '\n' || c = '\r'

/-- Drop leading JSON whitespace. -/
def dropWs : List Char → List Char
  | c :: cs => if isJsonWs c then dropWs cs else c :: cs
  | [] => []

/-- Hexadecimal digit value, either case. -/
def hexVal? (c : Char) : Option Nat :=
  if 48 ≤ c.toNat ∧ c.toNat ≤ 57 then some (c.toNat - 48)
  else if 97 ≤ c.toNat ∧ c.toNat ≤ 102 then some (c.toNat - 87)
  else if 65 ≤ c.toNat ∧ c.toNat ≤ 70 then some (c.toNat - 55)
  else none

/-- Decimal digit test. -/
def isDigitC (c : Char) : Bool := 48 ≤ c.toNat && c.toNat ≤ 57

/-- Value of four hex digits, or `none` if one is not a hex digit. -/
def hex4 (a b c d : Char) : Option Nat :=
  match hexVal? a, hexVal? b, hexVal? c, hexVal? d with
  | some x1, some x2, some x3, some x4 => some (((x1 * 16 + x2) * 16 + x3) * 16 + x4)
  | _, _, _, _ => none

/-- One step of the string-body parser, from just after the opening quote:
`recur` continues on the input left after the consumed character or escape.
Unescaped control characters are rejected, surrogate `\u` pairs are
combined into the scalar value they denote. -/
def parseStrBodyStep (recur : List Char → List Char → Option (String × List Char))
    (acc : List Char) (cs : List Char) : Option (String × List Char) :=
  match cs with
  | [] => none
  | ch :: rest =>
      if ch = '"' then some (String.mk acc.reverse, rest)
      else if ch = '\\' then
        match rest with
        | [] => none
        | e :: rest2 =>
            if e = 'u' then
              match rest2 with
              | a :: b :: c :: d :: rest3 =>
                  match hex4 a b c d with
                  | none => none
                  | some n =>
                      if n < 0xD800 ∨ 0xDFFF < n then
                        recur (Char.ofNat n :: acc) rest3
                      else if n ≤ 0xDBFF then
                        match rest3 with
                        | e2 :: u2 :: a2 :: b2 :: c2 :: d2 :: rest4 =>
                            if e2 = '\\' ∧ u2 = 'u' then
                              match hex4 a2 b2 c2 d2 with
                              | none => none
                              | some m =>
                                  if 0xDC00 ≤ m ∧ m ≤ 0xDFFF then
                                    recur
                                      (Char.ofNat
                                        (0x10000 + (n - 0xD800) * 0x400 + (m - 0xDC00)) :: acc)
                                      rest4
                                  else none
                            else none
                        | _ => none
                      else none
              | _ => none
            else if e = '"' then recur ('"' :: acc) rest2
            else if e = '\\' then recur ('\\' :: acc) rest2
            else if e = '/' then recur ('/' :: acc) rest2
            else if e = 'b' then recur (Char.ofNat 8 :: acc) rest2
            else if e = 'f' then recur (Char.ofNat 12 :: acc) rest2
            else if e = 'n' then recur ('\n' :: acc) rest2
            else if e = 'r' then recur ('\r' :: acc) rest2
            else if e = 't' then recur ('\t' :: acc) rest2
            else none
      else if ch.toNat < 32 then none
      else recur (ch :: acc) rest

/-- Fuel-indexed iteration of the string-body step.  Every step consumes at
least one input character, so fuel exceeding the input length never runs
out. -/
def parseStrBodyGo (fuel : Nat) (acc cs : List Char) : Option (String × List Char) :=
  match fuel with
  | 0 => none
  | fuel + 1 => parseStrBodyStep (parseStrBodyGo fuel) acc cs
termination_by structural fuel

/-- String-body parser, from just after the opening quote to just after
the closing quote. -/
def parseStrBody (acc cs : List Char) : Option (String × List Char) :=
  parseStrBodyGo (cs.length + 1) acc cs

/-- Greedy run of decimal digits. -/
def takeDigits : List Char → List Char × List Char
  | c :: cs =>
      if isDigitC c then
        let p := takeDigits cs
        (c :: p.1, p.2)
      else ([], c :: cs)
  | [] => ([], [])

/-- Value of a digit run, most significant first. -/
def digitsToNat (ds : List Char) : Nat :=
  ds.foldl (fun acc c => acc * 10 + (c.toNat - 48)) 0

/-- Sign application for a parsed numeral. -/
def signedOf (neg : Bool) (n : Nat) : Int := if neg then -(n : Int) else (n : Int)

/-- Integer numeral parser: optional minus, `0` or a nonzero-led digit
run; a following `.`/`e`/`E` (a fraction or exponent, i.e. a non-integer
number) is outside the model and rejected. -/
def parseNum (cs : List Char) : Option (Int × List Char) :=
  let p : Bool × List Char :=
    match cs with
    | c :: r => if c = '-' then (true, r) else (false, c :: r)
    | [] => (false, [])
  match takeDigits p.2 with
  | ([], _) => none
  | (d :: ds, rest) =>
      if d = '0' ∧ ds ≠ [] then none
      else
        match rest with
        | r :: _ =>
            if r = '.' ∨ r = 'e' ∨ r = 'E' then none
            else some (signedOf p.1 (digitsToNat (d :: ds)), rest)
        | [] => some (signedOf p.1 (digitsToNat (d :: ds)), rest)

/-- One step of the value parser: `pitems` and `pentries` continue into
array items and object members.  Leading whitespace allowed. -/
def parseValStep (pitems : List Char → Option (List Json × List Char))
    (pentries : List Char → Option (List (String × Json) × List Char))
    (cs : List Char) : Option (Json × List Char) :=
  match dropWs cs with
  | 'n' :: 'u' :: 'l' :: 'l' :: rest => some (.null, rest)
  | 't' :: 'r' :: 'u' :: 'e' :: rest => some (.bool true, rest)
  | 'f' :: 'a' :: 'l' :: 's' :: 'e' :: rest => some (.bool false, rest)
  | '"' :: rest =>
      match parseStrBody [] rest with
      | some (s, r) => some (.str s, r)
      | none => none
  | '[' :: rest =>
      match dropWs rest with
      | ']' :: r => some (.arr [], r)
      | r =>
          match pitems r with
          | some (vs, r') => some (.arr vs, r')
          | none => none
  | '{' :: rest =>
      match dropWs rest with
      | '}' :: r => some (.obj [], r)
      | r =>
          match pentries r with
          | some (es, r') =>
              some (.obj (es.foldl (fun acc p => Json.objSet acc p.1 p.2) []), r')
          | none => none
  | c :: rest =>
      if c = '-' ∨ isDigitC c then
        match parseNum (c :: rest) with
        | some (i, r) => some (.num i, r)
        | none => none
      else none
  | [] => none

/-- After one array item: a comma continues the item list, a closing
bracket ends it. -/
def parseItemsAfterVal (pitems : List Char → Option (List Json × List Char))
    (v : Json) (r : List Char) : Option (List Json × List Char) :=
  match dropWs r with
  | ',' :: r1 =>
      match pitems r1 with
      | some (vs, r2) => some (v :: vs, r2)
      | none => none
  | ']' :: r1 => some ([v], r1)
  | _ => none

/-- One step of the array-items parser: one or more comma-separated values
up to the closing bracket. -/
def parseItemsStep (pval : List Char → Option (Json × List Char))
    (pitems : List Char → Option (List Json × List Char))
    (cs : List Char) : Option (List Json × List Char) :=
  match pval cs with
  | none => none
  | some (v, r) => parseItemsAfterVal pitems v r

/-- After one `"key": value` member: a comma continues the member list, a
closing brace ends it. -/
def parseEntriesAfterVal (pentries : List Char → Option (List (String × Json) × List Char))
    (k : String) (v : Json) (r3 : List Char) : Option (List (String × Json) × List Char) :=
  match dropWs r3 with
  | ',' :: r4 =>
      match pentries r4 with
      | some (es, r5) => some ((k, v) :: es, r5)
      | none => none
  | '}' :: r4 => some ([(k, v)], r4)
  | _ => none

/-- After a member name: a colon, then the member value. -/
def parseEntriesAfterKey (pval : List Char → Option (Json × List Char))
    (pentries : List Char → Option (List (String × Json) × List Char))
    (k : String) (r1 : List Char) : Option (List (String × Json) × List Char) :=
  match dropWs r1 with
  | ':' :: r2 =>
      match pval r2 with
      | none => none
      | some (v, r3) => parseEntriesAfterVal pentries k v r3
  | _ => none

/-- One step of the object-members parser: one or more comma-separated
`"key": value` members up to the closing brace, in textual order
(duplicates resolved by the caller through `objSet`). -/
def parseEntriesStep (pval : List Char → Option (Json × List Char))
    (pentries : List Char → Option (List (String × Json) × List Char))
    (cs : List Char) : Option (List (String × Json) × List Char) :=
  match dropWs cs with
  | '"' :: r =>
      match parseStrBody [] r with
      | none => none
      | some (k, r1) => parseEntriesAfterKey pval pentries k r1
  | _ => none

mutual

/-- Parse one JSON value; fuel exceeding the remaining input length never
runs out, as every fuel-burning call happens strictly after at least one
character was consumed. -/
def parseVal (fuel : Nat) (cs : List Char) : Option (Json × List Char) :=
  match fuel with
  | 0 => none
  | fuel + 1 => parseValStep (parseItems fuel) (parseEntries fuel) cs
termination_by structural fuel

/-- Parse one or more comma-separated values up to the closing bracket. -/
def parseItems (fuel : Nat) (cs : List Char) : Option (List Json × List Char) :=
  match fuel with
  | 0 => none
  | fuel + 1 => parseItemsStep (parseVal fuel) (parseItems fuel) cs
termination_by structural fuel

/-- Parse one or more comma-separated members up to the closing brace. -/
def parseEntries (fuel : Nat) (cs : List Char) : Option (List (String × Json) × List Char) :=
  match fuel with
  | 0 => none
  | fuel + 1 => parseEntriesStep (parseVal fuel) (parseEntries fuel) cs
termination_by structural fuel

end

/-- The complete `JSON.parse`: one value, then only trailing whitespace.
The fuel `length + 1` always suffices, since every fuel-burning call
happens strictly after at least one character was consumed. -/
def jsonParse (s : String) : Option Json :=
  match parseVal (s.data.length + 1) s.data with
  | some (v, rest) => if dropWs rest = [] then some v else none
  | none => none

/-! ### Well-formedness and structural equivalence -/

/-- No two entries share a name (JavaScript objects cannot). -/
def nodupKeysB : List (String × Json) → Bool
  | [] => true
  | (k, _) :: es => !((es.map Prod.fst).contains k) && nodupKeysB es

mutual

/-- A value every object of which has pairwise distinct member names:
exactly the values realizable as JavaScript values. -/
def Json.wfB : Json → Bool
  | .obj es => nodupKeysB es && Json.wfEntriesB es
  | .arr vs => Json.wfItemsB vs
  | _ => true

def Json.wfItemsB : List Json → Bool
  | [] => true
  | v :: vs => v.wfB && Json.wfItemsB vs

def Json.wfEntriesB : List (String × Json) → Bool
  | [] => true
  | (_, v) :: es => v.wfB && Json.wfEntriesB es

end

/-- Remove the first entry named `k`, returning its value and the rest. -/
def extractKey (k : String) : List (String × Json) → Option (Json × List (String × Json))
  | [] => none
  | (k', v) :: es =>
      if k' = k then some (v, es)
      else
        match extractKey k es with
        | some (w, es') => some (w, (k', v) :: es')
        | none => none

mutual

/-- Structural equality of JSON values ignoring object member order at
every depth: arrays pointwise, objects by matching names. -/
def structEqB : Json → Json → Bool
  | .null, .null => true
  | .bool a, .bool b => a == b
  | .num a, .num b => a == b
  | .str a, .str b => a == b
  | .arr as, .arr bs => structEqItemsB as bs
  | .obj xs, .obj ys => structEqEntriesB xs ys
  | _, _ => false

def structEqItemsB : List Json → List Json → Bool
  | [], [] => true
  | a :: as, b :: bs => structEqB a b && structEqItemsB as bs
  | _, _ => false

def structEqEntriesB : List (String × Json) → List (String × Json) → Bool
  | [], [] => true
  | (k, v) :: xs, ys =>
      match extractKey k ys with
      | some (w, ys') => structEqB v w && structEqEntriesB xs ys'
      | none => false
  | [], _ :: _ => false

end

/-! ## Round-trip of the printer through the parser

The claims about the canonicalizer and key derivation need that printing
is injective on well-formed values, which follows from
`jsonParse (stringify v) = some v`. -/

open Json

theorem char_toNat_ofNat {n : Nat} (h : n.isValidChar) : (Char.ofNat n).toNat = n := by
  simp only [Char.ofNat, dif_pos h]
  rfl

theorem digitChar_toNat {n : Nat} (h : n < 10) : (Char.ofNat (48 + n)).toNat = 48 + n :=
  char_toNat_ofNat (Or.inl (by omega))

theorem digitChar_isDigit {n : Nat} (h : n < 10) : isDigitC (Char.ofNat (48 + n)) = true := by
  simp only [isDigitC, digitChar_toNat h, Bool.and_eq_true, decide_eq_true_eq]
  omega

theorem digitChar_eq_zero_iff {n : Nat} (h : n < 10) :
    (Char.ofNat (48 + n) = '0') ↔ n = 0 := by
  constructor
  · intro he
    have := digitChar_toNat h
    rw [he] at this
    simpa using this.symm
  · intro he
    subst he
    rfl

theorem natDigitsRev_ne_nil (n : Nat) : natDigitsRev n ≠ [] := by
  rw [natDigitsRev_unfold]
  split <;> simp

theorem natDigitsRev_digits (n : Nat) : ∀ c ∈ natDigitsRev n, isDigitC c = true := by
  induction n using Nat.strong_induction_on with
  | _ n ih =>
    rw [natDigitsRev_unfold]
    split
    · intro c hc
      rw [List.mem_singleton] at hc
      subst hc
      exact digitChar_isDigit (by omega)
    · intro c hc
      rcases List.mem_cons.mp hc with rfl | hc
      · exact digitChar_isDigit (by omega)
      · exact ih (n / 10) (by omega) c hc

theorem getLastOpt_cons {α : Type} (c : α) {l : List α} (h : l ≠ []) :
    (c :: l).getLast? = l.getLast? := by
  match l, h with
  | x :: xs, _ => simp [List.getLast?]

theorem natDigitsRev_getLast_ne_zero {n : Nat} (hn : 0 < n) :
    ∀ c, (natDigitsRev n).getLast? = some c → c ≠ '0' := by
  induction n using Nat.strong_induction_on with
  | _ n ih =>
    rw [natDigitsRev_unfold]
    split
    · rename_i h
      intro c hc
      simp only [List.getLast?_singleton, Option.some.injEq] at hc
      subst hc
      intro hz
      exact absurd ((digitChar_eq_zero_iff h).mp hz) (by omega)
    · rename_i h
      intro c hc
      rw [getLastOpt_cons _ (natDigitsRev_ne_nil _)] at hc
      exact ih (n / 10) (by omega) (by omega) c hc

theorem printNat_ne_nil (n : Nat) : printNat n ≠ [] := by
  simpa [printNat] using natDigitsRev_ne_nil n

theorem printNat_digits (n : Nat) : ∀ c ∈ printNat n, isDigitC c = true := by
  intro c hc
  exact natDigitsRev_digits n c (List.mem_reverse.mp hc)

theorem printNat_head_ne_zero {n : Nat} (hn : 10 ≤ n) :
    ∀ c, (printNat n).head? = some c → c ≠ '0' := by
  intro c hc
  rw [printNat, List.head?_reverse] at hc
  exact natDigitsRev_getLast_ne_zero (by omega) c hc

theorem digitsToNat_append_digit (xs : List Char) (c : Char) :
    digitsToNat (xs ++ [c]) = 10 * digitsToNat xs + (c.toNat - 48) := by
  simp [digitsToNat, List.foldl_append]
  omega

theorem digitsToNat_printNat (n : Nat) : digitsToNat (printNat n) = n := by
  induction n using Nat.strong_induction_on with
  | _ n ih =>
    rw [printNat, natDigitsRev_unfold]
    split
    · rename_i h
      simp only [List.reverse_singleton, digitsToNat, List.foldl_cons, List.foldl_nil]
      rw [digitChar_toNat h]
      omega
    · rename_i h
      rw [List.reverse_cons, digitsToNat_append_digit, ← printNat,
        ih (n / 10) (by omega), digitChar_toNat (by omega)]
      omega

theorem takeDigits_stop : ∀ {cs : List Char},
    (match cs with
      | [] => true
      | c :: _ => !isDigitC c) = true →
    takeDigits cs = ([], cs)
  | [], _ => rfl
  | c :: cs, h => by
      simp only [Bool.not_eq_true'] at h
      simp [takeDigits, h]

theorem takeDigits_run (ds : List Char) (hds : ∀ c ∈ ds, isDigitC c = true)
    {rest : List Char} (hrest : takeDigits rest = ([], rest)) :
    takeDigits (ds ++ rest) = (ds, rest) := by
  induction ds with
  | nil => simpa using hrest
  | cons c cs ih =>
      have hc : isDigitC c = true := hds c (by simp)
      have := ih (fun x hx => hds x (by simp [hx]))
      simp [takeDigits, hc, this]

/-- A remainder that cannot extend a numeral: empty or headed by a
character that is neither a digit nor `.`/`e`/`E`.  Every delimiter a
printed value is followed by qualifies. -/
def numStop : List Char → Bool
  | [] => true
  | c :: _ => !isDigitC c && !(c = '.' || c = 'e' || c = 'E')

theorem takeDigits_of_numStop {rest : List Char} (h : numStop rest = true) :
    takeDigits rest = ([], rest) := by
  match rest with
  | [] => rfl
  | c :: cs =>
      simp only [numStop, Bool.and_eq_true, Bool.not_eq_true'] at h
      simp [takeDigits, h.1]

theorem digit_ne_minus {c : Char} (h : isDigitC c = true) : c ≠ '-' := by
  intro he
  subst he
  simp [isDigitC] at h

/-- Numeral round-trip: parsing a printed integer recovers it whenever the
remainder cannot extend the numeral. -/
theorem parseNum_print (i : Int) {rest : List Char} (hrest : numStop rest = true) :
    parseNum (printInt i ++ rest) = some (i, rest) := by
  have hstop := takeDigits_of_numStop hrest
  have hdig := printNat_digits i.natAbs
  have hrun := takeDigits_run (printNat i.natAbs) hdig hstop
  obtain ⟨d, ds, hpn⟩ : ∃ d ds, printNat i.natAbs = d :: ds := by
    match h : printNat i.natAbs with
    | [] => exact absurd h (printNat_ne_nil _)
    | d :: ds => exact ⟨d, ds, rfl⟩
  have hd : isDigitC d = true := hdig d (by simp [hpn])
  have hnolead : ¬(d = '0' ∧ ds ≠ []) := by
    rintro ⟨rfl, hne⟩
    by_cases hsmall : i.natAbs < 10
    · rw [printNat, natDigitsRev_unfold, if_pos hsmall] at hpn
      simp only [List.reverse_singleton, List.cons.injEq] at hpn
      exact hne hpn.2.symm
    · exact printNat_head_ne_zero (n := i.natAbs) (by omega) '0' (by rw [hpn]; rfl) rfl
  have hval : digitsToNat (d :: ds) = i.natAbs := by
    rw [← hpn]
    exact digitsToNat_printNat _
  have hrun2 : takeDigits (d :: (ds ++ rest)) = (d :: ds, rest) := by
    have h2 := hrun
    rw [hpn] at h2
    simpa using h2
  have tail_ok : ∀ sgn : Bool,
      (match (motive := List Char → Option (Int × List Char)) rest with
        | r :: _ =>
            if r = '.' ∨ r = 'e' ∨ r = 'E' then none
            else some (signedOf sgn (digitsToNat (d :: ds)), rest)
        | [] => some (signedOf sgn (digitsToNat (d :: ds)), rest))
      = some (signedOf sgn (digitsToNat (d :: ds)), rest) := by
    intro sgn
    match rest with
    | [] => rfl
    | r :: rs =>
        have hcond : ¬(r = '.' ∨ r = 'e' ∨ r = 'E') := by
          intro hor
          rcases hor with h | h | h <;> subst h <;> simp [numStop, isDigitC] at hrest
        simp [hcond]
  have hsigned : ∀ sgn : Bool, (sgn = true ↔ i < 0) →
      signedOf sgn (digitsToNat (d :: ds)) = i := by
    intro sgn hs
    rw [hval]
    cases sgn with
    | true =>
        have hlt : i < 0 := hs.mp rfl
        simp only [signedOf, if_true]
        omega
    | false =>
        have hge : ¬i < 0 := fun hlt => by simpa using hs.mpr hlt
        simp only [signedOf, Bool.false_eq_true, if_false]
        omega
  by_cases hneg : i < 0
  · have harg : printInt i ++ rest = '-' :: ((d :: ds) ++ rest) := by
      simp [printInt, if_pos hneg, hpn]
    rw [harg]
    show (match takeDigits (d :: ds ++ rest) with
      | ([], _) => none
      | (d :: ds, rest) =>
          if d = '0' ∧ ds ≠ [] then none
          else
            match rest with
            | r :: _ =>
                if r = '.' ∨ r = 'e' ∨ r = 'E' then none
                else some (signedOf true (digitsToNat (d :: ds)), rest)
            | [] => some (signedOf true (digitsToNat (d :: ds)), rest)) = some (i, rest)
    rw [show (d :: ds ++ rest : List Char) = d :: (ds ++ rest) from rfl, hrun2]
    show (if d = '0' ∧ ds ≠ [] then none
      else
        match (motive := List Char → Option (Int × List Char)) rest with
        | r :: _ =>
            if r = '.' ∨ r = 'e' ∨ r = 'E' then none
            else some (signedOf true (digitsToNat (d :: ds)), rest)
        | [] => some (signedOf true (digitsToNat (d :: ds)), rest)) = some (i, rest)
    rw [if_neg hnolead, tail_ok true, hsigned true (by simpa using hneg)]
  · have hd_min : d ≠ '-' := digit_ne_minus hd
    have harg : printInt i ++ rest = d :: (ds ++ rest) := by
      simp [printInt, if_neg hneg, hpn]
    rw [harg]
    simp only [parseNum, if_neg hd_min]
    show (match takeDigits (d :: (ds ++ rest)) with
      | ([], _) => none
      | (d :: ds, rest) =>
          if d = '0' ∧ ds ≠ [] then none
          else
            match rest with
            | r :: _ =>
                if r = '.' ∨ r = 'e' ∨ r = 'E' then none
                else some (signedOf false (digitsToNat (d :: ds)), rest)
            | [] => some (signedOf false (digitsToNat (d :: ds)), rest)) = some (i, rest)
    rw [hrun2]
    show (if d = '0' ∧ ds ≠ [] then none
      else
        match (motive := List Char → Option (Int × List Char)) rest with
        | r :: _ =>
            if r = '.' ∨ r = 'e' ∨ r = 'E' then none
            else some (signedOf false (digitsToNat (d :: ds)), rest)
        | [] => some (signedOf false (digitsToNat (d :: ds)), rest)) = some (i, rest)
    rw [if_neg hnolead, tail_ok false, hsigned false (by simp; omega)]

theorem hexVal_hexDigitChar {n : Nat} (h : n < 16) : hexVal? (hexDigitChar n) = some n := by
  unfold hexDigitChar
  by_cases h10 : n < 10
  · rw [if_pos h10]
    have ht := digitChar_toNat h10
    unfold hexVal?
    rw [if_pos (by omega)]
    simp
    omega
  · rw [if_neg h10]
    have ht : (Char.ofNat (87 + n)).toNat = 87 + n := char_toNat_ofNat (Or.inl (by omega))
    unfold hexVal?
    rw [if_neg (by omega), if_pos (by omega)]
    simp
    omega

theorem hex4_zeros (c : Char) (h : c.toNat < 32) :
    hex4 '0' '0' (hexDigitChar (c.toNat / 16)) (hexDigitChar (c.toNat % 16))
      = some c.toNat := by
  unfold hex4
  rw [hexVal_hexDigitChar (by omega), hexVal_hexDigitChar (by omega)]
  show some (((0 * 16 + 0) * 16 + c.toNat / 16) * 16 + c.toNat % 16) = some c.toNat
  congr 1
  omega

theorem parseStrBodyGo_succ (fuel : Nat) (acc cs : List Char) :
    parseStrBodyGo (fuel + 1) acc cs = parseStrBodyStep (parseStrBodyGo fuel) acc cs := rfl

/-- Reduction of the string-parser step at a `\uXXXX` escape below the
surrogate range. -/
theorem parseStrBodyStep_u (recur : List Char → List Char → Option (String × List Char))
    (acc : List Char) (a b c' d : Char) {n : Nat}
    (hhex : hex4 a b c' d = some n) (hn : n < 0xD800) (rest : List Char) :
    parseStrBodyStep recur acc ('\\' :: 'u' :: a :: b :: c' :: d :: rest)
      = recur (Char.ofNat n :: acc) rest := by
  unfold parseStrBodyStep
  dsimp only []
  simp only [Char.reduceEq, reduceIte]
  rw [hhex]
  dsimp only []
  rw [if_pos (Or.inl hn)]

/-- The step consumes one escaped character and prepends exactly that
character. -/
theorem parseStrBodyStep_esc (recur : List Char → List Char → Option (String × List Char))
    (c : Char) (acc rest : List Char) :
    parseStrBodyStep recur acc (escChar c ++ rest) = recur (c :: acc) rest := by
  by_cases h1 : c = '"'
  · subst h1
    rfl
  by_cases h2 : c = '\\'
  · subst h2
    rfl
  by_cases h3 : c.toNat = 8
  · rw [show escChar c = ['\\', 'b'] from by
      unfold escChar; rw [if_neg h1, if_neg h2, if_pos h3]]
    rw [show (['\\', 'b'] : List Char) ++ rest = '\\' :: 'b' :: rest from rfl,
      show parseStrBodyStep recur acc ('\\' :: 'b' :: rest)
        = recur (Char.ofNat 8 :: acc) rest from rfl,
      show Char.ofNat 8 = c from by rw [← h3, Char.ofNat_toNat]]
  by_cases h4 : c.toNat = 9
  · rw [show escChar c = ['\\', 't'] from by
      unfold escChar; rw [if_neg h1, if_neg h2, if_neg h3, if_pos h4]]
    rw [show (['\\', 't'] : List Char) ++ rest = '\\' :: 't' :: rest from rfl,
      show parseStrBodyStep recur acc ('\\' :: 't' :: rest)
        = recur (Char.ofNat 9 :: acc) rest from rfl,
      show Char.ofNat 9 = c from by rw [← h4, Char.ofNat_toNat]]
  by_cases h5 : c.toNat = 10
  · rw [show escChar c = ['\\', 'n'] from by
      unfold escChar; rw [if_neg h1, if_neg h2, if_neg h3, if_neg h4, if_pos h5]]
    rw [show (['\\', 'n'] : List Char) ++ rest = '\\' :: 'n' :: rest from rfl,
      show parseStrBodyStep recur acc ('\\' :: 'n' :: rest)
        = recur (Char.ofNat 10 :: acc) rest from rfl,
      show Char.ofNat 10 = c from by rw [← h5, Char.ofNat_toNat]]
  by_cases h6 : c.toNat = 12
  · rw [show escChar c = ['\\', 'f'] from by
      unfold escChar; rw [if_neg h1, if_neg h2, if_neg h3, if_neg h4, if_neg h5, if_pos h6]]
    rw [show (['\\', 'f'] : List Char) ++ rest = '\\' :: 'f' :: rest from rfl,
      show parseStrBodyStep recur acc ('\\' :: 'f' :: rest)
        = recur (Char.ofNat 12 :: acc) rest from rfl,
      show Char.ofNat 12 = c from by rw [← h6, Char.ofNat_toNat]]
  by_cases h7 : c.toNat = 13
  · rw [show escChar c = ['\\', 'r'] from by
      unfold escChar
      rw [if_neg h1, if_neg h2, if_neg h3, if_neg h4, if_neg h5, if_neg h6, if_pos h7]]
    rw [show (['\\', 'r'] : List Char) ++ rest = '\\' :: 'r' :: rest from rfl,
      show parseStrBodyStep recur acc ('\\' :: 'r' :: rest)
        = recur (Char.ofNat 13 :: acc) rest from rfl,
      show Char.ofNat 13 = c from by rw [← h7, Char.ofNat_toNat]]
  by_cases h8 : c.toNat < 32
  · rw [show escChar c
        = ['\\', 'u', '0', '0', hexDigitChar (c.toNat / 16), hexDigitChar (c.toNat % 16)]
      from by
        unfold escChar
        rw [if_neg h1, if_neg h2, if_neg h3, if_neg h4, if_neg h5, if_neg h6, if_neg h7,
          if_pos h8]]
    rw [show (['\\', 'u', '0', '0', hexDigitChar (c.toNat / 16),
          hexDigitChar (c.toNat % 16)] : List Char) ++ rest
        = '\\' :: 'u' :: '0' :: '0' :: hexDigitChar (c.toNat / 16) ::
          hexDigitChar (c.toNat % 16) :: rest from rfl]
    rw [parseStrBodyStep_u recur acc _ _ _ _ (hex4_zeros c h8) (by omega) rest,
      Char.ofNat_toNat]
  · rw [show escChar c = [c] from by
      unfold escChar
      rw [if_neg h1, if_neg h2, if_neg h3, if_neg h4, if_neg h5, if_neg h6, if_neg h7,
        if_neg h8]]
    show parseStrBodyStep recur acc (c :: rest) = recur (c :: acc) rest
    unfold parseStrBodyStep
    dsimp only []
    rw [if_neg h1, if_neg h2, if_neg h8]

/-- The step only looks at its continuation on strictly shorter input. -/
theorem parseStrBodyStep_congr
    (recur recur' : List Char → List Char → Option (String × List Char))
    (acc cs : List Char)
    (h : ∀ acc' cs', cs'.length < cs.length → recur acc' cs' = recur' acc' cs') :
    parseStrBodyStep recur acc cs = parseStrBodyStep recur' acc cs := by
  unfold parseStrBodyStep
  cases cs with
  | nil => rfl
  | cons ch rest =>
      dsimp only []
      by_cases h1 : ch = '"'
      · rw [if_pos h1, if_pos h1]
      rw [if_neg h1, if_neg h1]
      by_cases h2 : ch = '\\'
      · rw [if_pos h2, if_pos h2]
        cases rest with
        | nil => rfl
        | cons e rest2 =>
            dsimp only []
            by_cases hu : e = 'u'
            · rw [if_pos hu, if_pos hu]
              rcases rest2 with _ | ⟨a, _ | ⟨b, _ | ⟨c, _ | ⟨d, rest3⟩⟩⟩⟩
              · rfl
              · rfl
              · rfl
              · rfl
              dsimp only []
              cases hx : hex4 a b c d with
              | none => rfl
              | some n =>
                  dsimp only []
                  by_cases hn1 : n < 55296 ∨ 57343 < n
                  · rw [if_pos hn1, if_pos hn1]
                    exact h _ _ (by simp only [List.length_cons]; omega)
                  rw [if_neg hn1, if_neg hn1]
                  by_cases hn2 : n ≤ 56319
                  · rw [if_pos hn2, if_pos hn2]
                    rcases rest3 with _ | ⟨e2, _ | ⟨u2, _ | ⟨a2, _ | ⟨b2, _ | ⟨c2, _ | ⟨d2, rest4⟩⟩⟩⟩⟩⟩
                    · rfl
                    · rfl
                    · rfl
                    · rfl
                    · rfl
                    · rfl
                    dsimp only []
                    by_cases he2 : e2 = '\\' ∧ u2 = 'u'
                    · rw [if_pos he2, if_pos he2]
                      cases hx2 : hex4 a2 b2 c2 d2 with
                      | none => rfl
                      | some m =>
                          dsimp only []
                          by_cases hm : 56320 ≤ m ∧ m ≤ 57343
                          · rw [if_pos hm, if_pos hm]
                            exact h _ _ (by simp only [List.length_cons]; omega)
                          · rw [if_neg hm, if_neg hm]
                    · rw [if_neg he2, if_neg he2]
                  · rw [if_neg hn2, if_neg hn2]
            rw [if_neg hu, if_neg hu]
            by_cases hq : e = '"'
            · rw [if_pos hq, if_pos hq]
              exact h _ _ (by simp only [List.length_cons]; omega)
            rw [if_neg hq, if_neg hq]
            by_cases hb : e = '\\'
            · rw [if_pos hb, if_pos hb]
              exact h _ _ (by simp only [List.length_cons]; omega)
            rw [if_neg hb, if_neg hb]
            by_cases hs : e = '/'
            · rw [if_pos hs, if_pos hs]
              exact h _ _ (by simp only [List.length_cons]; omega)
            rw [if_neg hs, if_neg hs]
            by_cases hbb : e = 'b'
            · rw [if_pos hbb, if_pos hbb]
              exact h _ _ (by simp only [List.length_cons]; omega)
            rw [if_neg hbb, if_neg hbb]
            by_cases hf : e = 'f'
            · rw [if_pos hf, if_pos hf]
              exact h _ _ (by simp only [List.length_cons]; omega)
            rw [if_neg hf, if_neg hf]
            by_cases hn : e = 'n'
            · rw [if_pos hn, if_pos hn]
              exact h _ _ (by simp only [List.length_cons]; omega)
            rw [if_neg hn, if_neg hn]
            by_cases hr : e = 'r'
            · rw [if_pos hr, if_pos hr]
              exact h _ _ (by simp only [List.length_cons]; omega)
            rw [if_neg hr, if_neg hr]
            by_cases ht : e = 't'
            · rw [if_pos ht, if_pos ht]
              exact h _ _ (by simp only [List.length_cons]; omega)
            rw [if_neg ht, if_neg ht]
      · rw [if_neg h2, if_neg h2]
        by_cases h32 : ch.toNat < 32
        · rw [if_pos h32, if_pos h32]
        · rw [if_neg h32, if_neg h32]
          exact h _ _ (by simp only [List.length_cons]; omega)

/-- Results do not depend on the fuel once it exceeds the input length. -/
theorem parseStrBodyGo_congr : ∀ (fuel fuel' : Nat) (acc cs : List Char),
    cs.length < fuel → cs.length < fuel' →
    parseStrBodyGo fuel acc cs = parseStrBodyGo fuel' acc cs := by
  intro fuel
  induction fuel using Nat.strong_induction_on with
  | _ fuel ih =>
      intro fuel' acc cs h h'
      obtain ⟨f, rfl⟩ : ∃ f, fuel = f + 1 := ⟨fuel - 1, by omega⟩
      obtain ⟨f', rfl⟩ : ∃ f', fuel' = f' + 1 := ⟨fuel' - 1, by omega⟩
      rw [parseStrBodyGo_succ, parseStrBodyGo_succ]
      exact parseStrBodyStep_congr _ _ acc cs fun acc' cs' hlt =>
        ih f (by omega) f' acc' cs' (by omega) (by omega)

/-- Running the string-body parser over a fully escaped character list up
to the closing quote yields exactly that list. -/
theorem parseStrBodyGo_flat (l : List Char) : ∀ (acc rest : List Char) (fuel : Nat),
    parseStrBodyGo (l.length + fuel + 1) acc (l.flatMap escChar ++ '"' :: rest)
      = some (String.mk (acc.reverse ++ l), rest) := by
  induction l with
  | nil =>
      intro acc rest fuel
      rw [show (([] : List Char).flatMap escChar ++ '"' :: rest) = '"' :: rest from rfl,
        show ([] : List Char).length + fuel + 1 = fuel + 1 from by simp,
        parseStrBodyGo_succ]
      show some (String.mk acc.reverse, rest) = _
      simp
  | cons c l ih =>
      intro acc rest fuel
      rw [show ((c :: l).flatMap escChar ++ '"' :: rest : List Char)
          = escChar c ++ (l.flatMap escChar ++ '"' :: rest) from by simp,
        show (c :: l).length + fuel + 1 = (l.length + fuel + 1) + 1 from by
          simp only [List.length_cons]; omega,
        parseStrBodyGo_succ, parseStrBodyStep_esc, ih]
      simp

/-- String roundtrip: parsing an escaped body followed by the closing
quote recovers the original characters. -/
theorem parseStrBody_flat (l rest : List Char) :
    parseStrBody [] (l.flatMap escChar ++ '"' :: rest) = some (String.mk l, rest) := by
  unfold parseStrBody
  rw [parseStrBodyGo_congr ((l.flatMap escChar ++ '"' :: rest).length + 1)
      (l.length + (l.flatMap escChar ++ '"' :: rest).length + 1) []
      (l.flatMap escChar ++ '"' :: rest) (by omega) (by omega),
    parseStrBodyGo_flat]
  simp

theorem parseVal_succ (fuel : Nat) (cs : List Char) :
    parseVal (fuel + 1) cs = parseValStep (parseItems fuel) (parseEntries fuel) cs := rfl

theorem parseItems_succ (fuel : Nat) (cs : List Char) :
    parseItems (fuel + 1) cs = parseItemsStep (parseVal fuel) (parseItems fuel) cs := rfl

theorem parseEntries_succ (fuel : Nat) (cs : List Char) :
    parseEntries (fuel + 1) cs = parseEntriesStep (parseVal fuel) (parseEntries fuel) cs := rfl

theorem dropWs_cons {c : Char} (h : isJsonWs c = false) (cs : List Char) :
    dropWs (c :: cs) = c :: cs := by
  simp [dropWs, h]

/-- A digit character differs from any character outside the digit range. -/
theorem digit_ne_lit {c : Char} (h : isDigitC c = true) (d : Char)
    (hd : ¬(48 ≤ d.toNat ∧ d.toNat ≤ 57)) : c ≠ d := by
  intro he
  subst he
  simp only [isDigitC, Bool.and_eq_true, decide_eq_true_eq] at h
  exact hd h

theorem not_ws_of_ne {c : Char} (h1 : c ≠ ' ') (h2 : c ≠ '\t') (h3 : c ≠ '\n')
    (h4 : c ≠ '\r') : isJsonWs c = false := by
  simp [isJsonWs, h1, h2, h3, h4]

theorem digit_not_ws {c : Char} (h : isDigitC c = true) : isJsonWs c = false :=
  not_ws_of_ne (digit_ne_lit h ' ' (by decide)) (digit_ne_lit h '\t' (by decide))
    (digit_ne_lit h '\n' (by decide)) (digit_ne_lit h '\r' (by decide))

/-- Every printed value starts with a character that is not whitespace and
not a closing bracket, so surrounding parsers never skip into it or stop
at it. -/
theorem printL_head_spec (v : Json) : ∃ hd tl, printL v = hd :: tl ∧
    isJsonWs hd = false ∧ hd ≠ ']' ∧ hd ≠ '}' := by
  cases v with
  | null => refine ⟨_, _, rfl, ?_, ?_, ?_⟩ <;> decide
  | bool b => cases b with
    | true => refine ⟨_, _, rfl, ?_, ?_, ?_⟩ <;> decide
    | false => refine ⟨_, _, rfl, ?_, ?_, ?_⟩ <;> decide
  | str s => refine ⟨_, _, rfl, ?_, ?_, ?_⟩ <;> decide
  | arr vs => refine ⟨_, _, rfl, ?_, ?_, ?_⟩ <;> decide
  | obj es => refine ⟨_, _, rfl, ?_, ?_, ?_⟩ <;> decide
  | num i =>
      by_cases hneg : i < 0
      · refine ⟨'-', printNat i.natAbs, ?_, by decide, by decide, by decide⟩
        show printInt i = _
        rw [printInt, if_pos hneg]
      · obtain ⟨d, ds, hpn⟩ : ∃ d ds, printNat i.natAbs = d :: ds := by
          match h : printNat i.natAbs with
          | [] => exact absurd h (printNat_ne_nil _)
          | d :: ds => exact ⟨d, ds, rfl⟩
        have hd : isDigitC d = true := printNat_digits i.natAbs d (by simp [hpn])
        refine ⟨d, ds, ?_, digit_not_ws hd, digit_ne_lit hd ']' (by decide),
          digit_ne_lit hd '}' (by decide)⟩
        show printInt i = _
        rw [printInt, if_neg hneg, hpn]

theorem numStop_comma (xs : List Char) : numStop (',' :: xs) = true := rfl

theorem numStop_rbracket (xs : List Char) : numStop (']' :: xs) = true := rfl

theorem numStop_rbrace (xs : List Char) : numStop ('}' :: xs) = true := rfl

theorem contains_eq_mem (l : List String) (a : String) :
    l.contains a = true ↔ a ∈ l := List.elem_iff

theorem nodupKeysB_eq_nodup (es : List (String × Json)) :
    nodupKeysB es = true ↔ (es.map Prod.fst).Nodup := by
  induction es with
  | nil => simp [nodupKeysB]
  | cons p es ih =>
      cases p with
      | mk k v =>
          simp only [nodupKeysB, Bool.and_eq_true, Bool.not_eq_true', List.map_cons,
            List.nodup_cons, ih]
          constructor
          · rintro ⟨h1, h2⟩
            refine ⟨fun hm => ?_, h2⟩
            rw [(contains_eq_mem _ _).mpr hm] at h1
            cases h1
          · rintro ⟨h1, h2⟩
            refine ⟨?_, h2⟩
            cases hc : (es.map Prod.fst).contains k with
            | false => rfl
            | true => exact absurd ((contains_eq_mem _ _).mp hc) h1

theorem objSet_append {acc : List (String × Json)} {k : String}
    (h : k ∉ acc.map Prod.fst) (v : Json) : Json.objSet acc k v = acc ++ [(k, v)] := by
  rw [Json.objSet, if_neg]
  intro hc
  exact h ((contains_eq_mem _ _).mp hc)

/-- Folding `objSet` over members with globally distinct names appends them
all: `JSON.parse`'s member-by-member assembly returns an object in textual
order when no duplicates occur. -/
theorem foldl_objSet (es : List (String × Json)) : ∀ acc : List (String × Json),
    ((acc ++ es).map Prod.fst).Nodup →
    es.foldl (fun a p => Json.objSet a p.1 p.2) acc = acc ++ es := by
  induction es with
  | nil => intro acc _; simp
  | cons p es ih =>
      intro acc h
      cases p with
      | mk k v =>
          have hmem : k ∉ acc.map Prod.fst := by
            rw [List.map_append, List.nodup_append] at h
            intro hm
            exact h.2.2 hm (by simp)
          rw [List.foldl_cons]
          show (es.foldl (fun a p => Json.objSet a p.1 p.2) (Json.objSet acc k v)) = _
          rw [objSet_append hmem v, ih (acc ++ [(k, v)]) (by simpa using h)]
          simp

theorem pvstep_null (pi : List Char → Option (List Json × List Char))
    (pe : List Char → Option (List (String × Json) × List Char)) (rest : List Char) :
    parseValStep pi pe ('n' :: 'u' :: 'l' :: 'l' :: rest) = some (.null, rest) := rfl

theorem pvstep_true (pi : List Char → Option (List Json × List Char))
    (pe : List Char → Option (List (String × Json) × List Char)) (rest : List Char) :
    parseValStep pi pe ('t' :: 'r' :: 'u' :: 'e' :: rest) = some (.bool true, rest) := rfl

theorem pvstep_false (pi : List Char → Option (List Json × List Char))
    (pe : List Char → Option (List (String × Json) × List Char)) (rest : List Char) :
    parseValStep pi pe ('f' :: 'a' :: 'l' :: 's' :: 'e' :: rest)
      = some (.bool false, rest) := rfl

theorem pvstep_str (pi : List Char → Option (List Json × List Char))
    (pe : List Char → Option (List (String × Json) × List Char)) (rest : List Char) :
    parseValStep pi pe ('"' :: rest)
      = (match parseStrBody [] rest with
          | some (s, r) => some (.str s, r)
          | none => none) := rfl

theorem pvstep_arr_nil (pi : List Char → Option (List Json × List Char))
    (pe : List Char → Option (List (String × Json) × List Char)) (rest : List Char) :
    parseValStep pi pe ('[' :: ']' :: rest) = some (.arr [], rest) := rfl

theorem pvstep_obj_nil (pi : List Char → Option (List Json × List Char))
    (pe : List Char → Option (List (String × Json) × List Char)) (rest : List Char) :
    parseValStep pi pe ('{' :: '}' :: rest) = some (.obj [], rest) := rfl

theorem pvstep_arr_cons (pi : List Char → Option (List Json × List Char))
    (pe : List Char → Option (List (String × Json) × List Char)) {hd : Char}
    (rr : List Char) (hws : isJsonWs hd = false) (hbr : hd ≠ ']') :
    parseValStep pi pe ('[' :: hd :: rr)
      = (match pi (hd :: rr) with
          | some (vs, r1) => some (.arr vs, r1)
          | none => none) := by
  unfold parseValStep
  rw [show dropWs ('[' :: hd :: rr) = '[' :: hd :: rr from rfl]
  try dsimp only []
  try simp only [Char.reduceEq, reduceIte]
  rw [dropWs_cons hws]
  split
  · rename_i heq
    injection heq with h1 h2
    exact absurd h1 hbr
  · rfl

theorem pvstep_obj_cons (pi : List Char → Option (List Json × List Char))
    (pe : List Char → Option (List (String × Json) × List Char)) {hd : Char}
    (rr : List Char) (hws : isJsonWs hd = false) (hbr : hd ≠ '}') :
    parseValStep pi pe ('{' :: hd :: rr)
      = (match pe (hd :: rr) with
          | some (es, r1) =>
              some (.obj (es.foldl (fun acc p => Json.objSet acc p.1 p.2) []), r1)
          | none => none) := by
  unfold parseValStep
  rw [show dropWs ('{' :: hd :: rr) = '{' :: hd :: rr from rfl]
  try dsimp only []
  try simp only [Char.reduceEq, reduceIte]
  rw [dropWs_cons hws]
  split
  · rename_i heq
    injection heq with h1 h2
    exact absurd h1 hbr
  · rfl

theorem pvstep_neg (pi : List Char → Option (List Json × List Char))
    (pe : List Char → Option (List (String × Json) × List Char)) (tl : List Char) :
    parseValStep pi pe ('-' :: tl)
      = (match parseNum ('-' :: tl) with
          | some (i, r) => some (.num i, r)
          | none => none) := rfl

theorem pvstep_digit (pi : List Char → Option (List Json × List Char))
    (pe : List Char → Option (List (String × Json) × List Char)) {hd : Char}
    (hdig : isDigitC hd = true) (tl : List Char) :
    parseValStep pi pe (hd :: tl)
      = (match parseNum (hd :: tl) with
          | some (i, r) => some (.num i, r)
          | none => none) := by
  unfold parseValStep
  rw [dropWs_cons (digit_not_ws hdig)]
  split <;>
    first
      | rfl
      | (rename_i heq
         exact List.noConfusion heq)
      | (rename_i heq
         injection heq with h1 h2
         first
           | exact absurd h1 (digit_ne_lit hdig 'n' (by decide))
           | exact absurd h1 (digit_ne_lit hdig 't' (by decide))
           | exact absurd h1 (digit_ne_lit hdig 'f' (by decide))
           | exact absurd h1 (digit_ne_lit hdig '"' (by decide))
           | exact absurd h1 (digit_ne_lit hdig '[' (by decide))
           | exact absurd h1 (digit_ne_lit hdig '\x7b' (by decide)))
      | (rename_i heq
         injection heq with h1 h2
         subst h1
         subst h2
         rw [if_pos (Or.inr hdig)])

theorem itemsAfter_comma (pitems : List Char → Option (List Json × List Char))
    (v : Json) (r1 : List Char) :
    parseItemsAfterVal pitems v (',' :: r1)
      = (match pitems r1 with
          | some (vs, r2) => some (v :: vs, r2)
          | none => none) := rfl

theorem itemsAfter_bracket (pitems : List Char → Option (List Json × List Char))
    (v : Json) (r1 : List Char) :
    parseItemsAfterVal pitems v (']' :: r1) = some ([v], r1) := rfl

theorem pestep_quote (pv : List Char → Option (Json × List Char))
    (pe : List Char → Option (List (String × Json) × List Char)) (body : List Char) :
    parseEntriesStep pv pe ('"' :: body)
      = (match parseStrBody [] body with
          | none => none
          | some (k, r1) => parseEntriesAfterKey pv pe k r1) := rfl

theorem entriesAfter_colon (pv : List Char → Option (Json × List Char))
    (pe : List Char → Option (List (String × Json) × List Char))
    (k : String) (r2 : List Char) :
    parseEntriesAfterKey pv pe k (':' :: r2)
      = (match pv r2 with
          | none => none
          | some (v, r3) => parseEntriesAfterVal pe k v r3) := rfl

theorem entriesAfter_comma (pe : List Char → Option (List (String × Json) × List Char))
    (k : String) (v : Json) (r4 : List Char) :
    parseEntriesAfterVal pe k v (',' :: r4)
      = (match pe r4 with
          | some (es, r5) => some ((k, v) :: es, r5)
          | none => none) := rfl

theorem entriesAfter_brace (pe : List Char → Option (List (String × Json) × List Char))
    (k : String) (v : Json) (r4 : List Char) :
    parseEntriesAfterVal pe k v ('}' :: r4) = some ([(k, v)], r4) := rfl

theorem printItems_head (v : Json) (vs : List Json) :
    ∃ tl2, printItems (v :: vs) = printL v ++ tl2 := by
  cases vs with
  | nil => exact ⟨[], by simp [printItems]⟩
  | cons w ws => exact ⟨',' :: printItems (w :: ws), rfl⟩

theorem printEntries_head (k : String) (v : Json) (es : List (String × Json)) :
    ∃ tl2, printEntries ((k, v) :: es) = '"' :: tl2 := by
  cases es with
  | nil =>
      refine ⟨(k.data.flatMap escChar ++ ['"']) ++ ':' :: printL v, ?_⟩
      show printStr k ++ ':' :: printL v = _
      rw [printStr]
      simp
  | cons e es2 =>
      refine ⟨(k.data.flatMap escChar ++ ['"']) ++ ':' :: printL v
        ++ ',' :: printEntries (e :: es2), ?_⟩
      show printStr k ++ ':' :: printL v ++ ',' :: printEntries (e :: es2) = _
      rw [printStr]
      simp

/-- Round-trip of the printer through the parser, all three layers at once:
with fuel exceeding the printed length, parsing a printed well-formed value
(or item list, or member list) recovers it exactly and consumes exactly its
characters. -/
theorem parse_print_rt : ∀ fuel : Nat,
    (∀ (v : Json) (rest : List Char), Json.wfB v = true → numStop rest = true →
        (printL v).length < fuel →
        parseVal fuel (printL v ++ rest) = some (v, rest))
  ∧ (∀ (vs : List Json) (rest : List Char), vs ≠ [] → Json.wfItemsB vs = true →
        (printItems vs).length + 1 < fuel →
        parseItems fuel (printItems vs ++ ']' :: rest) = some (vs, rest))
  ∧ (∀ (es : List (String × Json)) (rest : List Char), es ≠ [] →
        Json.wfEntriesB es = true →
        (printEntries es).length + 1 < fuel →
        parseEntries fuel (printEntries es ++ '}' :: rest) = some (es, rest)) := by
  intro fuel
  induction fuel using Nat.strong_induction_on with
  | _ fuel ih =>
      cases fuel with
      | zero =>
          exact ⟨fun v rest _ _ h => absurd h (by omega),
            fun vs rest _ _ h => absurd h (by omega),
            fun es rest _ _ h => absurd h (by omega)⟩
      | succ f =>
          obtain ⟨ihA, ihB, ihC⟩ := ih f (by omega)
          refine ⟨?_, ?_, ?_⟩
          · -- values
            intro v rest hwf hstop hfuel
            rw [parseVal_succ]
            cases v with
            | null => exact pvstep_null _ _ rest
            | bool b =>
                cases b with
                | true => exact pvstep_true _ _ rest
                | false => exact pvstep_false _ _ rest
            | num i =>
                by_cases hneg : i < 0
                · have harg : printL (Json.num i) ++ rest
                      = '-' :: (printNat i.natAbs ++ rest) := by
                    show printInt i ++ rest = _
                    rw [printInt, if_pos hneg]
                    simp
                  rw [harg, pvstep_neg, show ('-' :: (printNat i.natAbs ++ rest) : List Char)
                      = printInt i ++ rest from by rw [printInt, if_pos hneg]; simp,
                    parseNum_print i hstop]
                · obtain ⟨d, ds, hpn⟩ : ∃ d ds, printNat i.natAbs = d :: ds := by
                    match h : printNat i.natAbs with
                    | [] => exact absurd h (printNat_ne_nil _)
                    | d :: ds => exact ⟨d, ds, rfl⟩
                  have hd : isDigitC d = true := printNat_digits i.natAbs d (by simp [hpn])
                  have harg : printL (Json.num i) ++ rest = d :: (ds ++ rest) := by
                    show printInt i ++ rest = _
                    rw [printInt, if_neg hneg, hpn]
                    simp
                  rw [harg, pvstep_digit _ _ hd, show (d :: (ds ++ rest) : List Char)
                      = printInt i ++ rest from by rw [printInt, if_neg hneg, hpn]; simp,
                    parseNum_print i hstop]
            | str s =>
                rw [show printL (Json.str s) ++ rest
                    = '"' :: (s.data.flatMap escChar ++ '"' :: rest) from by
                      show printStr s ++ rest = _
                      rw [printStr]
                      simp,
                  pvstep_str, parseStrBody_flat]
            | arr vs =>
                cases vs with
                | nil => exact pvstep_arr_nil _ _ rest
                | cons v vs0 =>
                    obtain ⟨hd, tl, hhead, hws, hbr, _⟩ := printL_head_spec v
                    obtain ⟨tl2, hpi⟩ := printItems_head v vs0
                    have hlen : (printL (Json.arr (v :: vs0))).length
                        = (printItems (v :: vs0)).length + 2 := by
                      show ('[' :: (printItems (v :: vs0) ++ [']'])).length = _
                      simp
                    have hrw : printL (Json.arr (v :: vs0)) ++ rest
                        = '[' :: (printItems (v :: vs0) ++ ']' :: rest) := by
                      show ('[' :: (printItems (v :: vs0) ++ [']'])) ++ rest = _
                      simp
                    have hcons : printItems (v :: vs0) ++ ']' :: rest
                        = hd :: (tl ++ (tl2 ++ ']' :: rest)) := by
                      rw [hpi, hhead]
                      simp
                    rw [hrw, hcons, pvstep_arr_cons _ _ _ hws hbr, ← hcons,
                      ihB (v :: vs0) rest (by simp) (show Json.wfItemsB (v :: vs0) = true
                        from hwf) (by omega)]
            | obj es =>
                cases es with
                | nil => exact pvstep_obj_nil _ _ rest
                | cons p es0 =>
                    obtain ⟨k, v⟩ := p
                    obtain ⟨tl2, hpe⟩ := printEntries_head k v es0
                    have hlen : (printL (Json.obj ((k, v) :: es0))).length
                        = (printEntries ((k, v) :: es0)).length + 2 := by
                      show ('{' :: (printEntries ((k, v) :: es0) ++ ['}'])).length = _
                      simp
                    have hrw : printL (Json.obj ((k, v) :: es0)) ++ rest
                        = '{' :: (printEntries ((k, v) :: es0) ++ '}' :: rest) := by
                      show ('{' :: (printEntries ((k, v) :: es0) ++ ['}'])) ++ rest = _
                      simp
                    have hcons : printEntries ((k, v) :: es0) ++ '}' :: rest
                        = '"' :: (tl2 ++ '}' :: rest) := by
                      rw [hpe]
                      simp
                    have hwf2 := (Bool.and_eq_true _ _).mp
                      (show (nodupKeysB ((k, v) :: es0) && Json.wfEntriesB ((k, v) :: es0))
                        = true from hwf)
                    rw [hrw, hcons, pvstep_obj_cons _ _ _ (by decide) (by decide), ← hcons,
                      ihC ((k, v) :: es0) rest (by simp) hwf2.2 (by omega)]
                    dsimp only []
                    rw [foldl_objSet ((k, v) :: es0) []
                      (by simpa using (nodupKeysB_eq_nodup _).mp hwf2.1), List.nil_append]
          · -- array items
            intro vs rest hne hwf hfuel
            rw [parseItems_succ]
            cases vs with
            | nil => exact absurd rfl hne
            | cons v vs0 =>
                cases vs0 with
                | nil =>
                    have hwfv : Json.wfB v = true :=
                      ((Bool.and_eq_true _ _).mp (show (Json.wfB v && Json.wfItemsB [])
                        = true from hwf)).1
                    have hlen : (printItems [v]).length = (printL v).length := rfl
                    unfold parseItemsStep
                    rw [show printItems [v] ++ ']' :: rest = printL v ++ ']' :: rest from
                        by rw [show printItems [v] = printL v from rfl],
                      ihA v (']' :: rest) hwfv (numStop_rbracket rest) (by omega)]
                    dsimp only []
                    rw [itemsAfter_bracket]
                | cons w vs1 =>
                    have hwf2 := (Bool.and_eq_true _ _).mp
                      (show (Json.wfB v && Json.wfItemsB (w :: vs1)) = true from hwf)
                    have hlen : (printItems (v :: w :: vs1)).length
                        = (printL v).length + 1 + (printItems (w :: vs1)).length := by
                      rw [show printItems (v :: w :: vs1)
                          = printL v ++ ',' :: printItems (w :: vs1) from rfl]
                      simp
                      omega
                    have hsplit : printItems (v :: w :: vs1) ++ ']' :: rest
                        = printL v ++ ',' :: (printItems (w :: vs1) ++ ']' :: rest) := by
                      rw [show printItems (v :: w :: vs1)
                          = printL v ++ ',' :: printItems (w :: vs1) from rfl]
                      simp
                    unfold parseItemsStep
                    rw [hsplit, ihA v _ hwf2.1 (numStop_comma _) (by omega)]
                    dsimp only []
                    rw [itemsAfter_comma, ihB (w :: vs1) rest (by simp) hwf2.2 (by omega)]
          · -- object members
            intro es rest hne hwf hfuel
            rw [parseEntries_succ]
            cases es with
            | nil => exact absurd rfl hne
            | cons p es0 =>
                obtain ⟨k, v⟩ := p
                have hwf2 := (Bool.and_eq_true _ _).mp
                  (show (Json.wfB v && Json.wfEntriesB es0) = true from hwf)
                cases es0 with
                | nil =>
                    have hlen : (printEntries [(k, v)]).length
                        = (printStr k).length + 1 + (printL v).length := by
                      rw [show printEntries [(k, v)] = printStr k ++ ':' :: printL v
                          from rfl]
                      simp
                      omega
                    have hsplit : printEntries [(k, v)] ++ '}' :: rest
                        = '"' :: (k.data.flatMap escChar
                            ++ '"' :: (':' :: (printL v ++ '}' :: rest))) := by
                      rw [show printEntries [(k, v)] = printStr k ++ ':' :: printL v
                          from rfl, printStr]
                      simp
                    rw [hsplit, pestep_quote,
                      parseStrBody_flat k.data (':' :: (printL v ++ '}' :: rest))]
                    dsimp only []
                    rw [show String.mk k.data = k from rfl, entriesAfter_colon,
                      ihA v _ hwf2.1 (numStop_rbrace rest) (by omega)]
                    dsimp only []
                    rw [entriesAfter_brace]
                | cons q es1 =>
                    have hlen : (printEntries ((k, v) :: q :: es1)).length
                        = (printStr k).length + 1 + (printL v).length + 1
                          + (printEntries (q :: es1)).length := by
                      rw [show printEntries ((k, v) :: q :: es1)
                          = printStr k ++ ':' :: printL v ++ ',' :: printEntries (q :: es1)
                          from rfl]
                      simp
                      omega
                    have hsplit : printEntries ((k, v) :: q :: es1) ++ '}' :: rest
                        = '"' :: (k.data.flatMap escChar
                            ++ '"' :: (':' :: (printL v
                              ++ ',' :: (printEntries (q :: es1) ++ '}' :: rest)))) := by
                      rw [show printEntries ((k, v) :: q :: es1)
                          = printStr k ++ ':' :: printL v ++ ',' :: printEntries (q :: es1)
                          from rfl, printStr]
                      simp
                    rw [hsplit, pestep_quote, parseStrBody_flat k.data]
                    dsimp only []
                    rw [show String.mk k.data = k from rfl, entriesAfter_colon,
                      ihA v _ hwf2.1 (numStop_comma _) (by omega)]
                    dsimp only []
                    rw [entriesAfter_comma,
                      ihC (q :: es1) rest (by simp) hwf2.2 (by omega)]

/-- Parsing a printed well-formed value gives it back: the printer has no
whitespace and the parser accepts exactly its output. -/
theorem jsonParse_stringify (v : Json) (h : Json.wfB v = true) :
    jsonParse (stringify v) = some v := by
  show (match parseVal ((printL v).length + 1) (printL v) with
    | some (w, rest) => if dropWs rest = [] then some w else none
    | none => none) = some v
  have hA := (parse_print_rt ((printL v).length + 1)).1 v [] h rfl (by omega)
  rw [List.append_nil] at hA
  rw [hA]
  rfl

/-- The canonical rendering is injective on well-formed values. -/
theorem stringify_inj {v w : Json} (hv : Json.wfB v = true) (hw : Json.wfB w = true)
    (h : stringify v = stringify w) : v = w := by
  have h1 := jsonParse_stringify v hv
  rw [h, jsonParse_stringify w hw] at h1
  exact (Option.some.inj h1).symm

/-! ## The canonicalizer is invariant under member order -/

/-- `jsonStringifyDeterministically`: `JSON.stringify` with the sorting
replacer, i.e. compact printing after recursively sorting every object's
members. -/
def jsonStringifyDeterministically (v : Json) : String := stringify (deepSort v)

theorem entryLe_total : ∀ p q : String × Json, entryLe p q || entryLe q p := by
  intro p q
  cases h : jsLt q.1 p.1 with
  | false => simp [entryLe, h]
  | true => simp [entryLe, h, jsLt_asymm h]

theorem entryLe_trans : ∀ p q r : String × Json,
    entryLe p q = true → entryLe q r = true → entryLe p r = true := by
  intro p q r h1 h2
  simp only [entryLe, Bool.not_eq_true'] at h1 h2 ⊢
  cases hr : jsLt r.1 p.1 with
  | false => rfl
  | true =>
      exfalso
      cases hqr : jsLt q.1 r.1 with
      | true => exact absurd (jsLt_trans hqr hr) (by rw [h1]; simp)
      | false =>
          have : r.1 = q.1 := jsLt_eq_of_not h2 hqr
          rw [this] at hr
          exact absurd hr (by rw [h1]; simp)

/-- Two sorted member lists that are permutations of each other and have
no duplicate names are equal: sorting by name is deterministic once names
are unique. -/
theorem sorted_perm_keysNodup_eq : ∀ {l1 l2 : List (String × Json)}, l1.Perm l2 →
    l1.Pairwise (fun a b => entryLe a b = true) →
    l2.Pairwise (fun a b => entryLe a b = true) →
    (l1.map Prod.fst).Nodup → l1 = l2 := by
  intro l1
  induction l1 with
  | nil =>
      intro l2 hp _ _ _
      exact List.Perm.nil_eq hp
  | cons a l1 ih =>
      intro l2 hp hs1 hs2 hnd
      cases l2 with
      | nil => exact absurd hp.symm (by simp)
      | cons x l2 =>
          by_cases hax : a = x
          · subst hax
            obtain ⟨hh1, ht1⟩ := List.pairwise_cons.mp hs1
            obtain ⟨hh2, ht2⟩ := List.pairwise_cons.mp hs2
            rw [ih (List.Perm.cons_inv hp) ht1 ht2 (by simpa using (List.nodup_cons.mp hnd).2)]
          · exfalso
            have hmem_a : a ∈ x :: l2 := hp.mem_iff.mp (by simp)
            have ha2 : a ∈ l2 := by
              rcases List.mem_cons.mp hmem_a with h | h
              · exact absurd h hax
              · exact h
            have hmem_x : x ∈ a :: l1 := hp.symm.mem_iff.mp (by simp)
            have hx1 : x ∈ l1 := by
              rcases List.mem_cons.mp hmem_x with h | h
              · exact absurd h.symm hax
              · exact h
            have hle_ax : entryLe a x = true := (List.pairwise_cons.mp hs1).1 x hx1
            have hle_xa : entryLe x a = true := (List.pairwise_cons.mp hs2).1 a ha2
            simp only [entryLe, Bool.not_eq_true'] at hle_ax hle_xa
            have hkey : x.1 = a.1 := jsLt_eq_of_not hle_ax hle_xa
            have : a.1 ∉ l1.map Prod.fst := (List.nodup_cons.mp hnd).1
            exact this (by
              rw [← hkey]
              exact List.mem_map.mpr ⟨x, hx1, rfl⟩)

mutual

/-- Structural size, for well-founded reasoning over values. -/
def sizeJ : Json → Nat
  | .null => 1
  | .bool _ => 1
  | .num _ => 1
  | .str _ => 1
  | .arr vs => sizeItems vs + 1
  | .obj es => sizeEntries es + 1

def sizeItems : List Json → Nat
  | [] => 0
  | v :: vs => sizeJ v + sizeItems vs + 1

def sizeEntries : List (String × Json) → Nat
  | [] => 0
  | (_, v) :: es => sizeJ v + sizeEntries es + 1

end

theorem sizeEntries_eq_sum (es : List (String × Json)) :
    sizeEntries es = (es.map fun p => sizeJ p.2 + 1).sum := by
  induction es with
  | nil => rfl
  | cons p es ih =>
      cases p with
      | mk k v =>
          show sizeJ v + sizeEntries es + 1 = _
          rw [ih]
          simp
          omega

theorem sizeEntries_perm {xs ys : List (String × Json)} (h : xs.Perm ys) :
    sizeEntries xs = sizeEntries ys := by
  rw [sizeEntries_eq_sum, sizeEntries_eq_sum]
  exact (h.map _).sum_eq

theorem extractKey_perm (k : String) : ∀ {ys w ys2},
    extractKey k ys = some (w, ys2) → ys.Perm ((k, w) :: ys2) := by
  intro ys
  induction ys with
  | nil => intro w ys2 h; cases h
  | cons p es ih =>
      intro w ys2 h
      cases p with
      | mk k1 v1 =>
          rw [extractKey] at h
          by_cases hk : k1 = k
          · rw [if_pos hk] at h
            obtain ⟨rfl, rfl⟩ : v1 = w ∧ es = ys2 := by
              constructor <;> { injection h with h2; injection h2 <;> simp_all }
            subst hk
            exact List.Perm.refl _
          · rw [if_neg hk] at h
            match hrec : extractKey k es with
            | none => rw [hrec] at h; cases h
            | some (w2, es2) =>
                rw [hrec] at h
                obtain ⟨rfl, rfl⟩ : w2 = w ∧ (k1, v1) :: es2 = ys2 := by
                  constructor <;> { injection h with h2; injection h2 <;> simp_all }
                exact ((ih hrec).cons (k1, v1)).trans (List.Perm.swap _ _ _)

theorem extractKey_wf {k : String} : ∀ {ys w ys2},
    Json.wfEntriesB ys = true → extractKey k ys = some (w, ys2) →
    Json.wfB w = true ∧ Json.wfEntriesB ys2 = true := by
  intro ys
  induction ys with
  | nil => intro w ys2 _ h; cases h
  | cons p es ih =>
      intro w ys2 hwf h
      cases p with
      | mk k1 v1 =>
          have hwf2 := (Bool.and_eq_true _ _).mp
            (show (Json.wfB v1 && Json.wfEntriesB es) = true from hwf)
          rw [extractKey] at h
          by_cases hk : k1 = k
          · rw [if_pos hk] at h
            obtain ⟨rfl, rfl⟩ : v1 = w ∧ es = ys2 := by
              constructor <;> { injection h with h2; injection h2 <;> simp_all }
            exact ⟨hwf2.1, hwf2.2⟩
          · rw [if_neg hk] at h
            match hrec : extractKey k es with
            | none => rw [hrec] at h; cases h
            | some (w2, es2) =>
                rw [hrec] at h
                obtain ⟨rfl, rfl⟩ : w2 = w ∧ (k1, v1) :: es2 = ys2 := by
                  constructor <;> { injection h with h2; injection h2 <;> simp_all }
                obtain ⟨hw, hes2⟩ := ih hwf2.2 hrec
                refine ⟨hw, ?_⟩
                show (Json.wfB v1 && Json.wfEntriesB es2) = true
                rw [hwf2.1, hes2]
                rfl

theorem deepSortEntries_eq_map (es : List (String × Json)) :
    deepSortEntries es = es.map fun p => (p.1, deepSort p.2) := by
  induction es with
  | nil => rfl
  | cons p es ih =>
      cases p with
      | mk k v =>
          show (k, deepSort v) :: deepSortEntries es = _
          rw [ih]
          rfl

theorem deepSortEntries_keys (es : List (String × Json)) :
    (deepSortEntries es).map Prod.fst = es.map Prod.fst := by
  rw [deepSortEntries_eq_map, List.map_map]
  rfl

/-- `deepSort` maps structurally equal well-formed values (equal up to
object member order at any depth) to the same value. -/
theorem deepSort_eq_all : ∀ n : Nat,
    (∀ v w : Json, sizeJ v + sizeJ w ≤ n → Json.wfB v = true → Json.wfB w = true →
        structEqB v w = true → deepSort v = deepSort w)
  ∧ (∀ as bs : List Json, sizeItems as + sizeItems bs ≤ n → Json.wfItemsB as = true →
        Json.wfItemsB bs = true → structEqItemsB as bs = true →
        deepSortItems as = deepSortItems bs)
  ∧ (∀ xs ys : List (String × Json), sizeEntries xs + sizeEntries ys ≤ n →
        Json.wfEntriesB xs = true → Json.wfEntriesB ys = true →
        structEqEntriesB xs ys = true →
        (deepSortEntries xs).Perm (deepSortEntries ys)) := by
  intro n
  induction n using Nat.strong_induction_on with
  | _ n ih =>
      refine ⟨?_, ?_, ?_⟩
      · intro v w hs hv hw he
        cases v with
        | null =>
            cases w with
            | null => rfl
            | bool b => exact Bool.noConfusion (show false = true from he)
            | num i => exact Bool.noConfusion (show false = true from he)
            | str t => exact Bool.noConfusion (show false = true from he)
            | arr bs => exact Bool.noConfusion (show false = true from he)
            | obj ys => exact Bool.noConfusion (show false = true from he)
        | bool a =>
            cases w with
            | bool b => rw [eq_of_beq (show (a == b) = true from he)]
            | null => exact Bool.noConfusion (show false = true from he)
            | num i => exact Bool.noConfusion (show false = true from he)
            | str t => exact Bool.noConfusion (show false = true from he)
            | arr bs => exact Bool.noConfusion (show false = true from he)
            | obj ys => exact Bool.noConfusion (show false = true from he)
        | num a =>
            cases w with
            | num b => rw [eq_of_beq (show (a == b) = true from he)]
            | null => exact Bool.noConfusion (show false = true from he)
            | bool b => exact Bool.noConfusion (show false = true from he)
            | str t => exact Bool.noConfusion (show false = true from he)
            | arr bs => exact Bool.noConfusion (show false = true from he)
            | obj ys => exact Bool.noConfusion (show false = true from he)
        | str a =>
            cases w with
            | str b => rw [eq_of_beq (show (a == b) = true from he)]
            | null => exact Bool.noConfusion (show false = true from he)
            | bool b => exact Bool.noConfusion (show false = true from he)
            | num i => exact Bool.noConfusion (show false = true from he)
            | arr bs => exact Bool.noConfusion (show false = true from he)
            | obj ys => exact Bool.noConfusion (show false = true from he)
        | arr as =>
            cases w with
            | arr bs =>
                have h1 : sizeJ (Json.arr as) = sizeItems as + 1 := rfl
                have h2 : sizeJ (Json.arr bs) = sizeItems bs + 1 := rfl
                obtain ⟨_, ihI, _⟩ := ih (n - 1) (by omega)
                exact congrArg Json.arr (ihI as bs (by omega)
                  (show Json.wfItemsB as = true from hv)
                  (show Json.wfItemsB bs = true from hw)
                  (show structEqItemsB as bs = true from he))
            | null => exact Bool.noConfusion (show false = true from he)
            | bool b => exact Bool.noConfusion (show false = true from he)
            | num i => exact Bool.noConfusion (show false = true from he)
            | str t => exact Bool.noConfusion (show false = true from he)
            | obj ys => exact Bool.noConfusion (show false = true from he)
        | obj xs =>
            cases w with
            | obj ys =>
                have h1 : sizeJ (Json.obj xs) = sizeEntries xs + 1 := rfl
                have h2 : sizeJ (Json.obj ys) = sizeEntries ys + 1 := rfl
                have hvx := (Bool.and_eq_true _ _).mp
                  (show (nodupKeysB xs && Json.wfEntriesB xs) = true from hv)
                have hwy := (Bool.and_eq_true _ _).mp
                  (show (nodupKeysB ys && Json.wfEntriesB ys) = true from hw)
                obtain ⟨_, _, ihE⟩ := ih (n - 1) (by omega)
                have hperm : (deepSortEntries xs).Perm (deepSortEntries ys) :=
                  ihE xs ys (by omega) hvx.2 hwy.2
                    (show structEqEntriesB xs ys = true from he)
                have hsorted1 := sortByJs_sorted entryLe_total entryLe_trans
                  (deepSortEntries xs)
                have hsorted2 := sortByJs_sorted entryLe_total entryLe_trans
                  (deepSortEntries ys)
                have hbig : (sortByJs entryLe (deepSortEntries xs)).Perm
                    (sortByJs entryLe (deepSortEntries ys)) :=
                  ((sortByJs_perm entryLe (deepSortEntries xs)).trans hperm).trans
                    (sortByJs_perm entryLe (deepSortEntries ys)).symm
                have hnd : ((sortByJs entryLe (deepSortEntries xs)).map Prod.fst).Nodup := by
                  rw [((sortByJs_perm entryLe (deepSortEntries xs)).map
                    Prod.fst).nodup_iff, deepSortEntries_keys]
                  exact (nodupKeysB_eq_nodup xs).mp hvx.1
                exact congrArg Json.obj
                  (sorted_perm_keysNodup_eq hbig hsorted1 hsorted2 hnd)
            | null => exact Bool.noConfusion (show false = true from he)
            | bool b => exact Bool.noConfusion (show false = true from he)
            | num i => exact Bool.noConfusion (show false = true from he)
            | str t => exact Bool.noConfusion (show false = true from he)
            | arr bs => exact Bool.noConfusion (show false = true from he)
      · intro as bs hs ha hb he
        cases as with
        | nil =>
            cases bs with
            | nil => rfl
            | cons b bs2 => exact Bool.noConfusion (show false = true from he)
        | cons a as2 =>
            cases bs with
            | nil => exact Bool.noConfusion (show false = true from he)
            | cons b bs2 =>
                have he2 := (Bool.and_eq_true _ _).mp
                  (show (structEqB a b && structEqItemsB as2 bs2) = true from he)
                have ha2 := (Bool.and_eq_true _ _).mp
                  (show (Json.wfB a && Json.wfItemsB as2) = true from ha)
                have hb2 := (Bool.and_eq_true _ _).mp
                  (show (Json.wfB b && Json.wfItemsB bs2) = true from hb)
                have h1 : sizeItems (a :: as2) = sizeJ a + sizeItems as2 + 1 := rfl
                have h2 : sizeItems (b :: bs2) = sizeJ b + sizeItems bs2 + 1 := rfl
                obtain ⟨ihV, ihI, _⟩ := ih (n - 1) (by omega)
                show deepSort a :: deepSortItems as2 = deepSort b :: deepSortItems bs2
                rw [ihV a b (by omega) ha2.1 hb2.1 he2.1,
                  ihI as2 bs2 (by omega) ha2.2 hb2.2 he2.2]
      · intro xs ys hs hx hy he
        cases xs with
        | nil =>
            cases ys with
            | nil => exact List.Perm.refl _
            | cons q ys2 => exact Bool.noConfusion (show false = true from he)
        | cons p xs2 =>
            obtain ⟨k, x⟩ := p
            have he2 : (match extractKey k ys with
                | some (w, ys3) => structEqB x w && structEqEntriesB xs2 ys3
                | none => false) = true := he
            cases hex : extractKey k ys with
            | none =>
                rw [hex] at he2
                exact Bool.noConfusion he2
            | some pr =>
                obtain ⟨w, ys3⟩ := pr
                rw [hex] at he2
                have he3 := (Bool.and_eq_true _ _).mp
                  (show (structEqB x w && structEqEntriesB xs2 ys3) = true from he2)
                have hperm := extractKey_perm k hex
                have hsz : sizeEntries ys = sizeJ w + sizeEntries ys3 + 1 := by
                  rw [sizeEntries_perm hperm]
                  rfl
                have hwfw := extractKey_wf hy hex
                have hx2 := (Bool.and_eq_true _ _).mp
                  (show (Json.wfB x && Json.wfEntriesB xs2) = true from hx)
                have h1 : sizeEntries ((k, x) :: xs2) = sizeJ x + sizeEntries xs2 + 1 := rfl
                obtain ⟨ihV, _, ihE⟩ := ih (n - 1) (by omega)
                have hvw : deepSort x = deepSort w :=
                  ihV x w (by omega) hx2.1 hwfw.1 he3.1
                have hrest : (deepSortEntries xs2).Perm (deepSortEntries ys3) :=
                  ihE xs2 ys3 (by omega) hx2.2 hwfw.2 he3.2
                have hmap : (deepSortEntries ys).Perm
                    ((k, deepSort w) :: deepSortEntries ys3) := by
                  have hmp := hperm.map (fun p => (p.1, deepSort p.2))
                  rw [deepSortEntries_eq_map ys, deepSortEntries_eq_map ys3]
                  simpa using hmp
                show ((k, deepSort x) :: deepSortEntries xs2).Perm (deepSortEntries ys)
                rw [hvw]
                exact (hrest.cons _).trans hmap.symm

/-- The canonicalizer depends only on structure: object member order never
influences its output. -/
theorem canonicalize_key_order {a b : Json} (ha : Json.wfB a = true)
    (hb : Json.wfB b = true) (he : structEqB a b = true) :
    jsonStringifyDeterministically a = jsonStringifyDeterministically b := by
  unfold jsonStringifyDeterministically
  rw [(deepSort_eq_all (sizeJ a + sizeJ b)).1 a b (Nat.le_refl _) ha hb he]

/-! ## Bytes and text: `TextEncoder` / `TextDecoder(utf-8, fatal)`

Bodies are byte lists (each entry below 256).  `serializeBody` first tries
a strict UTF-8 decode (`fatal: true`, BOM kept verbatim); the strict
decoder rejects overlong forms, surrogates and truncated sequences, so
re-encoding a decoded string reproduces the input bytes exactly. -/

/-- UTF-8 encoding of one scalar value. -/
def utf8EncodeChar (c : Char) : List Nat :=
  let n := c.toNat
  if n < 0x80 then [n]
  else if n < 0x800 then [0xC0 + n / 64, 0x80 + n % 64]
  else if n < 0x10000 then [0xE0 + n / 4096, 0x80 + n / 64 % 64, 0x80 + n % 64]
  else [0xF0 + n / 0x40000, 0x80 + n / 4096 % 64, 0x80 + n / 64 % 64, 0x80 + n % 64]

/-- `new TextEncoder().encode(s)`. -/
def utf8Encode (s : String) : List Nat := s.data.flatMap utf8EncodeChar

/-- One step of the strict UTF-8 decoder: `recur` continues after the
consumed sequence.  The leading- and continuation-byte ranges make every
ill-formed input (continuation byte first, overlong form, surrogate,
value above `0x10FFFF`, truncation) fail, exactly as `fatal: true`
does. -/
def utf8Step (recur : List Nat → Option (List Char)) (bs : List Nat) :
    Option (List Char) :=
  match bs with
  | [] => some []
  | b1 :: rest =>
      if b1 < 0x80 then (recur rest).map fun cs => Char.ofNat b1 :: cs
      else if b1 < 0xC2 then none
      else if b1 < 0xE0 then
        match rest with
        | b2 :: rest2 =>
            if 0x80 ≤ b2 ∧ b2 < 0xC0 then
              (recur rest2).map fun cs => Char.ofNat ((b1 - 0xC0) * 64 + (b2 - 0x80)) :: cs
            else none
        | [] => none
      else if b1 < 0xF0 then
        match rest with
        | b2 :: b3 :: rest2 =>
            if ((if b1 = 0xE0 then 0xA0 ≤ b2 ∧ b2 < 0xC0
                else if b1 = 0xED then 0x80 ≤ b2 ∧ b2 < 0xA0
                else 0x80 ≤ b2 ∧ b2 < 0xC0) ∧ 0x80 ≤ b3 ∧ b3 < 0xC0) then
              (recur rest2).map fun cs =>
                Char.ofNat ((b1 - 0xE0) * 4096 + (b2 - 0x80) * 64 + (b3 - 0x80)) :: cs
            else none
        | _ => none
      else if b1 < 0xF5 then
        match rest with
        | b2 :: b3 :: b4 :: rest2 =>
            if ((if b1 = 0xF0 then 0x90 ≤ b2 ∧ b2 < 0xC0
                else if b1 = 0xF4 then 0x80 ≤ b2 ∧ b2 < 0x90
                else 0x80 ≤ b2 ∧ b2 < 0xC0) ∧ 0x80 ≤ b3 ∧ b3 < 0xC0
                ∧ 0x80 ≤ b4 ∧ b4 < 0xC0) then
              (recur rest2).map fun cs =>
                Char.ofNat ((b1 - 0xF0) * 0x40000 + (b2 - 0x80) * 4096
                  + (b3 - 0x80) * 64 + (b4 - 0x80)) :: cs
            else none
        | _ => none
      else none

/-- Fuel-indexed iteration of the decoder step; at least one byte is
consumed per unit of fuel. -/
def utf8DecodeGo (fuel : Nat) (bs : List Nat) : Option (List Char) :=
  match fuel with
  | 0 => none
  | fuel + 1 => utf8Step (utf8DecodeGo fuel) bs
termination_by structural fuel

/-- `new TextDecoder(undefined, ignoreBOM: true, fatal: true).decode`, as
the scalar-value list of the resulting string. -/
def utf8Decode (bs : List Nat) : Option (List Char) :=
  utf8DecodeGo (bs.length + 1) bs

theorem utf8DecodeGo_succ (fuel : Nat) (bs : List Nat) :
    utf8DecodeGo (fuel + 1) bs = utf8Step (utf8DecodeGo fuel) bs := rfl

/-- Strictness pays off: re-encoding a decoded byte list gives it back. -/
theorem utf8Encode_decodeGo : ∀ (fuel : Nat) (bs : List Nat) (cs : List Char),
    utf8DecodeGo fuel bs = some cs → cs.flatMap utf8EncodeChar = bs := by
  intro fuel
  induction fuel with
  | zero => intro bs cs h; cases h
  | succ f ih =>
      intro bs cs h
      rw [utf8DecodeGo_succ] at h
      unfold utf8Step at h
      cases bs with
      | nil =>
          obtain rfl : ([] : List Char) = cs := by injection h
          rfl
      | cons b1 rest =>
          dsimp only [] at h
          by_cases h1 : b1 < 0x80
          · rw [if_pos h1] at h
            match hrec : utf8DecodeGo f rest with
            | none => rw [hrec] at h; cases h
            | some cs2 =>
                rw [hrec] at h
                obtain rfl : Char.ofNat b1 :: cs2 = cs := by injection h
                have hn := char_toNat_ofNat (n := b1) (Or.inl (by omega))
                show utf8EncodeChar (Char.ofNat b1) ++ cs2.flatMap utf8EncodeChar
                  = b1 :: rest
                rw [ih rest cs2 hrec]
                unfold utf8EncodeChar
                rw [hn, if_pos h1]
                rfl
          rw [if_neg h1] at h
          by_cases h2 : b1 < 0xC2
          · rw [if_pos h2] at h; cases h
          rw [if_neg h2] at h
          by_cases h3 : b1 < 0xE0
          · rw [if_pos h3] at h
            cases rest with
            | nil => cases h
            | cons b2 rest2 =>
                dsimp only [] at h
                by_cases hb2 : 0x80 ≤ b2 ∧ b2 < 0xC0
                case neg => rw [if_neg hb2] at h; cases h
                rw [if_pos hb2] at h
                match hrec : utf8DecodeGo f rest2 with
                | none => rw [hrec] at h; cases h
                | some cs2 =>
                    rw [hrec] at h
                    obtain rfl : Char.ofNat ((b1 - 0xC0) * 64 + (b2 - 0x80)) :: cs2 = cs := by
                      injection h
                    have hn := char_toNat_ofNat (n := (b1 - 0xC0) * 64 + (b2 - 0x80))
                      (Or.inl (by omega))
                    show utf8EncodeChar _ ++ cs2.flatMap utf8EncodeChar = b1 :: b2 :: rest2
                    rw [ih rest2 cs2 hrec]
                    unfold utf8EncodeChar
                    rw [hn, if_neg (by omega), if_pos (by omega)]
                    rw [show ((b1 - 0xC0) * 64 + (b2 - 0x80)) / 64 = b1 - 0xC0 from by omega,
                      show ((b1 - 0xC0) * 64 + (b2 - 0x80)) % 64 = b2 - 0x80 from by omega,
                      show 0xC0 + (b1 - 0xC0) = b1 from by omega,
                      show 0x80 + (b2 - 0x80) = b2 from by omega]
                    rfl
          rw [if_neg h3] at h
          by_cases h4 : b1 < 0xF0
          · rw [if_pos h4] at h
            cases rest with
            | nil => cases h
            | cons b2 rest1 =>
                cases rest1 with
                | nil => cases h
                | cons b3 rest2 =>
                    dsimp only [] at h
                    by_cases hb2 : ((if b1 = 0xE0 then 0xA0 ≤ b2 ∧ b2 < 0xC0
                        else if b1 = 0xED then 0x80 ≤ b2 ∧ b2 < 0xA0
                        else 0x80 ≤ b2 ∧ b2 < 0xC0) ∧ 0x80 ≤ b3 ∧ b3 < 0xC0)
                    case neg => rw [if_neg hb2] at h; cases h
                    rw [if_pos hb2] at h
                    obtain ⟨hb, hb3⟩ := hb2
                    have hrange : 0x80 ≤ b2 ∧ b2 < 0xC0
                        ∧ 0x800 ≤ (b1 - 0xE0) * 4096 + (b2 - 0x80) * 64 + (b3 - 0x80)
                        ∧ ((b1 - 0xE0) * 4096 + (b2 - 0x80) * 64 + (b3 - 0x80) < 0xD800
                          ∨ 0xE000 ≤ (b1 - 0xE0) * 4096 + (b2 - 0x80) * 64 + (b3 - 0x80)) := by
                      by_cases he0 : b1 = 0xE0
                      · rw [if_pos he0] at hb
                        subst he0
                        refine ⟨by omega, by omega, by omega, Or.inl (by omega)⟩
                      rw [if_neg he0] at hb
                      by_cases hed : b1 = 0xED
                      · rw [if_pos hed] at hb
                        subst hed
                        refine ⟨by omega, by omega, by omega, Or.inl (by omega)⟩
                      rw [if_neg hed] at hb
                      by_cases hsm : b1 ≤ 0xEC
                      · refine ⟨by omega, by omega, by omega, Or.inl (by omega)⟩
                      · refine ⟨by omega, by omega, by omega, Or.inr (by omega)⟩
                    match hrec : utf8DecodeGo f rest2 with
                    | none => rw [hrec] at h; cases h
                    | some cs2 =>
                        rw [hrec] at h
                        obtain rfl : Char.ofNat ((b1 - 0xE0) * 4096 + (b2 - 0x80) * 64
                            + (b3 - 0x80)) :: cs2 = cs := by injection h
                        have hn := char_toNat_ofNat
                          (n := (b1 - 0xE0) * 4096 + (b2 - 0x80) * 64 + (b3 - 0x80))
                          (by
                            rcases hrange.2.2.2 with hlo | hhi
                            · exact Or.inl hlo
                            · exact Or.inr ⟨hhi, by omega⟩)
                        show utf8EncodeChar _ ++ cs2.flatMap utf8EncodeChar
                          = b1 :: b2 :: b3 :: rest2
                        rw [ih rest2 cs2 hrec]
                        unfold utf8EncodeChar
                        rw [hn, if_neg (by omega), if_neg (by omega), if_pos (by omega)]
                        rw [show ((b1 - 0xE0) * 4096 + (b2 - 0x80) * 64 + (b3 - 0x80)) / 4096
                            = b1 - 0xE0 from by omega,
                          show ((b1 - 0xE0) * 4096 + (b2 - 0x80) * 64 + (b3 - 0x80)) / 64 % 64
                            = b2 - 0x80 from by omega,
                          show ((b1 - 0xE0) * 4096 + (b2 - 0x80) * 64 + (b3 - 0x80)) % 64
                            = b3 - 0x80 from by omega,
                          show 0xE0 + (b1 - 0xE0) = b1 from by omega,
                          show 0x80 + (b2 - 0x80) = b2 from by omega,
                          show 0x80 + (b3 - 0x80) = b3 from by omega]
                        rfl
          rw [if_neg h4] at h
          by_cases h5 : b1 < 0xF5
          case neg => rw [if_neg h5] at h; cases h
          rw [if_pos h5] at h
          cases rest with
          | nil => cases h
          | cons b2 rest1 =>
              cases rest1 with
              | nil => cases h
              | cons b3 restA =>
                  cases restA with
                  | nil => cases h
                  | cons b4 rest2 =>
                      dsimp only [] at h
                      by_cases hb2 : ((if b1 = 0xF0 then 0x90 ≤ b2 ∧ b2 < 0xC0
                          else if b1 = 0xF4 then 0x80 ≤ b2 ∧ b2 < 0x90
                          else 0x80 ≤ b2 ∧ b2 < 0xC0) ∧ 0x80 ≤ b3 ∧ b3 < 0xC0
                          ∧ 0x80 ≤ b4 ∧ b4 < 0xC0)
                      case neg => rw [if_neg hb2] at h; cases h
                      rw [if_pos hb2] at h
                      obtain ⟨hb, hb3, hb4⟩ := hb2
                      have hrange : 0x80 ≤ b2 ∧ b2 < 0xC0
                          ∧ 0x10000 ≤ (b1 - 0xF0) * 0x40000 + (b2 - 0x80) * 4096
                            + (b3 - 0x80) * 64 + (b4 - 0x80)
                          ∧ (b1 - 0xF0) * 0x40000 + (b2 - 0x80) * 4096
                            + (b3 - 0x80) * 64 + (b4 - 0x80) < 0x110000 := by
                        by_cases hf0 : b1 = 0xF0
                        · rw [if_pos hf0] at hb
                          subst hf0
                          refine ⟨by omega, by omega, by omega, by omega⟩
                        rw [if_neg hf0] at hb
                        by_cases hf4 : b1 = 0xF4
                        · rw [if_pos hf4] at hb
                          subst hf4
                          refine ⟨by omega, by omega, by omega, by omega⟩
                        · rw [if_neg hf4] at hb
                          refine ⟨by omega, by omega, by omega, by omega⟩
                      match hrec : utf8DecodeGo f rest2 with
                      | none => rw [hrec] at h; cases h
                      | some cs2 =>
                          rw [hrec] at h
                          obtain rfl : Char.ofNat ((b1 - 0xF0) * 0x40000 + (b2 - 0x80) * 4096
                              + (b3 - 0x80) * 64 + (b4 - 0x80)) :: cs2 = cs := by injection h
                          have hn := char_toNat_ofNat
                            (n := (b1 - 0xF0) * 0x40000 + (b2 - 0x80) * 4096
                              + (b3 - 0x80) * 64 + (b4 - 0x80))
                            (Or.inr ⟨by omega, hrange.2.2.2⟩)
                          show utf8EncodeChar _ ++ cs2.flatMap utf8EncodeChar
                            = b1 :: b2 :: b3 :: b4 :: rest2
                          rw [ih rest2 cs2 hrec]
                          unfold utf8EncodeChar
                          rw [hn, if_neg (by omega), if_neg (by omega), if_neg (by omega)]
                          rw [show ((b1 - 0xF0) * 0x40000 + (b2 - 0x80) * 4096
                              + (b3 - 0x80) * 64 + (b4 - 0x80)) / 0x40000 = b1 - 0xF0
                              from by omega,
                            show ((b1 - 0xF0) * 0x40000 + (b2 - 0x80) * 4096
                              + (b3 - 0x80) * 64 + (b4 - 0x80)) / 4096 % 64 = b2 - 0x80
                              from by omega,
                            show ((b1 - 0xF0) * 0x40000 + (b2 - 0x80) * 4096
                              + (b3 - 0x80) * 64 + (b4 - 0x80)) / 64 % 64 = b3 - 0x80
                              from by omega,
                            show ((b1 - 0xF0) * 0x40000 + (b2 - 0x80) * 4096
                              + (b3 - 0x80) * 64 + (b4 - 0x80)) % 64 = b4 - 0x80
                              from by omega,
                            show 0xF0 + (b1 - 0xF0) = b1 from by omega,
                            show 0x80 + (b2 - 0x80) = b2 from by omega,
                            show 0x80 + (b3 - 0x80) = b3 from by omega,
                            show 0x80 + (b4 - 0x80) = b4 from by omega]
                          rfl

/-- The round-trip at the wrapper level. -/
theorem utf8Encode_decode {bs : List Nat} {cs : List Char}
    (h : utf8Decode bs = some cs) : cs.flatMap utf8EncodeChar = bs :=
  utf8Encode_decodeGo (bs.length + 1) bs cs h

/-! ## Base64: `encodeBase64` / `decodeBase64` from `@std/encoding` -/

/-- The base64 alphabet. -/
def b64Char (n : Nat) : Char :=
  if n < 26 then Char.ofNat (65 + n)
  else if n < 52 then Char.ofNat (71 + n)
  else if n < 62 then Char.ofNat (n - 4)
  else if n = 62 then '+'
  else '/'

/-- Alphabet value of a character, if any. -/
def b64Val? (c : Char) : Option Nat :=
  if 65 ≤ c.toNat ∧ c.toNat ≤ 90 then some (c.toNat - 65)
  else if 97 ≤ c.toNat ∧ c.toNat ≤ 122 then some (c.toNat - 97 + 26)
  else if 48 ≤ c.toNat ∧ c.toNat ≤ 57 then some (c.toNat - 48 + 52)
  else if c = '+' then some 62
  else if c = '/' then some 63
  else none

/-- `encodeBase64`: three bytes to four characters, `=`-padded. -/
def encodeB64 : List Nat → List Char
  | [] => []
  | [b1] => [b64Char (b1 / 4), b64Char (b1 % 4 * 16), '=', '=']
  | [b1, b2] => [b64Char (b1 / 4), b64Char (b1 % 4 * 16 + b2 / 16), b64Char (b2 % 16 * 4), '=']
  | b1 :: b2 :: b3 :: rest =>
      b64Char (b1 / 4) :: b64Char (b1 % 4 * 16 + b2 / 16) ::
        b64Char (b2 % 16 * 4 + b3 / 64) :: b64Char (b3 % 64) :: encodeB64 rest

/-- One step of `decodeBase64`: four characters to up to three bytes,
rejecting characters outside the alphabet and misplaced padding. -/
def decodeB64Step (recur : List Char → Option (List Nat)) (cs : List Char) :
    Option (List Nat) :=
  match cs with
  | [] => some []
  | c1 :: c2 :: c3 :: c4 :: rest =>
      match b64Val? c1, b64Val? c2 with
      | some v1, some v2 =>
          if c3 = '=' then
            if c4 = '=' ∧ rest = [] then some [v1 * 4 + v2 / 16]
            else none
          else
            match b64Val? c3 with
            | some v3 =>
                if c4 = '=' then
                  if rest = [] then some [v1 * 4 + v2 / 16, v2 % 16 * 16 + v3 / 4]
                  else none
                else
                  match b64Val? c4 with
                  | some v4 =>
                      (recur rest).map fun bs =>
                        (v1 * 4 + v2 / 16) :: (v2 % 16 * 16 + v3 / 4)
                          :: (v3 % 4 * 64 + v4) :: bs
                  | none => none
            | none => none
      | _, _ => none
  | _ => none

def decodeB64Go (fuel : Nat) (cs : List Char) : Option (List Nat) :=
  match fuel with
  | 0 => none
  | fuel + 1 => decodeB64Step (decodeB64Go fuel) cs
termination_by structural fuel

/-- `decodeBase64` over the character list of the input string. -/
def decodeB64 (cs : List Char) : Option (List Nat) :=
  decodeB64Go (cs.length + 1) cs

theorem decodeB64Go_succ (fuel : Nat) (cs : List Char) :
    decodeB64Go (fuel + 1) cs = decodeB64Step (decodeB64Go fuel) cs := rfl

theorem b64Val_b64Char {n : Nat} (h : n < 64) : b64Val? (b64Char n) = some n := by
  unfold b64Char
  by_cases h1 : n < 26
  · rw [if_pos h1]
    have ht := char_toNat_ofNat (n := 65 + n) (Or.inl (by omega))
    unfold b64Val?
    rw [ht, if_pos (by omega)]
    congr 1
    omega
  rw [if_neg h1]
  by_cases h2 : n < 52
  · rw [if_pos h2]
    have ht := char_toNat_ofNat (n := 71 + n) (Or.inl (by omega))
    unfold b64Val?
    rw [ht, if_neg (by omega), if_pos (by omega)]
    congr 1
    omega
  rw [if_neg h2]
  by_cases h3 : n < 62
  · rw [if_pos h3]
    have ht := char_toNat_ofNat (n := n - 4) (Or.inl (by omega))
    unfold b64Val?
    rw [ht, if_neg (by omega), if_neg (by omega), if_pos (by omega)]
    congr 1
    omega
  rw [if_neg h3]
  by_cases h4 : n = 62
  · rw [if_pos h4, h4]
    rfl
  · rw [if_neg h4]
    have h5 : n = 63 := by omega
    rw [h5]
    rfl

theorem b64Char_ne_eq (n : Nat) : b64Char n ≠ '=' := by
  unfold b64Char
  by_cases h1 : n < 26
  · rw [if_pos h1]
    intro he
    have := char_toNat_ofNat (n := 65 + n) (Or.inl (by omega))
    rw [he] at this
    simp at this
    omega
  rw [if_neg h1]
  by_cases h2 : n < 52
  · rw [if_pos h2]
    intro he
    have := char_toNat_ofNat (n := 71 + n) (Or.inl (by omega))
    rw [he] at this
    simp at this
    omega
  rw [if_neg h2]
  by_cases h3 : n < 62
  · rw [if_pos h3]
    intro he
    have := char_toNat_ofNat (n := n - 4) (Or.inl (by omega))
    rw [he] at this
    simp at this
    omega
  rw [if_neg h3]
  by_cases h4 : n = 62
  · rw [if_pos h4]
    decide
  · rw [if_neg h4]
    decide

theorem decodeB64Step_nil (recur : List Char → Option (List Nat)) :
    decodeB64Step recur (encodeB64 []) = some [] := rfl

theorem decodeB64Step_one (recur : List Char → Option (List Nat)) {b1 : Nat}
    (hb : b1 < 256) : decodeB64Step recur (encodeB64 [b1]) = some [b1] := by
  show decodeB64Step recur
    [b64Char (b1 / 4), b64Char (b1 % 4 * 16), '=', '='] = some [b1]
  unfold decodeB64Step
  try dsimp only []
  rw [b64Val_b64Char (by omega), b64Val_b64Char (by omega)]
  try dsimp only []
  rw [if_pos rfl, if_pos ⟨rfl, rfl⟩]
  congr 2
  omega

theorem decodeB64Step_two (recur : List Char → Option (List Nat)) {b1 b2 : Nat}
    (hb1 : b1 < 256) (hb2 : b2 < 256) :
    decodeB64Step recur (encodeB64 [b1, b2]) = some [b1, b2] := by
  show decodeB64Step recur
    [b64Char (b1 / 4), b64Char (b1 % 4 * 16 + b2 / 16), b64Char (b2 % 16 * 4), '=']
    = some [b1, b2]
  unfold decodeB64Step
  try dsimp only []
  rw [b64Val_b64Char (by omega), b64Val_b64Char (by omega)]
  try dsimp only []
  rw [if_neg (b64Char_ne_eq _), b64Val_b64Char (by omega)]
  try dsimp only []
  rw [if_pos rfl, if_pos rfl]
  congr 2
  · omega
  · congr 1
    omega

/-- Decoding an encoded byte list (bytes below 256) gives it back. -/
theorem decodeB64Go_encode : ∀ (fuel : Nat) (B : List Nat), B.length ≤ 3 * fuel →
    (∀ b ∈ B, b < 256) → decodeB64Go (fuel + 1) (encodeB64 B) = some B := by
  intro fuel
  induction fuel with
  | zero =>
      intro B hlen _
      obtain rfl : B = [] := by
        cases B with
        | nil => rfl
        | cons b bs => simp at hlen
      rfl
  | succ f ih =>
      intro B hlen hbs
      rw [decodeB64Go_succ]
      match B with
      | [] => exact decodeB64Step_nil _
      | [b1] => exact decodeB64Step_one _ (hbs b1 (by simp))
      | [b1, b2] => exact decodeB64Step_two _ (hbs b1 (by simp)) (hbs b2 (by simp))
      | b1 :: b2 :: b3 :: rest =>
          have hb1 : b1 < 256 := hbs b1 (by simp)
          have hb2 : b2 < 256 := hbs b2 (by simp)
          have hb3 : b3 < 256 := hbs b3 (by simp)
          show decodeB64Step (decodeB64Go (f + 1))
            (b64Char (b1 / 4) :: b64Char (b1 % 4 * 16 + b2 / 16) ::
              b64Char (b2 % 16 * 4 + b3 / 64) :: b64Char (b3 % 64) :: encodeB64 rest)
            = some (b1 :: b2 :: b3 :: rest)
          unfold decodeB64Step
          try dsimp only []
          rw [b64Val_b64Char (by omega), b64Val_b64Char (by omega)]
          try dsimp only []
          rw [if_neg (b64Char_ne_eq _), b64Val_b64Char (by omega)]
          try dsimp only []
          rw [if_neg (b64Char_ne_eq _), b64Val_b64Char (by omega)]
          try dsimp only []
          rw [ih rest (by simp only [List.length_cons] at hlen; omega)]
          show some ((b1 / 4 * 4 + (b1 % 4 * 16 + b2 / 16) / 16)
              :: ((b1 % 4 * 16 + b2 / 16) % 16 * 16 + (b2 % 16 * 4 + b3 / 64) / 4)
              :: ((b2 % 16 * 4 + b3 / 64) % 4 * 64 + b3 % 64) :: rest)
            = some (b1 :: b2 :: b3 :: rest)
          rw [show b1 / 4 * 4 + (b1 % 4 * 16 + b2 / 16) / 16 = b1 from by omega,
            show (b1 % 4 * 16 + b2 / 16) % 16 * 16 + (b2 % 16 * 4 + b3 / 64) / 4 = b2
              from by omega,
            show (b2 % 16 * 4 + b3 / 64) % 4 * 64 + b3 % 64 = b3 from by omega]
          exact fun b hb => hbs b (by simp [hb])

theorem encodeB64_length_ge : ∀ B : List Nat, B.length ≤ (encodeB64 B).length
  | [] => by simp [encodeB64]
  | [b1] => by
      rw [show encodeB64 [b1]
        = [b64Char (b1 / 4), b64Char (b1 % 4 * 16), '=', '='] from rfl]
      simp
  | [b1, b2] => by
      rw [show encodeB64 [b1, b2]
        = [b64Char (b1 / 4), b64Char (b1 % 4 * 16 + b2 / 16),
            b64Char (b2 % 16 * 4), '='] from rfl]
      simp
  | b1 :: b2 :: b3 :: rest => by
      rw [show encodeB64 (b1 :: b2 :: b3 :: rest)
        = b64Char (b1 / 4) :: b64Char (b1 % 4 * 16 + b2 / 16) ::
          b64Char (b2 % 16 * 4 + b3 / 64) :: b64Char (b3 % 64)
          :: encodeB64 rest from rfl]
      have := encodeB64_length_ge rest
      simp only [List.length_cons]
      omega

/-- The round-trip at the wrapper level. -/
theorem decodeB64_encode (B : List Nat) (hbs : ∀ b ∈ B, b < 256) :
    decodeB64 (encodeB64 B) = some B := by
  unfold decodeB64
  exact decodeB64Go_encode ((encodeB64 B).length) B
    (by have := encodeB64_length_ge B; omega) hbs

/-! ## Body and header serialization (`serdes.ts`)

A body is `Option (List Nat)`: `none` is a null body, `some bs` the byte
list of `arrayBuffer()`.  Headers observables are the `entries()` output
of a `Headers` object, a list of name/value pairs; a serialized-headers
value is a JavaScript object in insertion order whose values are a string
or an array of strings. -/

inductive SerializedBody where
  | nullBody
  | base64 (data : String)
  | text (data : String)
  | json (data : Json)

/-- `serializeBody`: empty and null bodies collapse to `null`; otherwise
strict-UTF-8 decode, then `JSON.parse`, falling back first to plain text
and then to base64. -/
def serializeBody (body : Option (List Nat)) : SerializedBody :=
  match body with
  | Option.none => .nullBody
  | some bs =>
      if bs.length = 0 then .nullBody
      else
        match utf8Decode bs with
        | Option.none => .base64 (String.mk (encodeB64 bs))
        | some cs =>
            match jsonParse (String.mk cs) with
            | some v => .json v
            | Option.none => .text (String.mk cs)

/-- `deserializeBody`; the error case is `decodeBase64` throwing on a
corrupted stored string. -/
def deserializeBody (body : SerializedBody) : Except Unit (Option (List Nat)) :=
  match body with
  | .nullBody => .ok Option.none
  | .base64 data =>
      match decodeB64 data.data with
      | some bs => .ok (some bs)
      | Option.none => .error ()
  | .text data => .ok (some (utf8Encode data))
  | .json v => .ok (some (utf8Encode (stringify v)))

/-- A serialized-headers value: `string | string[]`. -/
inductive HeaderVal where
  | one (v : String)
  | many (vs : List String)

/-- `asArray`. -/
def asArray : HeaderVal → List String
  | .one v => [v]
  | .many vs => vs

/-- The object property-set step of `serializeHeaders`: an existing name
is overwritten in place with the extended array, a new name appended. -/
def shSet (out : List (String × HeaderVal)) (k : String) (v : String) :
    List (String × HeaderVal) :=
  if (out.map Prod.fst).contains k then
    out.map fun p => if p.1 = k then (k, HeaderVal.many (asArray p.2 ++ [v])) else p
  else out ++ [(k, HeaderVal.one v)]

/-- `serializeHeaders` over the `entries()` list of a `Headers` object. -/
def serializeHeaders (entries : List (String × String)) : List (String × HeaderVal) :=
  entries.foldl (fun out p => shSet out p.1 p.2) []

/-- `deserializeHeaders`: append every value under its name, in object
order; the result is the append list of the fresh `Headers`. -/
def deserializeHeaders (headers : List (String × HeaderVal)) : List (String × String) :=
  headers.flatMap fun p => (asArray p.2).map fun v => (p.1, v)

/-- One value folded onto an existing serialized-header value. -/
def hvApp (hv : HeaderVal) (v : String) : HeaderVal := .many (asArray hv ++ [v])

theorem asArray_foldl_hvApp (vs : List String) : ∀ hv : HeaderVal,
    asArray (vs.foldl hvApp hv) = asArray hv ++ vs := by
  induction vs with
  | nil => intro hv; simp
  | cons v vs ih =>
      intro hv
      rw [List.foldl_cons, ih (hvApp hv v)]
      show (asArray hv ++ [v]) ++ vs = asArray hv ++ v :: vs
      simp

theorem shSet_fresh {out : List (String × HeaderVal)} {k : String}
    (h : k ∉ out.map Prod.fst) (v : String) : shSet out k v = out ++ [(k, .one v)] := by
  rw [shSet, if_neg]
  intro hc
  exact h ((contains_eq_mem _ _).mp hc)

theorem shSet_last {done : List (String × HeaderVal)} {k : String}
    (h : k ∉ done.map Prod.fst) (hv : HeaderVal) (v : String) :
    shSet (done ++ [(k, hv)]) k v = done ++ [(k, hvApp hv v)] := by
  rw [shSet, if_pos (by
    refine (contains_eq_mem _ _).mpr ?_
    simp)]
  rw [List.map_append]
  congr 1
  · refine (List.map_congr_left ?_).trans (List.map_id done)
    intro p hp
    show (if p.1 = k then (k, HeaderVal.many (asArray p.2 ++ [v])) else p) = id p
    rw [if_neg (show ¬(p.1 = k) from fun hpk =>
      h (by rw [← hpk]; exact List.mem_map.mpr ⟨p, hp, rfl⟩))]
    rfl
  · simp [hvApp]

theorem foldl_shSet_group (k : String) : ∀ (vs : List String)
    (done : List (String × HeaderVal)) (hv : HeaderVal), k ∉ done.map Prod.fst →
    (vs.map fun v => (k, v)).foldl (fun out p => shSet out p.1 p.2) (done ++ [(k, hv)])
      = done ++ [(k, vs.foldl hvApp hv)] := by
  intro vs
  induction vs with
  | nil => intro done hv _; simp
  | cons v vs ih =>
      intro done hv hk
      rw [List.map_cons, List.foldl_cons]
      show (vs.map fun v => (k, v)).foldl (fun out p => shSet out p.1 p.2)
        (shSet (done ++ [(k, hv)]) k v) = _
      rw [shSet_last hk hv v, ih done (hvApp hv v) hk]
      rfl

/-- The grouped form of an `entries()` list: every name holds its values
contiguously. -/
def flattenGroups (groups : List (String × List String)) : List (String × String) :=
  groups.flatMap fun g => g.2.map fun v => (g.1, v)

theorem foldl_shSet_groups : ∀ (groups : List (String × List String))
    (done : List (String × HeaderVal)),
    (∀ g ∈ groups, g.2 ≠ []) → (groups.map Prod.fst).Nodup →
    (∀ g ∈ groups, g.1 ∉ done.map Prod.fst) →
    (flattenGroups groups).foldl (fun out p => shSet out p.1 p.2) done
      = done ++ groups.map fun g =>
          (g.1, (g.2.tail).foldl hvApp (.one (g.2.headI))) := by
  intro groups
  induction groups with
  | nil => intro done _ _ _; simp [flattenGroups]
  | cons g groups ih =>
      intro done hne hnd hdis
      obtain ⟨k, vs⟩ := g
      match vs, hne (k, vs) (by simp) with
      | v :: vs2, _ =>
        have hflat : flattenGroups ((k, v :: vs2) :: groups)
            = ((k, v) :: vs2.map fun v2 => (k, v2)) ++ flattenGroups groups := by
          show ((v :: vs2).map fun v2 => (k, v2)) ++ flattenGroups groups = _
          rfl
        rw [hflat, List.foldl_append, List.foldl_cons]
        show (flattenGroups groups).foldl (fun out p => shSet out p.1 p.2)
          ((vs2.map fun v2 => (k, v2)).foldl (fun out p => shSet out p.1 p.2)
            (shSet done k v)) = _
        have hnd2 : (k :: groups.map Prod.fst).Nodup := by simpa using hnd
        rw [shSet_fresh (hdis (k, v :: vs2) (by simp)) v,
          foldl_shSet_group k vs2 done (.one v) (hdis (k, v :: vs2) (by simp)),
          ih (done ++ [(k, vs2.foldl hvApp (.one v))])
            (fun g hg => hne g (by simp [hg]))
            (List.nodup_cons.mp hnd2).2
            (by
              intro g2 hg2
              rw [List.map_append]
              simp only [List.mem_append]
              rintro (hin | hin)
              · exact hdis g2 (by simp [hg2]) hin
              · have hk2 : g2.1 = k := by simpa using hin
                exact (List.nodup_cons.mp hnd2).1
                  (hk2 ▸ List.mem_map.mpr ⟨g2, hg2, rfl⟩))]
        simp

/-- Serializing then deserializing an `entries()` list reproduces every
name/value occurrence in order: `Headers.entries` groups names
contiguously, which is exactly what the object construction needs. -/
theorem deserializeHeaders_serializeHeaders (groups : List (String × List String))
    (hne : ∀ g ∈ groups, g.2 ≠ []) (hnd : (groups.map Prod.fst).Nodup) :
    deserializeHeaders (serializeHeaders (flattenGroups groups))
      = flattenGroups groups := by
  rw [serializeHeaders, foldl_shSet_groups groups [] hne hnd (by simp)]
  rw [List.nil_append, deserializeHeaders, flattenGroups, List.flatMap_map]
  refine List.flatMap_congr ?_
  intro g hg
  match g, hne g hg with
  | (k, v :: vs2), _ =>
      show (asArray (vs2.foldl hvApp (.one v))).map (fun v2 => (k, v2))
        = (v :: vs2).map fun v2 => (k, v2)
      rw [asArray_foldl_hvApp vs2 (.one v)]
      rfl

/-! ## Response serialization (`serializeResponse` / `deserializeResponse`)

A response observable carries what the claims compare: status, status
text, the `entries()` list of its headers, the URL and the body bytes.
`deserializeResponse` builds a `MockResponse`; when a cancellation signal
is supplied and the body is not null, the body stream is piped through a
`TransformStream` whose `transform` throws the signal's reason per chunk
whenever the signal is aborted at read time — the signal is checked when
the body is consumed, not when the response object is built. -/

structure SerializedResponse where
  body : SerializedBody
  headers : List (String × HeaderVal)
  status : Nat
  statusText : String
  url : String

/-- An `AbortSignal`, as its observable fields. -/
structure Sig where
  aborted : Bool
  reason : String

structure RespObs where
  status : Nat
  statusText : String
  headerEntries : List (String × String)
  url : String
  body : Option (List Nat)
  guardSignal : Option Sig

def serializeResponse (r : RespObs) : SerializedResponse :=
  { status := r.status
    statusText := r.statusText
    url := r.url
    headers := serializeHeaders r.headerEntries
    body := serializeBody r.body }

/-- `deserializeResponse`: always constructs the response object; the
signal only wraps a non-null body stream.  The error case is a corrupted
base64 body. -/
def deserializeResponse (s : SerializedResponse) (signal : Option Sig) :
    Except Unit RespObs :=
  match deserializeBody s.body with
  | .error e => .error e
  | .ok bodyBytes =>
      .ok { status := s.status
            statusText := s.statusText
            headerEntries := deserializeHeaders s.headers
            url := s.url
            body := bodyBytes
            guardSignal :=
              match bodyBytes, signal with
              | some _, some sg => some sg
              | _, _ => Option.none }

/-- The observable body bytes: a null body reads as no bytes. -/
def obsBytes (r : RespObs) : List Nat := r.body.getD []

/-- Consuming the whole body stream: a guarded stream throws the signal's
reason at the first chunk if the signal is aborted by then. -/
def readAllBytes (r : RespObs) : Except String (List Nat) :=
  match r.body with
  | Option.none => .ok []
  | some bs =>
      match r.guardSignal with
      | some sg => if sg.aborted ∧ bs ≠ [] then .error sg.reason else .ok bs
      | Option.none => .ok bs

/-- Body round-trip: exact bytes except on the JSON path, which re-renders
the parsed value. -/
theorem deserializeBody_serializeBody (body : Option (List Nat))
    (hb : ∀ bs, body = some bs → ∀ b ∈ bs, b < 256) :
    ∃ bs2 : Option (List Nat), deserializeBody (serializeBody body) = .ok bs2 ∧
      bs2.getD [] = (match serializeBody body with
        | .json v => utf8Encode (stringify v)
        | _ => body.getD []) := by
  match body with
  | Option.none => exact ⟨Option.none, rfl, rfl⟩
  | some bs =>
      rw [show serializeBody (some bs)
        = (if bs.length = 0 then .nullBody
          else
            match utf8Decode bs with
            | Option.none => .base64 (String.mk (encodeB64 bs))
            | some cs =>
                match jsonParse (String.mk cs) with
                | some v => .json v
                | Option.none => .text (String.mk cs)) from rfl]
      by_cases hlen : bs.length = 0
      · rw [if_pos hlen]
        refine ⟨Option.none, rfl, ?_⟩
        show ([] : List Nat) = bs
        cases bs with
        | nil => rfl
        | cons b bs2 => simp at hlen
      rw [if_neg hlen]
      match hdec : utf8Decode bs with
      | Option.none =>
          refine ⟨some bs, ?_, rfl⟩
          show (match decodeB64 (String.mk (encodeB64 bs)).data with
            | some bs2 => Except.ok (some bs2)
            | Option.none => .error ()) = .ok (some bs)
          rw [show (String.mk (encodeB64 bs)).data = encodeB64 bs from rfl,
            decodeB64_encode bs (hb bs rfl)]
      | some cs =>
          dsimp only []
          match hparse : jsonParse (String.mk cs) with
          | some v =>
              dsimp only []
              exact ⟨some (utf8Encode (stringify v)), rfl, rfl⟩
          | Option.none =>
              dsimp only []
              refine ⟨some (utf8Encode (String.mk cs)), rfl, ?_⟩
              show utf8Encode (String.mk cs) = bs
              show cs.flatMap utf8EncodeChar = bs
              exact utf8Encode_decode hdec

/-! ## The sanitizer (`sanitizer.ts`)

`sanitizeUrl` sorts the search parameters, then walks the param keys with
the live `URLSearchParams` iterator, deleting blocked keys as it goes; the
iterator is index-based over the live list, so a deletion shifts the
remaining entries under the cursor.  Finally the embedded password is
cleared.  `sanitizeHeaders` keeps only allow-listed names,
case-insensitively. -/

/-- ASCII lower-casing, as `toLowerCase` acts on header and query names. -/
def lowerChar (c : Char) : Char :=
  if 65 ≤ c.toNat ∧ c.toNat ≤ 90 then Char.ofNat (c.toNat + 32) else c

def lowerStr (s : String) : String := String.mk (s.data.map lowerChar)

def isPrefixOfL : List Char → List Char → Bool
  | [], _ => true
  | _ :: _, [] => false
  | a :: as, b :: bs => a = b && isPrefixOfL as bs

def isSubstrL (needle : List Char) : List Char → Bool
  | [] => isPrefixOfL needle []
  | c :: rest => isPrefixOfL needle (c :: rest) || isSubstrL needle rest

def strHas (needle hay : String) : Bool := isSubstrL needle.data hay.data

/-- `blockedQueryParams.test(key)` for the default block list
`/api[_\-]?key|auth|pass|secret|secur|token/i`. -/
def blockedQueryTest (key : String) : Bool :=
  let l := lowerStr key
  strHas "apikey" l || strHas "api_key" l || strHas "api-key" l
    || strHas "auth" l || strHas "pass" l || strHas "secret" l
    || strHas "secur" l || strHas "token" l

/-- The default allow-list. -/
def allowedHeadersDefault : List String :=
  ["accept", "accept-charset", "accept-encoding", "accept-language",
   "accept-ranges", "connection", "content-disposition", "content-encoding",
   "content-language", "content-type", "host", "link", "origin", "referer",
   "transfer-encoding", "user-agent"]

/-- `sanitizeHeaders`: keep only entries whose lower-cased name is in the
allow-list (itself stored lower-cased). -/
def sanitizeHeaders (headers : List (String × HeaderVal)) : List (String × HeaderVal) :=
  headers.filter fun p => (allowedHeadersDefault.map lowerStr).contains (lowerStr p.1)

/-- A URL as its observable components; the parse of a normalized href is
itself, so `new URL(href)` is the identity on this representation. -/
structure UrlModel where
  protocol : String
  username : String
  password : String
  host : String
  pathname : String
  params : List (String × String)

/-- The `URLSearchParams.sort` comparator: stable, by name, in code-unit
order. -/
def spSortLe (a b : String × String) : Bool := !jsLt b.1 a.1

/-- The deletion loop over the live keys iterator: the cursor `i` indexes
the current list; `delete` removes every entry with the key and shifts the
tail left under the cursor. -/
def iterDeleteGo (blocked : String → Bool) : Nat → Nat → List (String × String) →
    List (String × String)
  | 0, _, l => l
  | fuel + 1, i, l =>
      if h : i < l.length then
        if blocked (l.get ⟨i, h⟩).1 then
          iterDeleteGo blocked fuel (i + 1) (l.filter fun p => ¬(p.1 = (l.get ⟨i, h⟩).1))
        else iterDeleteGo blocked fuel (i + 1) l
      else l

/-- The loop runs until the cursor passes the end; the cursor advances by
one per step and the list never grows, so `length` steps always finish. -/
def iterDelete (blocked : String → Bool) (l : List (String × String)) :
    List (String × String) :=
  iterDeleteGo blocked l.length 0 l

/-- `Sanitizer.sanitizeUrl` with the default options. -/
def sanitizeUrl (u : UrlModel) : UrlModel :=
  { u with
    params := iterDelete blockedQueryTest (sortByJs spSortLe u.params)
    password := "" }

/-- Password cleared, username untouched: these are unconditional. -/
theorem sanitizeUrl_password (u : UrlModel) :
    (sanitizeUrl u).password = "" ∧ (sanitizeUrl u).username = u.username :=
  ⟨rfl, rfl⟩

/-- Every surviving header is allow-listed. -/
theorem sanitizeHeaders_allowed (headers : List (String × HeaderVal)) :
    ∀ p ∈ sanitizeHeaders headers,
      (allowedHeadersDefault.map lowerStr).contains (lowerStr p.1) = true := by
  intro p hp
  exact (List.mem_filter.mp hp).2

/-! ## SHA-256 (`crypto.subtle.digest`) and hex encoding

A by-the-book SHA-256 over byte lists with `Nat` words reduced mod
`2 ^ 32`.  The digest is the eight final state words; `encodeHex` of the
32-byte digest is the same 64 lowercase hex characters as the eight words
printed big-endian. -/

def w32 (n : Nat) : Nat := n % 4294967296

def rotr32 (k n : Nat) : Nat := w32 (n / 2 ^ k + n * 2 ^ (32 - k))

def bigSigma0 (x : Nat) : Nat := Nat.xor (Nat.xor (rotr32 2 x) (rotr32 13 x)) (rotr32 22 x)
def bigSigma1 (x : Nat) : Nat := Nat.xor (Nat.xor (rotr32 6 x) (rotr32 11 x)) (rotr32 25 x)
def smallSigma0 (x : Nat) : Nat := Nat.xor (Nat.xor (rotr32 7 x) (rotr32 18 x)) (x / 2 ^ 3)
def smallSigma1 (x : Nat) : Nat := Nat.xor (Nat.xor (rotr32 17 x) (rotr32 19 x)) (x / 2 ^ 10)

def k256 : List Nat :=
  [1116352408, 1899447441, 3049323471, 3921009573, 961987163, 1508970993,
   2453635748, 2870763221, 3624381080, 310598401, 607225278, 1426881987,
   1925078388, 2162078206, 2614888103, 3248222580, 3835390401, 4022224774,
   264347078, 604807628, 770255983, 1249150122, 1555081692, 1996064986,
   2554220882, 2821834349, 2952996808, 3210313671, 3336571891, 3584528711,
   113926993, 338241895, 666307205, 773529912, 1294757372, 1396182291,
   1695183700, 1986661051, 2177026350, 2456956037, 2730485921, 2820302411,
   3259730800, 3345764771, 3516065817, 3600352804, 4094571909, 275423344,
   430227734, 506948616, 659060556, 883997877, 958139571, 1322822218,
   1537002063, 1747873779, 1955562222, 2024104815, 2227730452, 2361852424,
   2428436474, 2756734187, 3204031479, 3329325298]

structure H8 where
  a : Nat
  b : Nat
  c : Nat
  d : Nat
  e : Nat
  f : Nat
  g : Nat
  h : Nat

def sha256Init : H8 :=
  ⟨0x6a09e667, 0xbb67ae85, 0x3c6ef372, 0xa54ff53a,
   0x510e527f, 0x9b05688c, 0x1f83d9ab, 0x5be0cd19⟩

/-- Length and `0x80` padding to a multiple of 64 bytes, with the bit
length in the last eight bytes, big-endian. -/
def sha256Pad (msg : List Nat) : List Nat :=
  let bitLen := 8 * msg.length
  let z := (64 - (msg.length + 9) % 64) % 64
  msg ++ [0x80] ++ List.replicate z 0 ++
    [bitLen / 2 ^ 56 % 256, bitLen / 2 ^ 48 % 256, bitLen / 2 ^ 40 % 256,
     bitLen / 2 ^ 32 % 256, bitLen / 2 ^ 24 % 256, bitLen / 2 ^ 16 % 256,
     bitLen / 2 ^ 8 % 256, bitLen % 256]

/-- Big-endian 32-bit words from bytes. -/
def toWords32 : List Nat → List Nat
  | b1 :: b2 :: b3 :: b4 :: rest => (((b1 * 256 + b2) * 256 + b3) * 256 + b4) :: toWords32 rest
  | _ => []

/-- Split into 16-word blocks; the fuel is an upper bound on the number of
blocks. -/
def splitBlocks : Nat → List Nat → List (List Nat)
  | 0, _ => []
  | fuel + 1, ws => if ws.length = 0 then [] else ws.take 16 :: splitBlocks fuel (ws.drop 16)

/-- Message-schedule extension from 16 to 64 words; the fuel is the 48
extension steps. -/
def schedExtend : Nat → List Nat → List Nat
  | 0, ws => ws
  | fuel + 1, ws =>
      let n := ws.length
      let w := w32 ((ws.getD (n - 16) 0) + smallSigma0 (ws.getD (n - 15) 0)
        + (ws.getD (n - 7) 0) + smallSigma1 (ws.getD (n - 2) 0))
      schedExtend fuel (ws ++ [w])

def sha256Round (st : H8) (ki wi : Nat) : H8 :=
  let ch := Nat.xor (Nat.land st.e st.f) (Nat.land (Nat.xor st.e 0xffffffff) st.g)
  let maj := Nat.xor (Nat.xor (Nat.land st.a st.b) (Nat.land st.a st.c)) (Nat.land st.b st.c)
  let t1 := w32 (st.h + bigSigma1 st.e + ch + ki + wi)
  let t2 := w32 (bigSigma0 st.a + maj)
  ⟨w32 (t1 + t2), st.a, st.b, st.c, w32 (st.d + t1), st.e, st.f, st.g⟩

def sha256Compress : List Nat → List Nat → H8 → H8
  | ki :: ks, wi :: ws, st => sha256Compress ks ws (sha256Round st ki wi)
  | _, _, st => st

def sha256Block (st : H8) (block : List Nat) : H8 :=
  let ws := schedExtend 48 block
  let st2 := sha256Compress k256 ws st
  ⟨w32 (st.a + st2.a), w32 (st.b + st2.b), w32 (st.c + st2.c), w32 (st.d + st2.d),
   w32 (st.e + st2.e), w32 (st.f + st2.f), w32 (st.g + st2.g), w32 (st.h + st2.h)⟩

/-- The digest as eight 32-bit words. -/
def sha256Words (msg : List Nat) : List Nat :=
  let padded := sha256Pad msg
  let blocks := splitBlocks padded.length (toWords32 padded)
  let st := blocks.foldl sha256Block sha256Init
  [st.a, st.b, st.c, st.d, st.e, st.f, st.g, st.h]

/-- One word as eight lowercase hex characters, big-endian. -/
def hexWord32 (n : Nat) : List Char :=
  [hexDigitChar (n / 2 ^ 28 % 16), hexDigitChar (n / 2 ^ 24 % 16),
   hexDigitChar (n / 2 ^ 20 % 16), hexDigitChar (n / 2 ^ 16 % 16),
   hexDigitChar (n / 2 ^ 12 % 16), hexDigitChar (n / 2 ^ 8 % 16),
   hexDigitChar (n / 2 ^ 4 % 16), hexDigitChar (n % 16)]

/-- `encodeHex(await crypto.subtle.digest('SHA-256', bytes))`. -/
def sha256Hex (msg : List Nat) : String :=
  String.mk ((sha256Words msg).flatMap hexWord32)

/-- Every digest is 64 characters long. -/
theorem sha256Hex_length (msg : List Nat) : (sha256Hex msg).data.length = 64 := by
  show ((sha256Words msg).flatMap hexWord32).length = 64
  rw [show sha256Words msg
    = [(sha256Words msg).getD 0 0, (sha256Words msg).getD 1 0, (sha256Words msg).getD 2 0,
       (sha256Words msg).getD 3 0, (sha256Words msg).getD 4 0, (sha256Words msg).getD 5 0,
       (sha256Words msg).getD 6 0, (sha256Words msg).getD 7 0] from rfl]
  rfl

/-! ## `encodeURIComponent`, URL serialization and key derivation -/

def hexUpper (n : Nat) : Char :=
  if n < 10 then Char.ofNat (48 + n) else Char.ofNat (55 + n)

/-- The characters `encodeURIComponent` leaves verbatim. -/
def uriUnreserved (c : Char) : Bool :=
  (65 ≤ c.toNat && c.toNat ≤ 90) || (97 ≤ c.toNat && c.toNat ≤ 122)
    || (48 ≤ c.toNat && c.toNat ≤ 57)
    || c = '-' || c = '_' || c = '.' || c = '!' || c = '~' || c = '*' || c = '\''
    || c = '(' || c = ')'

def encodeURIComponent (s : String) : String :=
  String.mk (s.data.flatMap fun c =>
    if uriUnreserved c then [c]
    else (utf8EncodeChar c).flatMap fun b => ['%', hexUpper (b / 16), hexUpper (b % 16)])

/-- The query string of the href; the percent-encoding of names and values
inside it is left out, as every claim treats the query serialization as
opaque. -/
def searchSerial (ps : List (String × String)) : String :=
  match ps with
  | [] => ""
  | _ => "?" ++ String.intercalate "&" (ps.map fun p => p.1 ++ "=" ++ p.2)

/-- The `href` serialization of a URL. -/
def UrlModel.href (u : UrlModel) : String :=
  u.protocol ++ "//"
    ++ (if u.username = "" ∧ u.password = "" then ""
        else u.username ++ (if u.password = "" then "" else ":" ++ u.password) ++ "@")
    ++ u.host ++ u.pathname ++ searchSerial u.params

/-- A request observable: method, parsed URL, header `entries()` and body
bytes. -/
structure ReqObs where
  method : String
  url : UrlModel
  headerEntries : List (String × String)
  body : Option (List Nat)

/-- A serialized request; the source stores the URL as its href string,
the model keeps the parsed form and serializes it where the string is
consumed. -/
structure SerializedRequestM where
  method : String
  url : UrlModel
  headers : List (String × HeaderVal)
  body : SerializedBody

def serializeRequestM (r : ReqObs) : SerializedRequestM :=
  { method := r.method
    url := r.url
    headers := serializeHeaders r.headerEntries
    body := serializeBody r.body }

def sanitizeRequestM (r : SerializedRequestM) : SerializedRequestM :=
  { method := r.method
    url := sanitizeUrl r.url
    headers := sanitizeHeaders r.headers
    body := r.body }

def sanitizeResponseM (s : SerializedResponse) : SerializedResponse :=
  { status := s.status
    statusText := s.statusText
    url := s.url
    headers := sanitizeHeaders s.headers
    body := s.body }

/-- The JSON value of a serialized-headers entry. -/
def headerValJson : HeaderVal → Json
  | .one v => .str v
  | .many vs => .arr (vs.map Json.str)

/-- The JSON value of a serialized body. -/
def serializedBodyJson : SerializedBody → Json
  | .nullBody => .null
  | .base64 d => .obj [("kind", .str "base64"), ("data", .str d)]
  | .text d => .obj [("kind", .str "text"), ("data", .str d)]
  | .json v => .obj [("kind", .str "json"), ("data", v)]

/-- The JSON value `JSON.stringify` receives for a serialized request. -/
def reqJson (r : SerializedRequestM) : Json :=
  .obj [("method", .str r.method), ("url", .str r.url.href),
        ("headers", .obj (r.headers.map fun p => (p.1, headerValJson p.2))),
        ("body", serializedBodyJson r.body)]

/-- The digest both key-derivation versions hash: the canonicalized
serialized request, UTF-8 encoded, through SHA-256. -/
def canonicalRequestHash (r : SerializedRequestM) : String :=
  sha256Hex (utf8Encode (jsonStringifyDeterministically (reqJson r)))

/-- `getKey` of the earlier serdes version: the canonical request hash. -/
def getKeyV1 (r : SerializedRequestM) : String := canonicalRequestHash r

/-- `getFileName` of the earlier serdes version: one flat file per host. -/
def getFileNameV1 (r : SerializedRequestM) : String :=
  encodeURIComponent r.url.host ++ ".json"

/-- `getKey` of the current serdes: the constant property name. -/
def getKey (_ : SerializedRequestM) : String := "data"

/-- `getFileName` of the current serdes: a per-host directory containing
one file per canonical request hash. -/
def getFileName (r : SerializedRequestM) : String :=
  encodeURIComponent r.url.host ++ "/" ++ canonicalRequestHash r ++ ".json"

theorem char_fin : Finite Char := by
  refine Finite.of_injective
    (fun c : Char => (⟨c.val.toNat, c.val.toNat_lt⟩ : Fin (2 ^ 32))) ?_
  intro a b h
  have h2 : a.val.toNat = b.val.toNat := congrArg Fin.val h
  exact Char.ext (UInt32.toNat.inj h2)

/-- Key derivation is a function of the canonicalized request alone:
requests whose serialized forms are structurally equal (same observable
fields, member order and object identity aside) get the same key. -/
theorem getKeyV1_structEq {r1 r2 : SerializedRequestM}
    (h1 : Json.wfB (reqJson r1) = true) (h2 : Json.wfB (reqJson r2) = true)
    (he : structEqB (reqJson r1) (reqJson r2) = true) : getKeyV1 r1 = getKeyV1 r2 := by
  show sha256Hex (utf8Encode (jsonStringifyDeterministically (reqJson r1)))
    = sha256Hex (utf8Encode (jsonStringifyDeterministically (reqJson r2)))
  rw [canonicalize_key_order h1 h2 he]

/-- Key derivation cannot be injective: the key space is the fixed set of
64-character strings while requests are unbounded, so two requests that
differ in method share a key. -/
theorem getKeyV1_collision : ∃ r1 r2 : SerializedRequestM,
    r1.method ≠ r2.method ∧ getKeyV1 r1 = getKeyV1 r2 := by
  classical
  have : Finite Char := char_fin
  let f : Nat → SerializedRequestM := fun n =>
    { method := String.mk (printNat n)
      url := { protocol := "https:", username := "", password := "",
               host := "example.com", pathname := "/", params := [] }
      headers := []
      body := .nullBody }
  let g : Nat → (Fin 64 → Char) := fun n i =>
    (getKeyV1 (f n)).data.get ⟨i.val, by
      have hl : (getKeyV1 (f n)).data.length = 64 := sha256Hex_length _
      omega⟩
  obtain ⟨n1, n2, hne, heq⟩ := Finite.exists_ne_map_eq_of_infinite g
  refine ⟨f n1, f n2, ?_, ?_⟩
  · show String.mk (printNat n1) ≠ String.mk (printNat n2)
    intro he
    apply hne
    have hd : printNat n1 = printNat n2 := congrArg String.data he
    have := digitsToNat_printNat n1
    rw [hd, digitsToNat_printNat n2] at this
    exact this.symm
  · have hl1 : (getKeyV1 (f n1)).data.length = 64 := sha256Hex_length _
    have hl2 : (getKeyV1 (f n2)).data.length = 64 := sha256Hex_length _
    refine String.ext (List.ext_get (by rw [hl1, hl2]) ?_)
    intro i hi1 hi2
    have := congrArg (fun h => h (⟨i, by omega⟩ : Fin 64)) heq
    exact this

/-! ## The file system layer (`fs.ts`)

File contents are strings; the load contract parses them.  The saver
machine further below keeps the parsed documents, whose rendering to disk
is covered by the printer round-trip. -/

/-- Property lookup on a string-keyed object. -/
def lookupA {A : Type} : List (String × A) → String → Option A
  | [], _ => Option.none
  | x :: xs, q => if x.1 = q then some x.2 else lookupA xs q

/-- Property set: an existing name is overwritten in place, a new name
appended. -/
def setA {A : Type} (xs : List (String × A)) (q : String) (v : A) : List (String × A) :=
  if (xs.map Prod.fst).contains q then
    xs.map fun p => if p.1 = q then (q, v) else p
  else xs ++ [(q, v)]

theorem lookupA_setA_self {A : Type} (m : List (String × A)) (q : String) (v : A) :
    lookupA (setA m q v) q = some v := by
  unfold setA
  by_cases hc : (m.map Prod.fst).contains q
  · rw [if_pos hc]
    have hmem : q ∈ m.map Prod.fst := (contains_eq_mem _ _).mp hc
    clear hc
    induction m with
    | nil => simp at hmem
    | cons x xs ih =>
        rw [List.map_cons]
        rw [show lookupA ((if x.1 = q then (q, v) else x) :: xs.map fun p =>
            if p.1 = q then (q, v) else p) q
          = if (if x.1 = q then (q, v) else x).1 = q
            then some (if x.1 = q then (q, v) else x).2
            else lookupA (xs.map fun p => if p.1 = q then (q, v) else p) q from rfl]
        by_cases hx : x.1 = q
        · rw [if_pos hx]
          rw [show ((q, v) : String × A).1 = q from rfl,
            show ((q, v) : String × A).2 = v from rfl, if_pos rfl]
        · rw [if_neg hx, if_neg hx]
          exact ih (by
            have hmem2 : q ∈ x.1 :: xs.map Prod.fst := by
              rw [← List.map_cons]
              exact hmem
            rcases List.mem_cons.mp hmem2 with h | h
            · exact absurd h.symm hx
            · exact h)
  · rw [if_neg hc]
    have hnot : q ∉ m.map Prod.fst := fun hm => hc ((contains_eq_mem _ _).mpr hm)
    clear hc
    induction m with
    | nil =>
        show (if q = q then some v else Option.none) = some v
        rw [if_pos rfl]
    | cons x xs ih =>
        rw [show lookupA ((x :: xs) ++ [(q, v)]) q
          = if x.1 = q then some x.2 else lookupA (xs ++ [(q, v)]) q from rfl]
        rw [if_neg (show ¬ x.1 = q from fun hx => hnot (by
          rw [List.map_cons, ← hx]
          exact List.mem_cons_self _ _))]
        exact ih fun hm => hnot (by
          rw [List.map_cons]
          exact List.mem_cons_of_mem _ hm)

theorem lookupA_setA_ne {A : Type} (m : List (String × A)) {q p : String} (v : A)
    (h : ¬(q = p)) : lookupA (setA m q v) p = lookupA m p := by
  unfold setA
  by_cases hc : (m.map Prod.fst).contains q
  · rw [if_pos hc]
    clear hc
    induction m with
    | nil => rfl
    | cons x xs ih =>
        rw [List.map_cons]
        rw [show lookupA ((if x.1 = q then (q, v) else x) :: xs.map fun p2 =>
            if p2.1 = q then (q, v) else p2) p
          = if (if x.1 = q then (q, v) else x).1 = p
            then some (if x.1 = q then (q, v) else x).2
            else lookupA (xs.map fun p2 => if p2.1 = q then (q, v) else p2) p from rfl]
        rw [show lookupA (x :: xs) p
          = if x.1 = p then some x.2 else lookupA xs p from rfl]
        by_cases hx : x.1 = q
        · rw [if_pos hx]
          rw [if_neg (show ¬((q, v) : String × A).1 = p from h),
            if_neg (show ¬ x.1 = p from by rw [hx]; exact h)]
          exact ih
        · rw [if_neg hx]
          by_cases hxp : x.1 = p
          · rw [if_pos hxp, if_pos hxp]
          · rw [if_neg hxp, if_neg hxp]
            exact ih
  · rw [if_neg hc]
    clear hc
    induction m with
    | nil =>
        show (if q = p then some v else Option.none) = Option.none
        rw [if_neg h]
    | cons x xs ih =>
        rw [show lookupA ((x :: xs) ++ [(q, v)]) p
          = if x.1 = p then some x.2 else lookupA (xs ++ [(q, v)]) p from rfl,
          show lookupA (x :: xs) p
          = if x.1 = p then some x.2 else lookupA xs p from rfl]
        by_cases hxp : x.1 = p
        · rw [if_pos hxp, if_pos hxp]
        · rw [if_neg hxp, if_neg hxp]
          exact ih

/-- The failure modes of the load contract: a `SyntaxError` from
`JSON.parse` (including empty content) or the `data must be an object`
assertion. -/
inductive LoadErr where
  | parseFail
  | notObject

/-- `typeof data === 'object' && data != null`: objects and arrays pass,
`null`, strings, numbers and booleans fail. -/
def isObjectLike : Json → Bool
  | .obj _ => true
  | .arr _ => true
  | _ => false

/-- `getJsonDataFromFile` before memoization: a missing file is an empty
document, anything else is read, parsed and object-checked. -/
def getJsonDataFromFileRaw (files : List (String × String)) (path : String) :
    Except LoadErr Json :=
  match lookupA files path with
  | Option.none => .ok (.obj [])
  | some text =>
      match jsonParse text with
      | Option.none => .error .parseFail
      | some v => if isObjectLike v then .ok v else .error .notObject

/-! ## The saver machine (`HttpSaver`)

State-passing semantics of the stubbed fetch: the file system (existing
directories, written documents), the module-level memo of
`getJsonDataFromFile`, and the trace of live network calls, each entry the
fetch function it went through.  Written documents are kept in parsed form;
their rendering is the printer's.  `mkdir` records only the requested
directory (ancestors are never consulted), and `writeFile` requires the
parent directory of its path to exist, failing with `ENOENT` otherwise,
as `node:fs` does. -/

/-- The identity of a fetch function: a plain platform function, or the
stub installed by a saver. -/
inductive FetchId where
  | base (n : Nat)
  | stubOf (saverId : Nat)
deriving DecidableEq

inductive Mode where
  | ensure
  | overwrite
  | readOnly
  | reset
deriving DecidableEq

/-- One cached record. -/
structure SerializedRec where
  lastSaved : String
  request : SerializedRequestM
  response : SerializedResponse

structure SaverState where
  dirs : List String
  files : List (String × List (String × SerializedRec))
  memo : List (String × List (String × SerializedRec))
  trace : List FetchId

structure EnvG where
  globalFetch : FetchId

structure SaverCfg where
  mode : Mode
  dirPath : String
  saverId : Nat
  realFetch : FetchId

/-- The constructor: `#realFetch = globalThis.fetch` is read once, here. -/
def mkHttpSaver (env : EnvG) (mode : Mode) (dirPath : String) (saverId : Nat) : SaverCfg :=
  { mode := mode, dirPath := dirPath, saverId := saverId, realFetch := env.globalFetch }

/-- `stubFetch()` replaces the global fetch with this saver's stub. -/
def installStub (_env : EnvG) (sv : SaverCfg) : EnvG :=
  { globalFetch := .stubOf sv.saverId }

inductive CallErr where
  | aborted (reason : String)
  | cacheMiss
  | enoent
  | corrupted

def dirnameL (cs : List Char) : List Char :=
  ((cs.reverse.dropWhile fun c => !(c == '/')).drop 1).reverse

/-- The parent directory of a path. -/
def dirname (p : String) : String := String.mk (dirnameL p.data)

def joinPath (a b : String) : String := a ++ "/" ++ b

def mkdirRec (st : SaverState) (dir : String) : SaverState :=
  { st with dirs := if st.dirs.contains dir then st.dirs else dir :: st.dirs }

def writeFileS (st : SaverState) (path : String) (doc : List (String × SerializedRec)) :
    Except CallErr SaverState :=
  if st.dirs.contains (dirname path) then
    .ok { st with files := setA st.files path doc }
  else .error .enoent

/-- The memoized read: a hit returns the cached document object itself, a
miss loads the file (a missing file is the empty document) and caches it. -/
def getJsonDataMemo (st : SaverState) (path : String) :
    List (String × SerializedRec) × SaverState :=
  match lookupA st.memo path with
  | some d => (d, st)
  | Option.none =>
      let d := match lookupA st.files path with
        | some d => d
        | Option.none => []
      (d, { st with memo := setA st.memo path d })

/-- A live network call through the given fetch function; `net` is the
network itself. -/
def doFetch (net : ReqObs → RespObs) (f : FetchId) (st : SaverState) (r : ReqObs) :
    RespObs × SaverState :=
  (net r, { st with trace := st.trace ++ [f] })

/-- `#read`. -/
def readStep (st : SaverState) (filePath key : String) (signal : Option Sig) :
    (Except CallErr RespObs) × SaverState :=
  let p := getJsonDataMemo st filePath
  match lookupA p.1 key with
  | some record =>
      (match deserializeResponse record.response signal with
       | .ok res => (.ok res, p.2)
       | .error _ => (.error .corrupted, p.2))
  | Option.none => (.error .cacheMiss, p.2)

/-- `#overwrite`: make the directory, fetch live through the
construction-time fetch, read the document, upsert the record into the
document object (which is the memoized object), write the file and return
the deserialization of the stored response. -/
def overwriteStep (sv : SaverCfg) (net : ReqObs → RespObs) (now : String)
    (st : SaverState) (r : ReqObs) (sreq : SerializedRequestM)
    (filePath key : String) (signal : Option Sig) :
    (Except CallErr RespObs) × SaverState :=
  let st1 := mkdirRec st sv.dirPath
  let p := doFetch net sv.realFetch st1 r
  let q := getJsonDataMemo p.2 filePath
  let response := sanitizeResponseM (serializeResponse p.1)
  let resInfo2 := setA q.1 key
    { lastSaved := now, request := sreq, response := response }
  let st4 := { q.2 with memo := setA q.2.memo filePath resInfo2 }
  match writeFileS st4 filePath resInfo2 with
  | .error e => (.error e, st4)
  | .ok st5 =>
      match deserializeResponse response signal with
      | .ok out => (.ok out, st5)
      | .error _ => (.error .corrupted, st5)

/-- The stubbed fetch: abort check, serialization and sanitization, file
name and key derivation, then the mode dispatch. -/
def stubFetchCall (sv : SaverCfg) (net : ReqObs → RespObs) (now : String)
    (st : SaverState) (r : ReqObs) (signal : Option Sig) :
    (Except CallErr RespObs) × SaverState :=
  match signal with
  | some sg =>
      if sg.aborted then (.error (.aborted sg.reason), st)
      else stubFetchDispatch sv net now st r signal
  | Option.none => stubFetchDispatch sv net now st r signal
where
  stubFetchDispatch (sv : SaverCfg) (net : ReqObs → RespObs) (now : String)
      (st : SaverState) (r : ReqObs) (signal : Option Sig) :
      (Except CallErr RespObs) × SaverState :=
    let sreq := sanitizeRequestM (serializeRequestM r)
    let filePath := joinPath sv.dirPath (getFileName sreq)
    let key := getKey sreq
    match sv.mode with
    | .ensure | .reset =>
        match readStep st filePath key signal with
        | (.error .cacheMiss, st1) => overwriteStep sv net now st1 r sreq filePath key signal
        | other => other
    | .overwrite => overwriteStep sv net now st r sreq filePath key signal
    | .readOnly => readStep st filePath key signal

theorem dropWhile_append_all {p : Char → Bool} {l : List Char} (r : List Char)
    (h : ∀ c ∈ l, p c = true) : (l ++ r).dropWhile p = r.dropWhile p := by
  induction l with
  | nil => rfl
  | cons c cs ih =>
      rw [List.cons_append, List.dropWhile_cons, if_pos (h c (by simp)),
        ih fun c2 hc2 => h c2 (by simp [hc2])]

/-- The parent of a path whose last segment has no slash. -/
theorem dirnameL_append (xs ys : List Char) (h : ∀ c ∈ ys, (c == '/') = false) :
    dirnameL (xs ++ '/' :: ys) = xs := by
  unfold dirnameL
  rw [List.reverse_append, List.reverse_cons, List.append_assoc,
    dropWhile_append_all (['/'] ++ xs.reverse) (fun c hc => by
      rw [List.mem_reverse] at hc
      rw [h c hc]
      rfl),
    show ((['/'] ++ xs.reverse) : List Char) = '/' :: xs.reverse from rfl,
    List.dropWhile_cons, if_neg (by decide), List.drop_succ_cons, List.drop_zero,
    List.reverse_reverse]

theorem hexDigitChar_ne_slash {n : Nat} (h : n < 16) : (hexDigitChar n == '/') = false := by
  refine beq_eq_false_iff_ne.mpr ?_
  unfold hexDigitChar
  by_cases h10 : n < 10
  · rw [if_pos h10]
    intro he
    have h2 := digitChar_toNat (n := n) (by omega)
    rw [he] at h2
    simp at h2
    omega
  · rw [if_neg h10]
    intro he
    have h2 := char_toNat_ofNat (n := 87 + n) (Or.inl (by omega))
    rw [he] at h2
    simp at h2
    omega

theorem sha256Hex_slashFree (msg : List Nat) :
    ∀ c ∈ (sha256Hex msg).data, (c == '/') = false := by
  intro c hc
  have hc2 : c ∈ (sha256Words msg).flatMap hexWord32 := hc
  obtain ⟨w, _, hw⟩ := List.mem_flatMap.mp hc2
  unfold hexWord32 at hw
  simp only [List.mem_cons, List.not_mem_nil, or_false] at hw
  rcases hw with h | h | h | h | h | h | h | h
  all_goals subst h
  all_goals exact hexDigitChar_ne_slash (Nat.mod_lt _ (by omega))

theorem char_toNat_lt (c : Char) : c.toNat < 1114112 := by
  rcases c.valid with h | ⟨h1, h2⟩
  · exact Nat.lt_trans h (by norm_num)
  · exact h2

theorem utf8EncodeChar_lt (c : Char) : ∀ b ∈ utf8EncodeChar c, b < 256 := by
  have hv := char_toNat_lt c
  intro b hb
  unfold utf8EncodeChar at hb
  by_cases h1 : c.toNat < 0x80
  · rw [if_pos h1] at hb
    rw [List.mem_singleton] at hb
    omega
  rw [if_neg h1] at hb
  by_cases h2 : c.toNat < 0x800
  · rw [if_pos h2] at hb
    simp only [List.mem_cons, List.not_mem_nil, or_false] at hb
    rcases hb with h | h <;> omega
  rw [if_neg h2] at hb
  by_cases h3 : c.toNat < 0x10000
  · rw [if_pos h3] at hb
    simp only [List.mem_cons, List.not_mem_nil, or_false] at hb
    rcases hb with h | h | h <;> omega
  · rw [if_neg h3] at hb
    simp only [List.mem_cons, List.not_mem_nil, or_false] at hb
    rcases hb with h | h | h | h <;> omega

theorem hexUpper_ne_slash {n : Nat} (h : n < 16) : ¬ hexUpper n = '/' := by
  unfold hexUpper
  by_cases h10 : n < 10
  · rw [if_pos h10]
    intro he
    have := char_toNat_ofNat (n := 48 + n) (Or.inl (by omega))
    rw [he] at this
    simp at this
    omega
  · rw [if_neg h10]
    intro he
    have := char_toNat_ofNat (n := 55 + n) (Or.inl (by omega))
    rw [he] at this
    simp at this
    omega

theorem encodeURIComponent_slashFree (s : String) :
    ∀ c ∈ (encodeURIComponent s).data, (c == '/') = false := by
  intro c hc
  refine beq_eq_false_iff_ne.mpr ?_
  obtain ⟨c0, _, hin⟩ := List.mem_flatMap.mp hc
  by_cases hu : uriUnreserved c0
  · rw [if_pos hu] at hin
    rw [List.mem_singleton] at hin
    subst hin
    intro he
    subst he
    exact absurd hu (by decide)
  · rw [if_neg hu] at hin
    obtain ⟨b, hb, hin2⟩ := List.mem_flatMap.mp hin
    have hblt : b < 256 := utf8EncodeChar_lt c0 b hb
    simp only [List.mem_cons, List.not_mem_nil, or_false] at hin2
    rcases hin2 with h | h | h
    · subst h; decide
    · subst h; exact hexUpper_ne_slash (by omega)
    · subst h
      exact hexUpper_ne_slash (Nat.mod_lt _ (by omega))

/-- The derived file path of the current serdes always sits one directory
below the cache directory: its parent is the per-host directory, not the
cache directory itself. -/
theorem dirname_filePath (dirPath : String) (r : SerializedRequestM) :
    dirname (joinPath dirPath (getFileName r))
      = dirPath ++ "/" ++ encodeURIComponent r.url.host := by
  show String.mk (dirnameL (joinPath dirPath (getFileName r)).data)
    = dirPath ++ "/" ++ encodeURIComponent r.url.host
  have hdata : (joinPath dirPath (getFileName r)).data
      = (dirPath.data ++ '/' :: (encodeURIComponent r.url.host).data)
        ++ '/' :: (canonicalRequestHash r ++ ".json").data := by
    show (dirPath ++ "/" ++ (encodeURIComponent r.url.host ++ "/"
      ++ canonicalRequestHash r ++ ".json")).data = _
    simp [String.data_append]
  rw [hdata, dirnameL_append _ _ (by
    intro c hc
    rw [String.data_append] at hc
    rcases List.mem_append.mp hc with h | h
    · exact sha256Hex_slashFree _ c h
    · exact (by decide : ∀ x ∈ ".json".data, (x == '/') = false) c h)]
  show String.mk (dirPath.data ++ '/' :: (encodeURIComponent r.url.host).data)
    = dirPath ++ "/" ++ encodeURIComponent r.url.host
  refine String.ext ?_
  simp [String.data_append]

theorem lookupA_single_self {A : Type} (q : String) (v : A) :
    lookupA [(q, v)] q = some v := by
  simp [lookupA]

theorem setA_singleton {A : Type} (q : String) (v v2 : A) :
    setA [(q, v)] q v2 = [(q, v2)] := by
  simp [setA]

/-- A memo hit leaves the state untouched and returns the memoized object. -/
theorem getJsonDataMemo_hit {st : SaverState} {path : String}
    {d : List (String × SerializedRec)} (h : lookupA st.memo path = some d) :
    getJsonDataMemo st path = (d, st) := by
  unfold getJsonDataMemo
  rw [h]

/-- `getJsonDataFromFile` never touches the directories, files or trace. -/
theorem getJsonDataMemo_frame (st : SaverState) (path : String) :
    (getJsonDataMemo st path).2.trace = st.trace
    ∧ (getJsonDataMemo st path).2.dirs = st.dirs
    ∧ (getJsonDataMemo st path).2.files = st.files := by
  unfold getJsonDataMemo
  cases h : lookupA st.memo path <;> exact ⟨rfl, rfl, rfl⟩

/-- `#read` never touches the directories, files or trace: a cache read
performs no network call and no write. -/
theorem readStep_frame (st : SaverState) (filePath key : String) (sig : Option Sig) :
    (readStep st filePath key sig).2.trace = st.trace
    ∧ (readStep st filePath key sig).2.dirs = st.dirs
    ∧ (readStep st filePath key sig).2.files = st.files := by
  unfold readStep
  dsimp only []
  have hf := getJsonDataMemo_frame st filePath
  cases h : lookupA (getJsonDataMemo st filePath).1 key with
  | none => exact hf
  | some record =>
      dsimp only []
      cases h2 : deserializeResponse record.response sig <;> exact hf

theorem writeFileS_ok_frame {st : SaverState} {path : String}
    {doc : List (String × SerializedRec)} {st2 : SaverState}
    (h : writeFileS st path doc = .ok st2) :
    st2.trace = st.trace ∧ st2.dirs = st.dirs ∧ st2.memo = st.memo := by
  unfold writeFileS at h
  split at h
  · injection h with h2
    subst h2
    exact ⟨rfl, rfl, rfl⟩
  · exact Except.noConfusion h

/-- `#overwrite` performs exactly one live network call, through the
saver's construction-time fetch function. -/
theorem overwriteStep_trace (sv : SaverCfg) (net : ReqObs → RespObs) (now : String)
    (st : SaverState) (r : ReqObs) (sreq : SerializedRequestM)
    (filePath key : String) (sig : Option Sig) :
    (overwriteStep sv net now st r sreq filePath key sig).2.trace
      = st.trace ++ [sv.realFetch] := by
  unfold overwriteStep
  dsimp only []
  have hq := getJsonDataMemo_frame
    ((doFetch net sv.realFetch (mkdirRec st sv.dirPath) r).2) filePath
  split
  · dsimp only []
    rw [hq.1]
    rfl
  next st5 heq =>
    have hw := writeFileS_ok_frame heq
    split <;> (dsimp only []; rw [hw.1]; rw [hq.1]; rfl)

/-- Every new trace entry of a stubbed call is the saver's
construction-time fetch function. -/
theorem stubFetchCall_trace (sv : SaverCfg) (net : ReqObs → RespObs) (now : String)
    (st : SaverState) (r : ReqObs) (sig : Option Sig) :
    (stubFetchCall sv net now st r sig).2.trace = st.trace
    ∨ (stubFetchCall sv net now st r sig).2.trace = st.trace ++ [sv.realFetch] := by
  have hdisp : ∀ sig2, (stubFetchCall.stubFetchDispatch sv net now st r sig2).2.trace = st.trace
      ∨ (stubFetchCall.stubFetchDispatch sv net now st r sig2).2.trace
        = st.trace ++ [sv.realFetch] := by
    intro sig2
    unfold stubFetchCall.stubFetchDispatch
    dsimp only []
    cases hm : sv.mode
    case overwrite => exact Or.inr (overwriteStep_trace ..)
    case readOnly => exact Or.inl (readStep_frame ..).1
    all_goals (
      dsimp only []
      have hfr := (readStep_frame st
        (joinPath sv.dirPath (getFileName (sanitizeRequestM (serializeRequestM r))))
        (getKey (sanitizeRequestM (serializeRequestM r))) sig2).1
      cases hr : readStep st
          (joinPath sv.dirPath (getFileName (sanitizeRequestM (serializeRequestM r))))
          (getKey (sanitizeRequestM (serializeRequestM r))) sig2 with
      | mk res st1 =>
          rw [hr] at hfr
          dsimp only [] at hfr
          try dsimp only []
          cases res with
          | ok val => exact Or.inl hfr
          | error e =>
              cases e with
              | cacheMiss =>
                  try dsimp only []
                  rw [overwriteStep_trace, hfr]
                  exact Or.inr rfl
              | aborted reason => exact Or.inl hfr
              | enoent => exact Or.inl hfr
              | corrupted => exact Or.inl hfr)
  unfold stubFetchCall
  cases sig with
  | none => exact hdisp _
  | some sg =>
      dsimp only []
      by_cases ha : sg.aborted = true
      · rw [if_pos ha]
        exact Or.inl rfl
      · rw [if_neg ha]
        exact hdisp _

theorem setA_nil {A : Type} (q : String) (v : A) : setA [] q v = [(q, v)] := rfl

theorem writeFileS_enoent {st : SaverState} {path : String}
    {doc : List (String × SerializedRec)}
    (h : st.dirs.contains (dirname path) = false) :
    writeFileS st path doc = .error .enoent := by
  unfold writeFileS
  rw [h]
  rfl

/-- Mode `readOnly`, a document without the derived key: the call fails
with a cache miss and makes no live network call. -/
theorem readOnly_cacheMiss (sv : SaverCfg) (net : ReqObs → RespObs) (now : String)
    (st : SaverState) (r : ReqObs)
    (hmode : sv.mode = Mode.readOnly)
    (hmiss : lookupA (getJsonDataMemo st
        (joinPath sv.dirPath (getFileName (sanitizeRequestM (serializeRequestM r))))).1
        (getKey (sanitizeRequestM (serializeRequestM r))) = Option.none) :
    (stubFetchCall sv net now st r Option.none).1 = Except.error CallErr.cacheMiss
    ∧ (stubFetchCall sv net now st r Option.none).2.trace = st.trace := by
  have hd : stubFetchCall sv net now st r Option.none
      = readStep st (joinPath sv.dirPath (getFileName (sanitizeRequestM (serializeRequestM r))))
          (getKey (sanitizeRequestM (serializeRequestM r))) Option.none := by
    show stubFetchCall.stubFetchDispatch sv net now st r Option.none = _
    unfold stubFetchCall.stubFetchDispatch
    dsimp only []
    rw [hmode]
  rw [hd]
  refine ⟨?_, (readStep_frame ..).1⟩
  unfold readStep
  dsimp only []
  rw [hmiss]

/-- Mode `ensure`, empty state: the first call performs its one live
network call via the construction-time fetch, then fails with `ENOENT`
and writes no file: `getFileName` puts records in a per-host subdirectory
of the cache directory, which `#overwrite` never creates (it only makes
the cache directory itself). -/
theorem ensure_empty_first_call (dirPath : String) (saverId : Nat) (rf : FetchId)
    (net : ReqObs → RespObs) (now : String) (r : ReqObs) :
    ∃ m, stubFetchCall ⟨Mode.ensure, dirPath, saverId, rf⟩ net now ⟨[], [], [], []⟩ r
        Option.none
      = (Except.error CallErr.enoent, ⟨[dirPath], [], m, [rf]⟩) := by
  refine ⟨[(joinPath dirPath (getFileName (sanitizeRequestM (serializeRequestM r))),
    [(getKey (sanitizeRequestM (serializeRequestM r)),
      ⟨now, sanitizeRequestM (serializeRequestM r),
        sanitizeResponseM (serializeResponse (net r))⟩)])], ?_⟩
  have h1 : stubFetchCall ⟨Mode.ensure, dirPath, saverId, rf⟩ net now ⟨[], [], [], []⟩ r
        Option.none
      = overwriteStep ⟨Mode.ensure, dirPath, saverId, rf⟩ net now
          ⟨[], [],
            [(joinPath dirPath (getFileName (sanitizeRequestM (serializeRequestM r))), [])],
            []⟩
          r (sanitizeRequestM (serializeRequestM r))
          (joinPath dirPath (getFileName (sanitizeRequestM (serializeRequestM r))))
          (getKey (sanitizeRequestM (serializeRequestM r))) Option.none := by
    show stubFetchCall.stubFetchDispatch ⟨Mode.ensure, dirPath, saverId, rf⟩ net now
        ⟨[], [], [], []⟩ r Option.none = _
    unfold stubFetchCall.stubFetchDispatch
    dsimp only []
    rw [show readStep ⟨[], [], [], []⟩
          (joinPath dirPath (getFileName (sanitizeRequestM (serializeRequestM r))))
          (getKey (sanitizeRequestM (serializeRequestM r))) Option.none
        = (Except.error CallErr.cacheMiss,
            ⟨[], [],
              [(joinPath dirPath (getFileName (sanitizeRequestM (serializeRequestM r))), [])],
              []⟩) from rfl]
  rw [h1]
  unfold overwriteStep
  dsimp only []
  rw [show doFetch net rf
        (mkdirRec
          ⟨[], [],
            [(joinPath dirPath (getFileName (sanitizeRequestM (serializeRequestM r))), [])],
            []⟩ dirPath) r
      = (net r,
          ⟨[dirPath], [],
            [(joinPath dirPath (getFileName (sanitizeRequestM (serializeRequestM r))), [])],
            [rf]⟩) from rfl]
  dsimp only []
  rw [getJsonDataMemo_hit (show lookupA
      (SaverState.mk [dirPath] []
        [(joinPath dirPath (getFileName (sanitizeRequestM (serializeRequestM r))), [])]
        [rf]).memo
      (joinPath dirPath (getFileName (sanitizeRequestM (serializeRequestM r))))
      = some [] from lookupA_single_self _ _)]
  dsimp only []
  rw [setA_nil, setA_singleton]
  have hcont : ([dirPath] : List String).contains
      (dirname (joinPath dirPath (getFileName (sanitizeRequestM (serializeRequestM r)))))
      = false := by
    cases hb : ([dirPath] : List String).contains
        (dirname (joinPath dirPath (getFileName (sanitizeRequestM (serializeRequestM r)))))
      with
    | false => rfl
    | true =>
        exfalso
        have hmem2 := (contains_eq_mem _ _).mp hb
        rw [dirname_filePath] at hmem2
        have heq : dirPath ++ "/"
            ++ encodeURIComponent (sanitizeRequestM (serializeRequestM r)).url.host
            = dirPath := by
          rcases List.mem_cons.mp hmem2 with h | h
          · exact h
          · cases h
        have hlen := congrArg String.length heq
        rw [String.length_append, String.length_append,
          show ("/" : String).length = 1 from rfl] at hlen
        omega
  rw [writeFileS_enoent hcont]

/-- The document object `#overwrite` leaves in the memo is the loaded
document with the new record set under the key: the memoized object is
updated by the write, not left stale. -/
theorem overwriteStep_memo (sv : SaverCfg) (net : ReqObs → RespObs) (now : String)
    (st : SaverState) (r : ReqObs) (sreq : SerializedRequestM)
    (filePath key : String) (sig : Option Sig) :
    (overwriteStep sv net now st r sreq filePath key sig).2.memo
      = setA (getJsonDataMemo (doFetch net sv.realFetch (mkdirRec st sv.dirPath) r).2
            filePath).2.memo
          filePath
          (setA (getJsonDataMemo (doFetch net sv.realFetch (mkdirRec st sv.dirPath) r).2
              filePath).1
            key
            ⟨now, sreq, sanitizeResponseM (serializeResponse (net r))⟩) := by
  unfold overwriteStep
  dsimp only []
  split
  · rfl
  next st5 heq =>
    have hm := (writeFileS_ok_frame heq).2.2
    split <;> exact hm

/-- After `#overwrite`, the memoized read of the file path sees the
written record. -/
theorem overwriteStep_read_back (sv : SaverCfg) (net : ReqObs → RespObs) (now : String)
    (st : SaverState) (r : ReqObs) (sreq : SerializedRequestM)
    (filePath key : String) (sig : Option Sig) :
    lookupA (getJsonDataMemo
        (overwriteStep sv net now st r sreq filePath key sig).2 filePath).1 key
      = some ⟨now, sreq, sanitizeResponseM (serializeResponse (net r))⟩ := by
  have hm := overwriteStep_memo sv net now st r sreq filePath key sig
  rw [getJsonDataMemo_hit (show lookupA
      (overwriteStep sv net now st r sreq filePath key sig).2.memo filePath
      = some (setA (getJsonDataMemo
            (doFetch net sv.realFetch (mkdirRec st sv.dirPath) r).2 filePath).1
          key ⟨now, sreq, sanitizeResponseM (serializeResponse (net r))⟩) from by
    rw [hm]
    exact lookupA_setA_self _ _ _)]
  exact lookupA_setA_self _ _ _

/-- C2: serialize-then-deserialize of a response reproduces the status,
statusText, URL and header entries exactly (for the `Headers`-entry shape:
grouped occurrences, distinct names, each with at least one value), and
the body bytes exactly on the absent, plain-text and arbitrary-bytes
paths; on the JSON path the bytes are the canonical re-rendering of the
parsed JSON value, not the original bytes. -/
theorem C2_response_roundtrip (status : Nat) (stext : String)
    (groups : List (String × List String)) (url : String) (body : Option (List Nat))
    (hne : ∀ g ∈ groups, g.2 ≠ []) (hnd : (groups.map Prod.fst).Nodup)
    (hb : ∀ bs, body = some bs → ∀ b ∈ bs, b < 256) :
    ∃ r2 : RespObs,
      deserializeResponse
          (serializeResponse ⟨status, stext, flattenGroups groups, url, body, Option.none⟩)
          Option.none
        = .ok r2
      ∧ r2.status = status ∧ r2.statusText = stext
      ∧ r2.headerEntries = flattenGroups groups
      ∧ r2.url = url
      ∧ r2.body.getD [] = (match serializeBody body with
          | .json v => utf8Encode (stringify v)
          | _ => body.getD []) := by
  obtain ⟨bs2, hok, hval⟩ := deserializeBody_serializeBody body hb
  refine ⟨⟨status, stext, deserializeHeaders (serializeHeaders (flattenGroups groups)),
    url, bs2, Option.none⟩, ?_, rfl, rfl,
    deserializeHeaders_serializeHeaders groups hne hnd, rfl, hval⟩
  unfold deserializeResponse serializeResponse
  dsimp only []
  cases hdd : deserializeBody (serializeBody body) with
  | error e =>
      rw [hdd] at hok
      exact Except.noConfusion hok
  | ok bodyBytes =>
      rw [hdd] at hok
      injection hok with h2
      subst h2
      cases bodyBytes <;> rfl

theorem C2_witness :
    (∀ g ∈ ([("content-type", ["text/plain"]), ("set-cookie", ["a=1", "b=2"])] :
        List (String × List String)), g.2 ≠ [])
    ∧ (([("content-type", ["text/plain"]), ("set-cookie", ["a=1", "b=2"])] :
        List (String × List String)).map Prod.fst).Nodup
    ∧ (∀ bs, (some [104, 105] : Option (List Nat)) = some bs → ∀ b ∈ bs, b < 256)
    ∧ ∃ r2 : RespObs,
        deserializeResponse
            (serializeResponse ⟨200, "OK",
              flattenGroups [("content-type", ["text/plain"]), ("set-cookie", ["a=1", "b=2"])],
              "https://example.com/", some [104, 105], Option.none⟩)
            Option.none
          = .ok r2
        ∧ r2.status = 200 ∧ r2.statusText = "OK"
        ∧ r2.headerEntries
            = flattenGroups [("content-type", ["text/plain"]), ("set-cookie", ["a=1", "b=2"])]
        ∧ r2.url = "https://example.com/"
        ∧ r2.body.getD [] = (match serializeBody (some [104, 105]) with
            | .json v => utf8Encode (stringify v)
            | _ => (some [104, 105] : Option (List Nat)).getD []) :=
  ⟨by decide, by decide,
    fun bs hbs => by injection hbs with h; subst h; decide,
    C2_response_roundtrip 200 "OK"
      [("content-type", ["text/plain"]), ("set-cookie", ["a=1", "b=2"])]
      "https://example.com/" (some [104, 105])
      (by decide) (by decide)
      (fun bs hbs => by injection hbs with h; subst h; decide)⟩

/-- The bytes of `'1 '` serialize on the JSON path and come back
re-rendered as `'1'`: body bytes are not always preserved. -/
theorem C2_counterexample :
    serializeBody (some [49, 32]) = SerializedBody.json (Json.num 1)
    ∧ deserializeBody (serializeBody (some [49, 32])) = .ok (some [49])
    ∧ ¬ deserializeBody (serializeBody (some [49, 32])) = .ok (some [49, 32]) := by
  have h1 : deserializeBody (serializeBody (some [49, 32])) = .ok (some [49]) := rfl
  refine ⟨rfl, h1, fun h => ?_⟩
  have h2 := h1.symm.trans h
  injection h2 with h3
  injection h3 with h4
  injection h4 with h5 h6
  exact List.noConfusion h6

/-- C7: loading the cache document: a missing file is the empty document;
an existing file whose content does not parse as JSON fails; content
parsing to a primitive or `null` fails the object check; content parsing
to an object (or an array, which the `typeof data === 'object'` check also
accepts) is returned. -/
theorem C7_load_contract (files : List (String × String)) (path : String) :
    (lookupA files path = Option.none →
      getJsonDataFromFileRaw files path = .ok (.obj []))
    ∧ (∀ text, lookupA files path = some text → jsonParse text = Option.none →
        getJsonDataFromFileRaw files path = .error .parseFail)
    ∧ (∀ text v, lookupA files path = some text → jsonParse text = some v →
        isObjectLike v = false → getJsonDataFromFileRaw files path = .error .notObject)
    ∧ (∀ text v, lookupA files path = some text → jsonParse text = some v →
        isObjectLike v = true → getJsonDataFromFileRaw files path = .ok v) := by
  refine ⟨?_, ?_, ?_, ?_⟩
  · intro h
    unfold getJsonDataFromFileRaw
    rw [h]
  · intro text h hp
    unfold getJsonDataFromFileRaw
    rw [h]
    dsimp only []
    rw [hp]
  · intro text v h hp hobj
    unfold getJsonDataFromFileRaw
    rw [h]
    dsimp only []
    rw [hp]
    dsimp only []
    rw [hobj]
    rfl
  · intro text v h hp hobj
    unfold getJsonDataFromFileRaw
    rw [h]
    dsimp only []
    rw [hp]
    dsimp only []
    rw [hobj]
    rfl

/-- A stored file whose content is the JSON array `[]` is accepted by the
load, not rejected: arrays pass the `typeof data === 'object'` check. -/
theorem C7_counterexample :
    getJsonDataFromFileRaw [("p", "[]")] "p" = .ok (.arr [])
    ∧ isObjectLike (.arr []) = true := by
  refine ⟨rfl, rfl⟩

/-- C8: immediately after `#overwrite` of a path, the memoized read of
that path yields a document holding the written record: the write updates
the memoized object rather than leaving a stale memo. -/
theorem C8_write_not_masked (sv : SaverCfg) (net : ReqObs → RespObs) (now : String)
    (st : SaverState) (r : ReqObs) (sreq : SerializedRequestM)
    (filePath key : String) (sig : Option Sig) :
    lookupA (getJsonDataMemo
        (overwriteStep sv net now st r sreq filePath key sig).2 filePath).1 key
      = some ⟨now, sreq, sanitizeResponseM (serializeResponse (net r))⟩ :=
  overwriteStep_read_back sv net now st r sreq filePath key sig

/-- C1: with mode `ensure` and an empty cache directory, the first
intercepted call does NOT return a response: it performs its one live
network call and then fails with `ENOENT`, writing no file, because
`getFileName` derives a path inside a per-host subdirectory which
`#overwrite` never creates (it only makes the cache directory itself). -/
theorem C1_ensure_empty_first_call (dirPath : String) (saverId : Nat) (rf : FetchId)
    (net : ReqObs → RespObs) (now : String) (r : ReqObs) :
    (stubFetchCall ⟨Mode.ensure, dirPath, saverId, rf⟩ net now ⟨[], [], [], []⟩ r
        Option.none).1 = Except.error CallErr.enoent
    ∧ (stubFetchCall ⟨Mode.ensure, dirPath, saverId, rf⟩ net now ⟨[], [], [], []⟩ r
        Option.none).2.trace = [rf]
    ∧ (stubFetchCall ⟨Mode.ensure, dirPath, saverId, rf⟩ net now ⟨[], [], [], []⟩ r
        Option.none).2.files = [] := by
  obtain ⟨m, hm⟩ := ensure_empty_first_call dirPath saverId rf net now r
  rw [hm]
  exact ⟨rfl, rfl, rfl⟩

/-- C5: with mode `readOnly` and no record under the derived key in the
loaded cache document, the call fails with a cache miss and performs no
live network call. -/
theorem C5_readOnly_cacheMiss (sv : SaverCfg) (net : ReqObs → RespObs) (now : String)
    (st : SaverState) (r : ReqObs)
    (hmode : sv.mode = Mode.readOnly)
    (hmiss : lookupA (getJsonDataMemo st
        (joinPath sv.dirPath (getFileName (sanitizeRequestM (serializeRequestM r))))).1
        (getKey (sanitizeRequestM (serializeRequestM r))) = Option.none) :
    (stubFetchCall sv net now st r Option.none).1 = Except.error CallErr.cacheMiss
    ∧ (stubFetchCall sv net now st r Option.none).2.trace = st.trace :=
  readOnly_cacheMiss sv net now st r hmode hmiss

theorem C5_witness :
    (SaverCfg.mk Mode.readOnly "d" 0 (FetchId.base 0)).mode = Mode.readOnly
    ∧ lookupA (getJsonDataMemo ⟨[], [], [], []⟩
        (joinPath "d" (getFileName (sanitizeRequestM (serializeRequestM
          ⟨"GET", ⟨"https:", "", "", "example.com", "/", []⟩, [], Option.none⟩))))).1
        (getKey (sanitizeRequestM (serializeRequestM
          ⟨"GET", ⟨"https:", "", "", "example.com", "/", []⟩, [], Option.none⟩)))
      = Option.none
    ∧ (stubFetchCall ⟨Mode.readOnly, "d", 0, FetchId.base 0⟩
        (fun _ => ⟨200, "", [], "", Option.none, Option.none⟩) "" ⟨[], [], [], []⟩
        ⟨"GET", ⟨"https:", "", "", "example.com", "/", []⟩, [], Option.none⟩
        Option.none).1 = Except.error CallErr.cacheMiss
    ∧ (stubFetchCall ⟨Mode.readOnly, "d", 0, FetchId.base 0⟩
        (fun _ => ⟨200, "", [], "", Option.none, Option.none⟩) "" ⟨[], [], [], []⟩
        ⟨"GET", ⟨"https:", "", "", "example.com", "/", []⟩, [], Option.none⟩
        Option.none).2.trace = ([] : List FetchId) :=
  ⟨rfl, rfl,
    (C5_readOnly_cacheMiss ⟨Mode.readOnly, "d", 0, FetchId.base 0⟩
      (fun _ => ⟨200, "", [], "", Option.none, Option.none⟩) "" ⟨[], [], [], []⟩
      ⟨"GET", ⟨"https:", "", "", "example.com", "/", []⟩, [], Option.none⟩
      rfl rfl).1,
    (C5_readOnly_cacheMiss ⟨Mode.readOnly, "d", 0, FetchId.base 0⟩
      (fun _ => ⟨200, "", [], "", Option.none, Option.none⟩) "" ⟨[], [], [], []⟩
      ⟨"GET", ⟨"https:", "", "", "example.com", "/", []⟩, [], Option.none⟩
      rfl rfl).2⟩

/-- C3: the determinism half of key derivation: two serialized requests
whose canonical JSON values are structurally equal (ignoring key order,
with well-formed objects) hash to the same key. -/
theorem C3_key_of_structure {r1 r2 : SerializedRequestM}
    (h1 : wfB (reqJson r1) = true) (h2 : wfB (reqJson r2) = true)
    (he : structEqB (reqJson r1) (reqJson r2) = true) :
    getKeyV1 r1 = getKeyV1 r2 ∧ canonicalRequestHash r1 = canonicalRequestHash r2 := by
  have h := getKeyV1_structEq h1 h2 he
  exact ⟨h, h⟩

theorem C3_witness :
    wfB (reqJson ⟨"GET", ⟨"https:", "", "", "example.com", "/", []⟩, [],
        SerializedBody.nullBody⟩) = true
    ∧ structEqB
        (reqJson ⟨"GET", ⟨"https:", "", "", "example.com", "/", []⟩, [],
          SerializedBody.nullBody⟩)
        (reqJson ⟨"GET", ⟨"https:", "", "", "example.com", "/", []⟩, [],
          SerializedBody.nullBody⟩) = true
    ∧ (getKeyV1 ⟨"GET", ⟨"https:", "", "", "example.com", "/", []⟩, [],
          SerializedBody.nullBody⟩
        = getKeyV1 ⟨"GET", ⟨"https:", "", "", "example.com", "/", []⟩, [],
          SerializedBody.nullBody⟩
      ∧ canonicalRequestHash ⟨"GET", ⟨"https:", "", "", "example.com", "/", []⟩, [],
          SerializedBody.nullBody⟩
        = canonicalRequestHash ⟨"GET", ⟨"https:", "", "", "example.com", "/", []⟩, [],
          SerializedBody.nullBody⟩) :=
  ⟨by decide, by decide, C3_key_of_structure (by decide) (by decide) (by decide)⟩

/-- C4: the password is always cleared with the username preserved, and
every surviving header name is allow-listed; but the query block-list is
not enforced: the deletion loop advances its cursor over the live keys
iterator, so deleting an entry skips the entry after it, and the blocked
key `token` survives sanitization of `?pass=a&token=b`. -/
theorem C4_sanitizer (u : UrlModel) (headers : List (String × HeaderVal)) :
    (sanitizeUrl u).password = ""
    ∧ (sanitizeUrl u).username = u.username
    ∧ (∀ p ∈ sanitizeHeaders headers,
        (allowedHeadersDefault.map lowerStr).contains (lowerStr p.1) = true)
    ∧ blockedQueryTest "token" = true
    ∧ (sanitizeUrl ⟨"https:", "", "", "example.com", "/",
        [("pass", "a"), ("token", "b")]⟩).params = [("token", "b")] :=
  ⟨rfl, rfl, sanitizeHeaders_allowed headers, by decide, by decide⟩

/-- C6: the canonicalizer gives identical strings on JSON values that are
structurally equal ignoring object key order at any depth (with
well-formed, duplicate-free objects). -/
theorem C6_canonicalize_stable {a b : Json} (ha : wfB a = true)
    (hb : wfB b = true) (he : structEqB a b = true) :
    jsonStringifyDeterministically a = jsonStringifyDeterministically b :=
  canonicalize_key_order ha hb he

theorem C6_witness :
    wfB (Json.obj [("b", Json.num 1), ("a", Json.num 2)]) = true
    ∧ wfB (Json.obj [("a", Json.num 2), ("b", Json.num 1)]) = true
    ∧ structEqB (Json.obj [("b", Json.num 1), ("a", Json.num 2)])
        (Json.obj [("a", Json.num 2), ("b", Json.num 1)]) = true
    ∧ jsonStringifyDeterministically (Json.obj [("b", Json.num 1), ("a", Json.num 2)])
      = jsonStringifyDeterministically (Json.obj [("a", Json.num 2), ("b", Json.num 1)]) :=
  ⟨by decide, by decide, by decide,
    C6_canonicalize_stable (by decide) (by decide) (by decide)⟩

/-- C9: an already-aborted signal does not make `deserializeResponse`
fail: whenever it returns a response, the abort surfaces only on reading
that response's body, which throws the signal's reason for a non-null,
non-empty body and succeeds for a null body. -/
theorem C9_signal_guards_body_only (s : SerializedResponse) (sg : Sig) (r : RespObs)
    (hab : sg.aborted = true)
    (hok : deserializeResponse s (some sg) = .ok r) :
    (∀ bs, r.body = some bs → bs ≠ [] → readAllBytes r = .error sg.reason)
    ∧ (r.body = Option.none → readAllBytes r = .ok []) := by
  unfold deserializeResponse at hok
  cases hd : deserializeBody s.body with
  | error e =>
      rw [hd] at hok
      exact Except.noConfusion hok
  | ok bodyBytes =>
      rw [hd] at hok
      dsimp only [] at hok
      injection hok with hr
      subst hr
      cases bodyBytes with
      | none =>
          constructor
          · intro bs hbs hne
            exact Option.noConfusion hbs
          · intro h
            rfl
      | some bs0 =>
          constructor
          · intro bs hbs hne
            have hb2 : some bs0 = some bs := hbs
            injection hb2 with hb3
            subst hb3
            show (if sg.aborted = true ∧ ¬bs0 = []
                then (Except.error sg.reason : Except String (List Nat))
                else .ok bs0) = .error sg.reason
            rw [if_pos ⟨hab, hne⟩]
          · intro h
            exact Option.noConfusion h

theorem C9_witness :
    (Sig.mk true "x").aborted = true
    ∧ deserializeResponse ⟨SerializedBody.text "hi", [], 200, "", ""⟩
        (some ⟨true, "x"⟩)
      = .ok ⟨200, "", [], "", some [104, 105], some ⟨true, "x"⟩⟩
    ∧ ((∀ bs, (⟨200, "", [], "", some [104, 105], some ⟨true, "x"⟩⟩ : RespObs).body
            = some bs → bs ≠ [] →
          readAllBytes ⟨200, "", [], "", some [104, 105], some ⟨true, "x"⟩⟩
            = .error "x")
      ∧ ((⟨200, "", [], "", some [104, 105], some ⟨true, "x"⟩⟩ : RespObs).body
            = Option.none →
          readAllBytes ⟨200, "", [], "", some [104, 105], some ⟨true, "x"⟩⟩
            = .ok [])) :=
  ⟨rfl, rfl,
    C9_signal_guards_body_only ⟨SerializedBody.text "hi", [], 200, "", ""⟩
      ⟨true, "x"⟩ ⟨200, "", [], "", some [104, 105], some ⟨true, "x"⟩⟩ rfl rfl⟩

/-- Deserializing with an already-aborted signal still produces a
response object, not a failure. -/
theorem C9_counterexample :
    deserializeResponse ⟨SerializedBody.text "hi", [], 200, "", ""⟩
        (some ⟨true, "boom"⟩)
      = .ok ⟨200, "", [], "", some [104, 105], some ⟨true, "boom"⟩⟩ := rfl

/-- C10: the saver's live fetch is the global fetch captured at
construction; every trace entry a stubbed call adds is that captured
function, and — whenever the captured function is not this saver's own
stub — no added entry is the stub the saver installs over the global
fetch. -/
theorem C10_construction_time_fetch (env : EnvG) (mode : Mode) (dirPath : String)
    (saverId : Nat) (net : ReqObs → RespObs) (now : String) (st : SaverState)
    (r : ReqObs) (sig : Option Sig) :
    (mkHttpSaver env mode dirPath saverId).realFetch = env.globalFetch
    ∧ (installStub env (mkHttpSaver env mode dirPath saverId)).globalFetch
        = FetchId.stubOf saverId
    ∧ (∀ f ∈ (stubFetchCall (mkHttpSaver env mode dirPath saverId) net now st r
          sig).2.trace, f ∈ st.trace ∨ f = env.globalFetch)
    ∧ (env.globalFetch ≠ FetchId.stubOf saverId →
        ∀ f ∈ (stubFetchCall (mkHttpSaver env mode dirPath saverId) net now st r
            sig).2.trace,
          f ∈ st.trace
          ∨ f ≠ (installStub env (mkHttpSaver env mode dirPath saverId)).globalFetch) := by
  have hmem : ∀ f ∈ (stubFetchCall (mkHttpSaver env mode dirPath saverId) net now st r
      sig).2.trace, f ∈ st.trace ∨ f = env.globalFetch := by
    intro f hf
    rcases stubFetchCall_trace (mkHttpSaver env mode dirPath saverId) net now st r sig
      with h | h
    · rw [h] at hf
      exact Or.inl hf
    · rw [h] at hf
      rcases List.mem_append.mp hf with h2 | h2
      · exact Or.inl h2
      · exact Or.inr (List.mem_singleton.mp h2)
  refine ⟨rfl, rfl, hmem, ?_⟩
  intro hne f hf
  rcases hmem f hf with h | h
  · exact Or.inl h
  · refine Or.inr fun he => hne ?_
    rw [← h]
    exact he

end HttpSaverProof
